import Mathlib

/-!
Circuit breaker of `blade` (package `circuitbreaker`).

A shallow embedding of `circuitbreaker/breaker.go` and `circuitbreaker/circuit.go`.

Modelling conventions.

* A `time.Time` is an integer number of nanoseconds on one time line, and a
  `time.Duration` is an integer number of nanoseconds; `t.Add(d)` is `t + d` and
  `a.Before(b)` is `a < b`.
* Every method that reads the clock (`time.Now()`) takes the instant it reads as
  the explicit argument `now`.
* A `uint64` counter is a natural number; `atomic.AddUint64` wraps modulo `2 ^ 64`.
* The mutex is not modelled: each method is one atomic step on the breaker.
* The `onStateChange` callback is an arbitrary effect.  The breaker records
  whether one is installed (`onStateChange`) and, in `notified`, the arguments of
  every invocation so far, oldest first.
-/

namespace circuitbreaker

/-! ## breaker.go -/

/-- The sentinel errors of the package, and any other error value (one that a wrapped
operation may return). -/
inductive Error where
  | ErrCircuitOpen
  | ErrTooManyRequests
  | other (msg : String)
  deriving DecidableEq, Repr

/-- The breaker state: `StateClosed = 0`, `StateHalfOpen = 1`, `StateOpen = 2`. -/
inductive State where
  | StateClosed
  | StateHalfOpen
  | StateOpen
  deriving DecidableEq, Repr

/-- The counters of a breaker, all `uint64`.  `{}` is the Go zero value `Counts{}`. -/
structure Counts where
  Requests : Nat := 0
  TotalSuccesses : Nat := 0
  TotalFailures : Nat := 0
  ConsecutiveSuccesses : Nat := 0
  ConsecutiveFailures : Nat := 0
  deriving DecidableEq, Repr

/-- One generation of a breaker: its (unused) counters and its expiry instant. -/
structure Generation where
  Counts : Counts := {}
  ExpiredAt : Int
  deriving DecidableEq, Repr

/-- A record of one invocation of the state change callback: `(name, from, to)`. -/
abbrev StateChange := String × State × State

/-- The configuration built by `NewBreaker` from its options. -/
structure Settings where
  Name : String
  MaxRequests : Nat
  Interval : Int
  Timeout : Int
  ReadyToTrip : Counts → Bool
  OnStateChange : Bool

/-- An option is a function that updates the settings in place. -/
abbrev Option_ := Settings → Settings

/-- Number of values of a `uint64`. -/
def uint64Size : Nat := 2 ^ 64

/-- The result of `atomic.AddUint64(&x, delta)`: addition modulo `2 ^ 64`. -/
def AddUint64 (x delta : Nat) : Nat := (x + delta) % uint64Size

/-- One nanosecond based `time.Second`. -/
def Second : Int := 1000000000

/-- One nanosecond based `time.Minute`. -/
def Minute : Int := 60 * Second

def WithMaxRequests (n : Nat) : Option_ := fun s => { s with MaxRequests := n }

def WithInterval (d : Int) : Option_ := fun s => { s with Interval := d }

def WithTimeout (d : Int) : Option_ := fun s => { s with Timeout := d }

def WithReadyToTrip (fn : Counts → Bool) : Option_ := fun s => { s with ReadyToTrip := fn }

/-- The installed callback is recorded as present (`true`) or `nil` (`false`). -/
def WithOnStateChange (fn : Bool) : Option_ := fun s => { s with OnStateChange := fn }

/-- The default trip predicate: `counts.ConsecutiveFailures > 5`. -/
def defaultReadyToTrip (counts : Counts) : Bool := decide (counts.ConsecutiveFailures > 5)

/-! ## circuit.go -/

/-- The breaker.  `notified` is the trace of the calls made to `onStateChange`. -/
structure circuit where
  name : String
  maxRequests : Nat
  interval : Int
  timeout : Int
  readyToTrip : Counts → Bool
  onStateChange : Bool
  state : State
  generation : Generation
  counts : Counts := {}
  notified : List StateChange := []

/-- The generation of a fresh breaker: it expires one minute after its creation. -/
def newGeneration (now : Int) : Generation := { ExpiredAt := now + Minute }

/-- The constructor: defaults, then the options in order, then a Closed breaker. -/
def NewBreaker (name : String) (opts : List Option_) (now : Int) : circuit :=
  let settings : Settings :=
    { Name := name
      MaxRequests := 1
      Interval := Minute
      Timeout := Second * 60
      ReadyToTrip := defaultReadyToTrip
      OnStateChange := true }
  let settings := opts.foldl (fun s opt => opt s) settings
  { name := settings.Name
    maxRequests := settings.MaxRequests
    interval := settings.Interval
    timeout := settings.Timeout
    readyToTrip := settings.ReadyToTrip
    onStateChange := settings.OnStateChange
    state := State.StateClosed
    generation := newGeneration now }

namespace circuit

def Name (c : circuit) : String := c.name

def State (c : circuit) : State := c.state

def Counts (c : circuit) : Counts := c.counts

/-- The method `setState(state, now)`. -/
def setState (c : circuit) (state : circuitbreaker.State) (now : Int) : circuit :=
  if c.state = state then c
  else
    let prev := c.state
    let expiry : Int :=
      match state with
      | .StateClosed => now + c.interval
      | .StateOpen => now + c.timeout
      | .StateHalfOpen => now + c.interval
    { c with
      state := state
      counts := {}
      generation := { ExpiredAt := expiry }
      notified := if c.onStateChange then c.notified ++ [(c.name, prev, state)] else c.notified }

/-- The method `toNewGeneration(now)`. -/
def toNewGeneration (c : circuit) (now : Int) : circuit :=
  { c with counts := {}, generation := { ExpiredAt := now + c.interval } }

/-- The statement `atomic.AddUint64(&c.counts.Requests, 1)`. -/
def addRequest (c : circuit) : circuit :=
  { c with counts := { c.counts with Requests := AddUint64 c.counts.Requests 1 } }

/-- What `Allow` returns, with the breaker it leaves behind: `report` tells whether the
report function is non-nil (it is then the method `done`), `err` is the error. -/
structure AllowResult where
  c : circuit
  report : Bool
  err : Option Error

/-- The method `Allow()`, reading the clock at `now`. -/
def Allow (c : circuit) (now : Int) : AllowResult :=
  let state := c.state
  let c := if c.generation.ExpiredAt < now then c.toNewGeneration now else c
  match state with
  | .StateClosed => ⟨c.addRequest, true, none⟩
  | .StateOpen =>
    if c.generation.ExpiredAt < now then
      ⟨(c.setState .StateHalfOpen now).addRequest, true, none⟩
    else
      ⟨c, false, some .ErrCircuitOpen⟩
  | .StateHalfOpen =>
    if c.counts.Requests ≥ c.maxRequests then
      ⟨c, false, some .ErrTooManyRequests⟩
    else
      ⟨c.addRequest, true, none⟩

/-- The method `Success()`, reading the clock at `now` when it changes state. -/
def Success (c : circuit) (now : Int) : circuit :=
  let c := { c with counts := { c.counts with
    TotalSuccesses := AddUint64 c.counts.TotalSuccesses 1
    ConsecutiveSuccesses := AddUint64 c.counts.ConsecutiveSuccesses 1
    ConsecutiveFailures := 0 } }
  if c.state = .StateHalfOpen ∧ c.counts.ConsecutiveSuccesses ≥ c.maxRequests then
    c.setState .StateClosed now
  else c

/-- The method `Failure()`, reading the clock at `now` when it changes state. -/
def Failure (c : circuit) (now : Int) : circuit :=
  let c := { c with counts := { c.counts with
    TotalFailures := AddUint64 c.counts.TotalFailures 1
    ConsecutiveFailures := AddUint64 c.counts.ConsecutiveFailures 1
    ConsecutiveSuccesses := 0 } }
  if c.readyToTrip c.counts then c.setState .StateOpen now else c

/-- The method `done(success)`. -/
def done (c : circuit) (success : Bool) (now : Int) : circuit :=
  if success then c.Success now else c.Failure now

/-- The method `Execute(ctx, fn)`.  The wrapped operation `fn` acts on a world `σ` of its
own and returns its error; `now` is the instant `Allow` reads and `later` the instant the
report reads.  The result is the returned error, the breaker and the world. -/
def Execute {σ : Type} (c : circuit) (fn : σ → Option Error × σ) (w : σ)
    (now later : Int) : Option Error × circuit × σ :=
  let r := c.Allow now
  match r.err with
  | some err => (some err, r.c, w)
  | none =>
    let out := fn w
    (out.1, r.c.done (out.1 == none) later, out.2)

/-- A run of report calls `Failure()`, one per instant of `nows`, in order. -/
def failures (c : circuit) (nows : List Int) : circuit :=
  nows.foldl (fun b t => b.Failure t) c

/-- A run of report calls `Success()`, one per instant of `nows`, in order. -/
def successes (c : circuit) (nows : List Int) : circuit :=
  nows.foldl (fun b t => b.Success t) c

/-- A run of `Allow()` calls, one per instant of `nows`, in order, with the error each
call returned (`none` for an admitted call). -/
def allows (c : circuit) : List Int → circuit × List (Option Error)
  | [] => (c, [])
  | t :: ts =>
    let r := c.Allow t
    let rest := allows r.c ts
    (rest.1, r.err :: rest.2)

end circuit

/-- An Open breaker as six failures leave a breaker created at instant `0` with a
timeout of five seconds: it opened at `0` and its generation expires at five seconds. -/
def openExample : circuit :=
  (NewBreaker "example" [WithTimeout (5 * Second)] 0).failures [0, 0, 0, 0, 0, 0]

/-- A HalfOpen breaker with the default settings and no request counted yet. -/
def halfOpenExample : circuit :=
  { name := "example", maxRequests := 1, interval := Minute, timeout := Second * 60,
    readyToTrip := defaultReadyToTrip, onStateChange := true,
    state := State.StateHalfOpen, generation := newGeneration 0 }

/-- An Open breaker with a negative interval: created at instant `0` with an interval of
minus one nanosecond, a timeout of five seconds and `maxRequests = 1`, and opened at `0`
by six failures, so that its generation expires at five seconds. -/
def openNegativeInterval : circuit :=
  (NewBreaker "example"
    [WithInterval (-1), WithTimeout (5 * Second), WithMaxRequests 1] 0).failures
    [0, 0, 0, 0, 0, 0]

/-- The HalfOpen breaker that `Allow()` at six seconds makes of `openNegativeInterval`:
the state the methods reach from `NewBreaker` by six failures and one admitted probe. -/
def halfOpenReached : circuit := (openNegativeInterval.Allow (6 * Second)).c

end circuitbreaker

/-!
Rate limiters of `blade` (package `ratelimit`).

A shallow embedding of `ratelimit/ratelimiter.go`, `ratelimit/token_bucket.go`,
`ratelimit/sliding_window.go` and the Go side of `ratelimit/redis_limiter.go`.

Modelling conventions, beside those of the circuit breaker.

* A `float64` is a rational number and its arithmetic is exact; `float64(n)` is the
  cast of the integer `n` and `int64(x)` truncates towards zero.
* An `int64` is an integer (no wrap-around).
* The namespace `machine`, further down, embeds the methods of the two in-process
  limiters a second time, with the rounding of `float64` and the wrap-around of
  `int64`: the two embeddings return the same where no operation of the machine rounds
  or overflows, and part elsewhere.
* A Go map from keys to values is a function from keys to optional values.
* A run-time panic (integer division by zero) is the result `none`.
* The context argument is left out of the methods that do not look at it.
-/

namespace ratelimit

/-! ## ratelimiter.go -/

/-- The errors a limiter returns: the sentinel `ErrLimitExceeded`, an error of the
store client, the three `fmt.Errorf` errors of the distributed limiter, and the error of
a done context. -/
inductive Error where
  | ErrLimitExceeded
  | backend (msg : String)
  | invalidResponse
  | invalidAllowed
  | invalidWait
  | contextDone
  deriving DecidableEq, Repr

/-- The reservation record. -/
structure Reservation where
  OK : Bool
  Limit : Int
  Tokens : Int
  TimeToAct : Int
  DelayFrom : Int
  deriving DecidableEq, Repr

namespace Reservation

/-- The method `Cancel()`. -/
def Cancel (r : Reservation) : Reservation := { r with OK := false }

/-- The method `Delay()`: `r.DelayFrom.Sub(r.TimeToAct)`. -/
def Delay (r : Reservation) : Int := r.DelayFrom - r.TimeToAct

end Reservation

/-- The limiter options (the field `Limiter`, which no constructor reads, is left out). -/
structure Options where
  Rate : ℚ
  Burst : Int
  TTL : Int := 0
  Window : Int := 0
  Precision : Int := 0

/-- An option is a function that updates the options in place. -/
abbrev Option_ := Options → Options

def WithRate (rate : ℚ) : Option_ := fun o => { o with Rate := rate }

def WithBurst (burst : Int) : Option_ := fun o => { o with Burst := burst }

def WithTTL (ttl : Int) : Option_ := fun o => { o with TTL := ttl }

def WithWindow (window : Int) : Option_ := fun o => { o with Window := window }

def WithPrecision (precision : Int) : Option_ := fun o => { o with Precision := precision }

/-- The constants `time.Second`, `time.Millisecond` and `time.Hour`, in nanoseconds. -/
def Second : Int := 1000000000

def Millisecond : Int := 1000000

def Hour : Int := 3600 * Second

/-- The method `Duration.Seconds()`: the duration as a floating-point number of seconds. -/
def Seconds (d : Int) : ℚ := (d : ℚ) / 1000000000

/-- The method `Time.Unix()`: the whole seconds of the instant, rounded down. -/
def Unix (t : Int) : Int := t / 1000000000

/-- The conversion `int64(x)` (and `time.Duration(x)`) of a floating-point number:
truncation towards zero. -/
def toInt64 (x : ℚ) : Int := if 0 ≤ x then ⌊x⌋ else ⌈x⌉

/-- What a limiter method that returns `(bool, error)` yields, with the limiter it
leaves behind. -/
structure Decision (α : Type) where
  l : α
  ok : Bool
  err : Option Error

/-- What a limiter method that returns `(*Reservation, error)` yields, with the limiter
it leaves behind; `r = none` is the nil pointer. -/
structure Reserved (α : Type) where
  l : α
  r : Option Reservation
  err : Option Error

/-! ## token_bucket.go -/

/-- One token bucket. -/
structure bucket where
  last : Int
  tokens : ℚ
  rate : ℚ
  burst : ℚ
  deriving DecidableEq, Repr

/-- The in-process token bucket limiter. -/
structure tokenBucket where
  rate : ℚ
  burst : Int
  buckets : String → Option bucket

/-- The constructor: defaults, then the options in order, then an empty map. -/
def NewTokenBucket (opts : List Option_) : tokenBucket :=
  let options : Options := { Rate := 1, Burst := 1 }
  let options := opts.foldl (fun o opt => opt o) options
  { rate := options.Rate, burst := options.Burst, buckets := fun _ => none }

namespace bucket

/-- The refill step of `AllowN` and `ReserveN`: the statements from
`elapsed := now.Sub(bkt.last).Seconds()` to `bkt.last = now`. -/
def refill (b : bucket) (now : Int) : bucket :=
  let elapsed := Seconds (now - b.last)
  let delta := elapsed * b.rate
  { b with tokens := min b.burst (b.tokens + delta), last := now }

end bucket

namespace tokenBucket

/-- The bucket of `key`, or the full bucket that is created for a key without one. -/
def getOrCreate (l : tokenBucket) (key : String) (now : Int) : bucket :=
  match l.buckets key with
  | some bkt => bkt
  | none => { last := now, tokens := (l.burst : ℚ), rate := l.rate, burst := (l.burst : ℚ) }

/-- The map with the bucket of `key` set to `bkt`. -/
def put (l : tokenBucket) (key : String) (bkt : bucket) : tokenBucket :=
  { l with buckets := fun k => if k = key then some bkt else l.buckets k }

/-- The method `AllowN(ctx, key, n, now)`. -/
def AllowN (l : tokenBucket) (key : String) (n : Int) (now : Int) : Decision tokenBucket :=
  if n ≤ 0 then ⟨l, true, none⟩
  else
    let bkt := (l.getOrCreate key now).refill now
    if bkt.tokens < (n : ℚ) then ⟨l.put key bkt, false, none⟩
    else ⟨l.put key { bkt with tokens := bkt.tokens - (n : ℚ) }, true, none⟩

/-- The method `ReserveN(ctx, key, n, now)`. -/
def ReserveN (l : tokenBucket) (key : String) (n : Int) (now : Int) : Reserved tokenBucket :=
  let bkt := (l.getOrCreate key now).refill now
  let tokens := bkt.tokens - (n : ℚ)
  let waitDuration : Int :=
    if tokens < 0 then toInt64 ((-tokens / bkt.rate) * 1000000000) else 0
  let r : Reservation :=
    { OK := true
      Limit := l.burst
      Tokens := toInt64 bkt.tokens
      TimeToAct := now + waitDuration
      DelayFrom := now }
  ⟨l.put key { bkt with tokens := tokens }, some r, none⟩

end tokenBucket

/-! ## sliding_window.go -/

/-- One entry of a sliding window: a time bucket (in seconds) and its request count. -/
structure window where
  timestamp : Int
  count : Int
  deriving DecidableEq, Repr

/-- The in-process sliding window limiter; `window` and `precision` are durations. -/
structure slidingWindow where
  rate : ℚ
  window : Int
  precision : Int
  windows : String → Option (List ratelimit.window)

/-- The constructor: defaults, then the options in order, then an empty map. -/
def NewSlidingWindow (opts : List Option_) : slidingWindow :=
  let options : Options :=
    { Rate := 1, Burst := 1, Window := Second, Precision := Millisecond * 100 }
  let options := opts.foldl (fun o opt => opt o) options
  { rate := options.Rate, window := options.Window, precision := options.Precision,
    windows := fun _ => none }

/-- The loop that adds `n` to the first entry whose timestamp is `ts`; `none` when the
loop ends with `found` false. -/
def addToFirst (ts n : Int) : List window → Option (List window)
  | [] => none
  | w :: ws =>
    if w.timestamp = ts then some ({ w with count := w.count + n } :: ws)
    else (addToFirst ts n ws).map (fun rest => w :: rest)

/-- The update of the current window: add to the entry found, or append a new entry. -/
def upsert (ws : List window) (ts n : Int) : List window :=
  match addToFirst ts n ws with
  | some ws' => ws'
  | none => ws ++ [{ timestamp := ts, count := n }]

/-- The sum `count` of the request counts of a list of entries. -/
def sumCounts (ws : List window) : Int := (ws.map (fun w => w.count)).sum

namespace slidingWindow

/-- The value `expireTime` of a call at `now`. -/
def expireTime (l : slidingWindow) (now : Int) : Int := Unix now - toInt64 (Seconds l.window)

/-- The list `validWindows` of a call at `now`: the entries of `key` that have not
expired, in order (none for a key without entries). -/
def validWindows (l : slidingWindow) (key : String) (now : Int) :
    List ratelimit.window :=
  ((l.windows key).getD []).filter (fun w => decide (w.timestamp > l.expireTime now))

/-- The value `maxRequests`: `int64(l.rate * l.window.Seconds())`. -/
def maxRequests (l : slidingWindow) : Int := toInt64 (l.rate * Seconds l.window)

/-- The value `precisionSeconds`: `int64(l.precision.Seconds())`. -/
def precisionSeconds (l : slidingWindow) : Int := toInt64 (Seconds l.precision)

/-- The value `currentTimestamp` of a call at `now`, with the truncated remainder of
Go; the remainder panics when `precisionSeconds` is zero. -/
def currentTimestamp (l : slidingWindow) (now : Int) : Option Int :=
  if l.precisionSeconds = 0 then none
  else some (Unix now - Int.tmod (Unix now) l.precisionSeconds)

/-- The map with the entries of `key` set to `ws`. -/
def put (l : slidingWindow) (key : String) (ws : List ratelimit.window) : slidingWindow :=
  { l with windows := fun k => if k = key then some ws else l.windows k }

/-- The method `AllowN(ctx, key, n, now)`; `none` when it panics. -/
def AllowN (l : slidingWindow) (key : String) (n : Int) (now : Int) :
    Option (Decision slidingWindow) :=
  if n ≤ 0 then some ⟨l, true, none⟩
  else
    let validWindows := l.validWindows key now
    let count := sumCounts validWindows
    if count + n > l.maxRequests then some ⟨l.put key validWindows, false, none⟩
    else
      match l.currentTimestamp now with
      | none => none
      | some currentTimestamp =>
        some ⟨l.put key (upsert validWindows currentTimestamp n), true, none⟩

/-- The method `ReserveN(ctx, key, n, now)`. -/
def ReserveN (l : slidingWindow) (key : String) (n : Int) (now : Int) :
    Reserved slidingWindow :=
  let validWindows := l.validWindows key now
  let count := sumCounts validWindows
  let waitDuration : Int :=
    if count + n > l.maxRequests then
      toInt64 ((((count + n - l.maxRequests : Int) : ℚ) / l.rate) * (Second : ℚ))
    else 0
  let r : Reservation :=
    { OK := true
      Limit := l.maxRequests
      Tokens := n
      TimeToAct := now + waitDuration
      DelayFrom := now }
  ⟨l.put key validWindows, some r, none⟩

/-- A run of `AllowN` calls on `key`, one per pair `(n, now)`, in order, with the
decisions; `none` when a call panics. -/
def allowRun (l : slidingWindow) (key : String) :
    List (Int × Int) → Option (slidingWindow × List Bool)
  | [] => some (l, [])
  | (n, now) :: rest =>
    (l.AllowN key n now).bind fun d =>
      (allowRun d.l key rest).map fun p => (p.1, d.ok :: p.2)

end slidingWindow

/-! ## redis_limiter.go -/

/-- A value of a store reply, as the client hands it over (`interface{}`). -/
inductive Value where
  | int (i : Int)
  | float (x : ℚ)
  | str (s : String)
  | null
  | array (xs : List Value)

/-- The text `fmt.Sprintf("%.2f", rate)` as a number: `rate` rounded to two decimals,
ties to the even neighbour. -/
def formatRate (rate : ℚ) : ℚ :=
  let x := rate * 100
  let f := ⌊x⌋
  let d := x - (f : ℚ)
  if d < 1 / 2 then (f : ℚ) / 100
  else if 1 / 2 < d then ((f + 1 : Int) : ℚ) / 100
  else if f % 2 = 0 then (f : ℚ) / 100
  else ((f + 1 : Int) : ℚ) / 100

/-- One call `rdb.Eval(ctx, luaScript, []string{key}, args)`: the key and the five
arguments of the script. -/
structure EvalCall where
  key : String
  now : Int
  requested : Int
  rate : ℚ
  burst : Int
  ttl : Int
  deriving DecidableEq, Repr

/-- The distributed limiter over a store with states `σ`; `rdb` is the client: what one
`Eval` call returns (an error or a value) and the store it leaves behind. -/
structure redisLimiter (σ : Type) where
  rdb : EvalCall → σ → Except Error Value × σ
  rate : ℚ
  burst : Int
  ttl : Int

/-- The constructor: defaults, then the options in order. -/
def NewRedisLimiter {σ : Type} (rdb : EvalCall → σ → Except Error Value × σ)
    (opts : List Option_) : redisLimiter σ :=
  let options : Options := { Rate := 1, Burst := 1, TTL := Hour }
  let options := opts.foldl (fun o opt => opt o) options
  { rdb := rdb, rate := options.Rate, burst := options.Burst, ttl := options.TTL }

namespace redisLimiter

/-- The call that `AllowN` and `ReserveN` send to the store. -/
def evalCall {σ : Type} (l : redisLimiter σ) (key : String) (n now : Int) : EvalCall :=
  { key := key
    now := Unix now
    requested := n
    rate := formatRate l.rate
    burst := l.burst
    ttl := toInt64 (Seconds l.ttl) }

/-- What a method of the distributed limiter leaves behind: the store and the calls it
sent to the store, in order. -/
structure Sent (σ : Type) (β : Type) where
  store : σ
  calls : List EvalCall
  out : β

/-- The method `AllowN(ctx, key, n, now)` on the store `s`: the decision and the error. -/
def AllowN {σ : Type} (l : redisLimiter σ) (s : σ) (key : String) (n now : Int) :
    Sent σ (Bool × Option Error) :=
  if n ≤ 0 then ⟨s, [], (true, none)⟩
  else
    let call := l.evalCall key n now
    match l.rdb call s with
    | (Except.error err, s') => ⟨s', [call], (false, some err)⟩
    | (Except.ok results, s') =>
      match results with
      | Value.array [allowed, _] =>
        match allowed with
        | Value.int a => ⟨s', [call], (decide (a = 1), none)⟩
        | _ => ⟨s', [call], (false, some Error.invalidAllowed)⟩
      | _ => ⟨s', [call], (false, some Error.invalidResponse)⟩

end redisLimiter

/-- Every bucket of the limiter holds at most its capacity. -/
def tokenBucket.levelsCapped (l : tokenBucket) : Prop :=
  ∀ key bkt, l.buckets key = some bkt → bkt.tokens ≤ bkt.burst

/-- A token bucket limiter with rate one and burst one and no bucket yet. -/
def tokenBucketExample : tokenBucket := NewTokenBucket []

/-- A sliding window limiter with rate ten, a window of one second and a precision of
one second, and no entry yet. -/
def slidingWindowExample : slidingWindow :=
  NewSlidingWindow [WithRate 10, WithWindow Second, WithPrecision Second]

end ratelimit

/-! ## Runs of calls on a breaker -/

namespace circuitbreaker

/-- One call on a breaker, with the instant at which it reads the clock. -/
inductive Call where
  | Allow (now : Int)
  | Success (now : Int)
  | Failure (now : Int)
  deriving DecidableEq, Repr

namespace circuit

/-- A run of calls, in order: the breaker it leaves and the errors that the `Allow()`
calls of the run returned, in order (`none` for an admitted call). -/
def run (c : circuit) : List Call → circuit × List (Option Error)
  | [] => (c, [])
  | Call.Allow now :: rest =>
    let r := c.Allow now
    let out := run r.c rest
    (out.1, r.err :: out.2)
  | Call.Success now :: rest => run (c.Success now) rest
  | Call.Failure now :: rest => run (c.Failure now) rest

end circuit

/-- The instant at which a call reads the clock. -/
def Call.instant : Call → Int
  | Call.Allow now => now
  | Call.Success now => now
  | Call.Failure now => now

end circuitbreaker

/-! ## The waiting methods of the in-process limiters -/

namespace ratelimit

/-- A context, as far as `WaitN` looks at it: the instant at which its `Done()` channel
closes (deadline or cancellation), if it ever does. -/
structure Context where
  doneAt : Option Int
  deriving DecidableEq, Repr

/-- The statement `select { case <-ctx.Done(): ... case <-time.After(delay): ... }` entered
at `now`: the error of the context when it is done by the end of the delay, and nil
otherwise (when both channels are ready the model takes the context). -/
def selectDone (ctx : Context) (now delay : Int) : Option Error :=
  match ctx.doneAt with
  | some d => if d ≤ now + delay then some Error.contextDone else none
  | none => none

/-- The part of `WaitN` after the failed `AllowN`, shared by the two in-process
limiters: from the result of `ReserveN` to the returned error. -/
def waitReserved {α : Type} (ctx : Context) (now : Int) (res : Reserved α) : α × Option Error :=
  match res.err with
  | some err => (res.l, some err)
  | none =>
    match res.r with
    | none => (res.l, none)
    | some reservation =>
      if reservation.OK = false then (res.l, some Error.ErrLimitExceeded)
      else
        let delay := reservation.DelayFrom - now
        if delay ≤ 0 then (res.l, none)
        else (res.l, selectDone ctx now delay)

/-- The method `WaitN(ctx, key, n, now)` of the token bucket: the limiter it leaves and
the returned error. -/
def tokenBucket.WaitN (l : tokenBucket) (ctx : Context) (key : String) (n now : Int) :
    tokenBucket × Option Error :=
  let d := l.AllowN key n now
  if d.ok then (d.l, none)
  else waitReserved ctx now (d.l.ReserveN key n now)

/-- The method `WaitN(ctx, key, n, now)` of the sliding window; `none` when it panics. -/
def slidingWindow.WaitN (l : slidingWindow) (ctx : Context) (key : String) (n now : Int) :
    Option (slidingWindow × Option Error) :=
  match l.AllowN key n now with
  | none => none
  | some d =>
    if d.ok then some (d.l, none)
    else some (waitReserved ctx now (d.l.ReserveN key n now))

/-! ## Runs of `AllowN` calls on the token bucket -/

/-- A run of `AllowN` calls on `key`, one per pair `(n, now)`, in order, with the
decisions. -/
def tokenBucket.allowRun (l : tokenBucket) (key : String) :
    List (Int × Int) → tokenBucket × List Bool
  | [] => (l, [])
  | (n, now) :: rest =>
    let d := l.AllowN key n now
    let out := tokenBucket.allowRun d.l key rest
    (out.1, d.ok :: out.2)

/-- The sum of the costs of the calls `(n, now)` that were admitted at instants up to
`t`, given the calls of a run and its decisions. -/
def admittedUpTo (t : Int) : List (Int × Int) → List Bool → Int
  | (n, now) :: calls, ok :: oks =>
    (if ok = true ∧ now ≤ t then n else 0) + admittedUpTo t calls oks
  | _, _ => 0

/-- The precision bucket in which the sliding window limiter `l` counts a request made
at `now`: the value `currentTimestamp` of the call. -/
def slidingWindow.bucketOf (l : slidingWindow) (now : Int) : Int :=
  Unix now - Int.tmod (Unix now) l.precisionSeconds

/-- The sum of the costs of the admitted calls `(n, now)` of a run that satisfy `p now`,
given the calls and the decisions. -/
def admittedWhere (p : Int → Bool) : List (Int × Int) → List Bool → Int
  | (n, now) :: calls, ok :: oks =>
    (if ok = true ∧ p now = true then n else 0) + admittedWhere p calls oks
  | _, _ => 0

/-! ## The script of the distributed limiter -/

/-- The hash that the store holds under a key: the numbers in its fields `last` and
`tokens` (`none` for a missing field, as for a missing key) and the time to live set by
`expire`. -/
structure Hash where
  last : Option ℚ := none
  tokens : Option ℚ := none
  ttl : Option Int := none
  deriving DecidableEq, Repr

/-- The table that the script returns: the decision and the wait. -/
structure ScriptReply where
  allowed : Int
  wait : ℚ
  deriving DecidableEq, Repr

/-- The script `luaScript`, run on the hash stored under `KEYS[1]` with the arguments of
the call: the returned table and the hash afterwards.  Lua numbers are rationals. -/
def luaScript (bucket : Hash) (call : EvalCall) : ScriptReply × Hash :=
  let now : ℚ := (call.now : ℚ)
  let requested : ℚ := (call.requested : ℚ)
  let rate : ℚ := call.rate
  let burst : ℚ := (call.burst : ℚ)
  let last := bucket.last.getD now
  let tokens := bucket.tokens.getD burst
  let elapsed := max 0 (now - last)
  let delta := elapsed * rate
  let tokens := min burst (tokens + delta)
  if tokens < requested then
    ({ allowed := 0, wait := (requested - tokens) / rate }, bucket)
  else
    let tokens := tokens - requested
    ({ allowed := 1, wait := 0 },
      { last := some now, tokens := some tokens, ttl := some call.ttl })

/-- A store that runs the script: the client over the map from keys to hashes.  The
store turns the numbers of the returned table into integers, by truncation. -/
def scriptClient (call : EvalCall) (s : String → Hash) : Except Error Value × (String → Hash) :=
  let out := luaScript (s call.key) call
  (Except.ok (Value.array [Value.int out.1.allowed, Value.int (toInt64 out.1.wait)]),
    fun k => if k = call.key then out.2 else s k)

/-- A run of `AllowN` calls of the distributed limiter on `key`, one per pair
`(n, now)`, in order, from the store `s`: the store it leaves and what the calls
returned. -/
def redisLimiter.allowRun {σ : Type} (l : redisLimiter σ) (key : String) (s : σ) :
    List (Int × Int) → σ × List (Bool × Option Error)
  | [] => (s, [])
  | (n, now) :: rest =>
    let r := l.AllowN s key n now
    let out := redisLimiter.allowRun l key r.store rest
    (out.1, r.out :: out.2)

end ratelimit

/-!
Middleware of `blade` (package `middleware`): a shallow embedding of
`middleware/middleware.go`.  A handler either returns a response and an error or panics
with a value; the context and the request are one argument.
-/

namespace middleware

/-- A value given to `panic`: an error value, or a value that is not an error (such as
a string). -/
inductive PanicValue where
  | error (msg : String)
  | other (text : String)
  deriving DecidableEq, Repr

/-- What a call of a handler does: it returns `(resp, err)`, or it panics. -/
inductive Outcome (ρ : Type) where
  | returned (resp : Option ρ) (err : Option String)
  | panicked (r : PanicValue)

/-- The type `Handler`. -/
abbrev Handler (α ρ : Type) := α → Outcome ρ

/-- The type `Middleware`. -/
abbrev Middleware (α ρ : Type) := Handler α ρ → Handler α ρ

/-- The function `Chain`. -/
def Chain {α ρ : Type} (middlewares : List (Middleware α ρ)) : Middleware α ρ :=
  fun next => middlewares.foldr (fun m h => m h) next

/-- The function `recoverError`. -/
def recoverError (r : PanicValue) : Option String :=
  match r with
  | PanicValue.error msg => some msg
  | PanicValue.other _ => none

/-- The function `Recovery`: the deferred function sets the named result `err` when the
wrapped handler panics, and `resp` keeps its zero value. -/
def Recovery {α ρ : Type} : Middleware α ρ :=
  fun next req =>
    match next req with
    | Outcome.returned resp err => Outcome.returned resp err
    | Outcome.panicked r => Outcome.returned none (recoverError r)

end middleware

/-! ## Limiters that agree on a key -/

namespace ratelimit

/-- Two token bucket limiters have the same settings and the same bucket for `key`. -/
def tokenBucket.agreeOn (key : String) (l1 l2 : tokenBucket) : Prop :=
  l1.rate = l2.rate ∧ l1.burst = l2.burst ∧ l1.buckets key = l2.buckets key

/-- Two sliding window limiters have the same settings and the same entries for `key`. -/
def slidingWindow.agreeOn (key : String) (l1 l2 : slidingWindow) : Prop :=
  l1.rate = l2.rate ∧ l1.window = l2.window ∧ l1.precision = l2.precision ∧
    l1.windows key = l2.windows key

end ratelimit

/-! ## Measures used by the bounds on the sliding window and by the comparison of the
two token buckets -/

namespace ratelimit

/-- The sum of the counts of the entries with a timestamp above `e`. -/
def liveSum (e : Int) (ws : List window) : Int :=
  sumCounts (ws.filter (fun w => decide (w.timestamp > e)))

/-- The level that the script computes, before it compares it with the request, for
the hash `h` at the whole second `t`. -/
def scriptLevel (burst rate : ℚ) (h : Hash) (t : Int) : ℚ :=
  min burst (h.tokens.getD burst + max 0 ((t : ℚ) - h.last.getD (t : ℚ)) * rate)

/-- The level that `AllowN` of the token bucket computes, before it compares it with
the request, for `key` at the whole second `t`. -/
def tokenBucket.levelAt (l : tokenBucket) (key : String) (t : Int) : ℚ :=
  ((l.getOrCreate key (t * Second)).refill (t * Second)).tokens

/-- The hash was written by the script at a whole second up to `tprev`, or not at all. -/
def Hash.writtenBy (h : Hash) (tprev : Int) : Prop :=
  (h.last = none ∧ h.tokens = none) ∨
    ∃ (L : Int) (x : ℚ), h.last = some (L : ℚ) ∧ h.tokens = some x ∧ L ≤ tprev

/-- The bucket of `key`, if any, has the settings of the limiter and was refilled at a
whole second up to `tprev`. -/
def tokenBucket.refilledBy (l : tokenBucket) (key : String) (tprev : Int) : Prop :=
  l.buckets key = none ∨
    ∃ (b : bucket) (L : Int), l.buckets key = some b ∧ b.rate = l.rate ∧
      b.burst = (l.burst : ℚ) ∧ b.last = L * Second ∧ L ≤ tprev

end ratelimit

/-!
The rate limiters with the arithmetic of the machine.

The definitions of the limiters above take the arithmetic exactly: a `float64` is a
rational number and an `int64` an integer.  The definitions of this section are a second
embedding of `tokenBucket.AllowN`, `tokenBucket.ReserveN` and `slidingWindow.AllowN`
that keeps what the machine does.

* A finite `float64` is the rational number it stands for.  A conversion to `float64`
  and every `float64` operation give the exact result rounded to the nearest `float64`,
  to the one with the even significand when two are equally near (IEEE 754 binary64: 53
  significant bits, exponents from `-1022` to `1023`); no two operations are fused.
* An `int64` operation wraps around modulo `2 ^ 64`; `Time.Sub` saturates.
* The result is `none` when a `float64` is not finite (an overflow, a division by
  zero) or a conversion of a `float64` to `int64` is out of range, whose result Go leaves
  to the implementation, and when the call panics.
-/

namespace ratelimit

namespace machine

/-- The integer nearest to `x`, the even one when `x` is half way between two. -/
def roundHalfEven (x : ℚ) : Int :=
  let f := ⌊x⌋
  let d := x - (f : ℚ)
  if d < 1 / 2 then f
  else if 1 / 2 < d then f + 1
  else if f % 2 = 0 then f else f + 1

/-- The `float64` nearest to the real number `x`: with `e` the binary exponent of `x`
(at least `-1022`, below which the numbers are subnormal), the multiple of `2 ^ (e - 52)`
nearest to `x`, ties to even; `none` when that is `2 ^ 1024` or more in magnitude (the
result is an infinity). -/
def float64 (x : ℚ) : Option ℚ :=
  if x = 0 then some 0
  else
    let e : Int := max (Int.log 2 |x|) (-1022)
    let q : ℚ := (2 : ℚ) ^ (e - 52)
    let y : ℚ := (roundHalfEven (x / q) : ℚ) * q
    if |y| < (2 : ℚ) ^ (1024 : Int) then some y else none

/-- The conversion `int64(x)` (and `time.Duration(x)`) of a `float64`: truncation
towards zero; `none` out of the range of `int64`. -/
def int64 (x : ℚ) : Option Int :=
  if -(2 : Int) ^ 63 ≤ toInt64 x ∧ toInt64 x < (2 : Int) ^ 63 then some (toInt64 x) else none

/-- The `int64` that an integer operation with the exact result `z` yields. -/
def wrapInt64 (z : Int) : Int := (z + 2 ^ 63) % 2 ^ 64 - 2 ^ 63

/-- The method `Time.Sub`: the difference as a duration, saturated at the least and the
largest `int64`. -/
def Sub (t u : Int) : Int := max (-(2 : Int) ^ 63) (min ((2 : Int) ^ 63 - 1) (t - u))

/-- The method `Duration.Seconds()`:
`sec := d / Second; nsec := d % Second; return float64(sec) + float64(nsec)/1e9`. -/
def Seconds (d : Int) : Option ℚ := do
  let sec ← float64 ((Int.tdiv d 1000000000 : Int) : ℚ)
  let nsec ← float64 ((Int.tmod d 1000000000 : Int) : ℚ)
  let frac ← float64 (nsec / 1000000000)
  float64 (sec + frac)

namespace tokenBucket

/-- The bucket of `key`, or the full bucket created for a key without one, with the
level and the capacity `float64(l.burst)`. -/
def getOrCreate (l : tokenBucket) (key : String) (now : Int) : Option bucket :=
  match l.buckets key with
  | some bkt => some bkt
  | none =>
    (float64 (l.burst : ℚ)).map fun b =>
      { last := now, tokens := b, rate := l.rate, burst := b }

/-- The refill step: the statements from `elapsed := now.Sub(bkt.last).Seconds()` to
`bkt.last = now`. -/
def refill (b : bucket) (now : Int) : Option bucket := do
  let elapsed ← Seconds (Sub now b.last)
  let delta ← float64 (elapsed * b.rate)
  let sum ← float64 (b.tokens + delta)
  some { b with tokens := min b.burst sum, last := now }

/-- The method `AllowN(ctx, key, n, now)` of the token bucket. -/
def AllowN (l : tokenBucket) (key : String) (n : Int) (now : Int) :
    Option (Decision tokenBucket) :=
  if n ≤ 0 then some ⟨l, true, none⟩
  else do
    let bkt ← getOrCreate l key now
    let bkt ← refill bkt now
    let cost ← float64 (n : ℚ)
    if bkt.tokens < cost then some ⟨l.put key bkt, false, none⟩
    else do
      let tokens ← float64 (bkt.tokens - cost)
      some ⟨l.put key { bkt with tokens := tokens }, true, none⟩

/-- The wait of `ReserveN`: zero, or for a level below zero
`time.Duration((-tokens/bkt.rate)*1e9) * time.Nanosecond`. -/
def waitDuration (tokens rate : ℚ) : Option Int :=
  if tokens < 0 then
    if rate = 0 then none
    else do
      let seconds ← float64 (-tokens / rate)
      let nanos ← float64 (seconds * 1000000000)
      int64 nanos
  else some 0

/-- The method `ReserveN(ctx, key, n, now)` of the token bucket. -/
def ReserveN (l : tokenBucket) (key : String) (n : Int) (now : Int) :
    Option (Reserved tokenBucket) := do
  let bkt ← getOrCreate l key now
  let bkt ← refill bkt now
  let cost ← float64 (n : ℚ)
  let tokens ← float64 (bkt.tokens - cost)
  let wait ← waitDuration tokens bkt.rate
  let level ← int64 bkt.tokens
  let r : Reservation :=
    { OK := true
      Limit := l.burst
      Tokens := level
      TimeToAct := now + wait
      DelayFrom := now }
  some ⟨l.put key { bkt with tokens := tokens }, some r, none⟩

/-- No conversion and no operation of `AllowN(ctx, key, n, now)` rounds: `float64(burst)`,
the elapsed seconds (with `Time.Sub` not saturated), the tokens added, the new level,
`float64(n)` and the level less the cost are `float64` numbers. -/
def exactAllowN (l : tokenBucket) (key : String) (n now : Int) : Prop :=
  float64 (l.burst : ℚ) = some (l.burst : ℚ) ∧
  Seconds (Sub now (l.getOrCreate key now).last) =
    some (ratelimit.Seconds (now - (l.getOrCreate key now).last)) ∧
  float64 (ratelimit.Seconds (now - (l.getOrCreate key now).last) *
      (l.getOrCreate key now).rate) =
    some (ratelimit.Seconds (now - (l.getOrCreate key now).last) *
      (l.getOrCreate key now).rate) ∧
  float64 ((l.getOrCreate key now).tokens +
      ratelimit.Seconds (now - (l.getOrCreate key now).last) *
        (l.getOrCreate key now).rate) =
    some ((l.getOrCreate key now).tokens +
      ratelimit.Seconds (now - (l.getOrCreate key now).last) *
        (l.getOrCreate key now).rate) ∧
  float64 (n : ℚ) = some (n : ℚ) ∧
  float64 (((l.getOrCreate key now).refill now).tokens - (n : ℚ)) =
    some (((l.getOrCreate key now).refill now).tokens - (n : ℚ))

/-- No conversion and no operation of `ReserveN(ctx, key, n, now)` rounds or leaves the
range of `int64`: those of `AllowN`, and, when the level less the cost is below zero, the
wait in seconds and in nanoseconds are `float64` numbers and the latter is in the range
of `int64`; the level is in the range of `int64`. -/
def exactReserveN (l : tokenBucket) (key : String) (n now : Int) : Prop :=
  exactAllowN l key n now ∧
  (((l.getOrCreate key now).refill now).tokens - (n : ℚ) < 0 →
    float64 (-(((l.getOrCreate key now).refill now).tokens - (n : ℚ)) /
        (l.getOrCreate key now).rate) =
      some (-(((l.getOrCreate key now).refill now).tokens - (n : ℚ)) /
        (l.getOrCreate key now).rate) ∧
    float64 (-(((l.getOrCreate key now).refill now).tokens - (n : ℚ)) /
        (l.getOrCreate key now).rate * 1000000000) =
      some (-(((l.getOrCreate key now).refill now).tokens - (n : ℚ)) /
        (l.getOrCreate key now).rate * 1000000000) ∧
    -(2 : Int) ^ 63 ≤ toInt64 (-(((l.getOrCreate key now).refill now).tokens - (n : ℚ)) /
        (l.getOrCreate key now).rate * 1000000000) ∧
    toInt64 (-(((l.getOrCreate key now).refill now).tokens - (n : ℚ)) /
        (l.getOrCreate key now).rate * 1000000000) < (2 : Int) ^ 63) ∧
  -(2 : Int) ^ 63 ≤ toInt64 ((l.getOrCreate key now).refill now).tokens ∧
  toInt64 ((l.getOrCreate key now).refill now).tokens < (2 : Int) ^ 63

end tokenBucket

/-- The sum `count` of the loop `count += w.count`. -/
def sumCounts (ws : List window) : Int :=
  ws.foldl (fun count w => wrapInt64 (count + w.count)) 0

/-- The loop that adds `n` to the first entry whose timestamp is `ts`; `none` when the
loop ends with `found` false. -/
def addToFirst (ts n : Int) : List window → Option (List window)
  | [] => none
  | w :: ws =>
    if w.timestamp = ts then some ({ w with count := wrapInt64 (w.count + n) } :: ws)
    else (addToFirst ts n ws).map (fun rest => w :: rest)

/-- The update of the current window: add to the entry found, or append a new entry. -/
def upsert (ws : List window) (ts n : Int) : List window :=
  match addToFirst ts n ws with
  | some ws2 => ws2
  | none => ws ++ [{ timestamp := ts, count := n }]

namespace slidingWindow

/-- The method `AllowN(ctx, key, n, now)` of the sliding window. -/
def AllowN (l : slidingWindow) (key : String) (n : Int) (now : Int) :
    Option (Decision slidingWindow) :=
  if n ≤ 0 then some ⟨l, true, none⟩
  else do
    let timestamp := Unix now
    let windowSeconds ← Seconds l.window
    let windowSize ← int64 windowSeconds
    let expireTime := wrapInt64 (timestamp - windowSize)
    let validWindows :=
      ((l.windows key).getD []).filter (fun w => decide (w.timestamp > expireTime))
    let count := sumCounts validWindows
    let product ← float64 (l.rate * windowSeconds)
    let maxRequests ← int64 product
    if wrapInt64 (count + n) > maxRequests then some ⟨l.put key validWindows, false, none⟩
    else do
      let precisionFloat ← Seconds l.precision
      let precisionSeconds ← int64 precisionFloat
      if precisionSeconds = 0 then none
      else
        let currentTimestamp := wrapInt64 (timestamp - Int.tmod timestamp precisionSeconds)
        some ⟨l.put key (upsert validWindows currentTimestamp n), true, none⟩

/-- A run of `AllowN` calls on `key`, one per pair `(n, now)`, in order, with the
decisions. -/
def allowRun (l : slidingWindow) (key : String) :
    List (Int × Int) → Option (slidingWindow × List Bool)
  | [] => some (l, [])
  | (n, now) :: rest =>
    (AllowN l key n now).bind fun d =>
      (allowRun d.l key rest).map fun p => (p.1, d.ok :: p.2)

end slidingWindow

/-- The integer `z` is an `int64`. -/
def isInt64 (z : Int) : Prop := -2 ^ 63 ≤ z ∧ z < 2 ^ 63

end machine

end ratelimit

/-! ## General facts about the methods -/

namespace circuitbreaker

open circuit

theorem AddUint64_one_of_lt {x : Nat} (h : x + 1 < uint64Size) : AddUint64 x 1 = x + 1 := by
  unfold AddUint64
  exact Nat.mod_eq_of_lt h

theorem AddUint64_zero_one : AddUint64 0 1 = 1 := by decide

theorem setState_same (c : circuit) (now : Int) : c.setState c.state now = c := by
  simp [setState]

theorem setState_state (c : circuit) (s : State) (now : Int) : (c.setState s now).state = s := by
  unfold setState
  split
  · assumption
  · rfl

theorem setState_counts_of_ne (c : circuit) (s : State) (now : Int) (h : c.state ≠ s) :
    (c.setState s now).counts = {} := by
  simp [setState, h]

/-- With a non-negative interval an Open breaker rejects every call of `Allow`, at
every instant, and stays Open: the generation check at the head of `Allow` has already
replaced an expired generation when the Open branch tests the expiry. -/
theorem Allow_open_of_interval_nonneg (c : circuit) (now : Int)
    (hs : c.state = State.StateOpen) (hi : 0 ≤ c.interval) :
    (c.Allow now).err = some Error.ErrCircuitOpen ∧ (c.Allow now).report = false ∧
      (c.Allow now).c.state = State.StateOpen := by
  unfold Allow
  simp only [hs]
  by_cases hexp : c.generation.ExpiredAt < now
  · have hnot : ¬ (now + c.interval < now) := by omega
    simp [hexp, toNewGeneration, hnot, hs]
  · simp [hexp, hs]

theorem Failure_state_open (c : circuit) (now : Int) (hs : c.state = State.StateOpen) :
    (c.Failure now).state = State.StateOpen := by
  simp only [Failure]
  split
  · exact setState_state _ _ _
  · exact hs

theorem failures_state_open (nows : List Int) (c : circuit) (hs : c.state = State.StateOpen) :
    (c.failures nows).state = State.StateOpen := by
  induction nows generalizing c with
  | nil => exact hs
  | cons t ts ih => exact ih (c.Failure t) (Failure_state_open c t hs)

/-- A run of failures on a Closed breaker with the default trip predicate that has `k`
consecutive failures so far, `k` at most five: it is Open afterwards exactly when the
consecutive failures have passed five. -/
theorem failures_default_closed (nows : List Int) (c : circuit) (k : Nat)
    (hp : c.readyToTrip = defaultReadyToTrip) (hs : c.state = State.StateClosed)
    (hk : c.counts.ConsecutiveFailures = k) (hk5 : k ≤ 5) :
    ((c.failures nows).state = State.StateOpen ↔ 6 ≤ k + nows.length) ∧
      (k + nows.length ≤ 5 → (c.failures nows).state = State.StateClosed ∧
        (c.failures nows).counts.ConsecutiveFailures = k + nows.length) := by
  induction nows generalizing c k with
  | nil =>
    simp only [failures, List.foldl_nil, List.length_nil, Nat.add_zero]
    refine ⟨?_, fun _ => ⟨hs, hk⟩⟩
    rw [hs]
    constructor
    · intro h; cases h
    · intro h; omega
  | cons t ts ih =>
    have hstep : c.failures (t :: ts) = (c.Failure t).failures ts := rfl
    rw [hstep, List.length_cons]
    have hadd : AddUint64 c.counts.ConsecutiveFailures 1 = k + 1 := by
      rw [hk]
      apply AddUint64_one_of_lt
      have : (2 : Nat) ^ 64 = 18446744073709551616 := by norm_num
      unfold uint64Size
      omega
    by_cases h5 : k = 5
    · have hopen : (c.Failure t).state = State.StateOpen := by
        unfold Failure
        simp only [hp, defaultReadyToTrip, hadd, h5]
        simp [setState_state]
      have := failures_state_open ts (c.Failure t) hopen
      rw [this]
      constructor
      · constructor
        · intro _; omega
        · intro _; rfl
      · intro h; omega
    · have hk4 : k + 1 ≤ 5 := by omega
      have hnot : ¬ (5 < k + 1) := by omega
      have hF : c.Failure t = { c with counts := { c.counts with
          TotalFailures := AddUint64 c.counts.TotalFailures 1
          ConsecutiveFailures := AddUint64 c.counts.ConsecutiveFailures 1
          ConsecutiveSuccesses := 0 } } := by
        unfold Failure
        simp only [hp, defaultReadyToTrip, hadd]
        simp [hnot]
      have hres := ih (c.Failure t) (k + 1) (by rw [hF]; exact hp) (by rw [hF]; exact hs)
        (by rw [hF]; exact hadd) hk4
      have e : k + 1 + ts.length = k + (ts.length + 1) := by omega
      rw [e] at hres
      exact hres

theorem Success_maxRequests (c : circuit) (now : Int) :
    (c.Success now).maxRequests = c.maxRequests := by
  simp only [Success, setState]
  split
  · split <;> rfl
  · rfl

/-- A run of successes on a HalfOpen breaker that stays below `maxRequests` consecutive
successes keeps it HalfOpen and counts every success. -/
theorem successes_halfOpen_below (nows : List Int) (c : circuit) (k : Nat)
    (hs : c.state = State.StateHalfOpen) (hk : c.counts.ConsecutiveSuccesses = k)
    (hlt : k + nows.length < c.maxRequests) (hmax : c.maxRequests < uint64Size) :
    (c.successes nows).state = State.StateHalfOpen ∧
      (c.successes nows).counts.ConsecutiveSuccesses = k + nows.length ∧
      (c.successes nows).maxRequests = c.maxRequests := by
  induction nows generalizing c k with
  | nil => exact ⟨hs, hk, rfl⟩
  | cons t ts ih =>
    have hstep : c.successes (t :: ts) = (c.Success t).successes ts := rfl
    rw [hstep]
    rw [List.length_cons] at hlt
    have hadd : AddUint64 c.counts.ConsecutiveSuccesses 1 = k + 1 := by
      rw [hk]
      exact AddUint64_one_of_lt (by omega)
    have hnot : ¬ (c.maxRequests ≤ k + 1) := by omega
    have hS : c.Success t = { c with counts := { c.counts with
        TotalSuccesses := AddUint64 c.counts.TotalSuccesses 1
        ConsecutiveSuccesses := AddUint64 c.counts.ConsecutiveSuccesses 1
        ConsecutiveFailures := 0 } } := by
      simp only [Success, hadd]
      simp [hnot]
    have hres := ih (c.Success t) (k + 1) (by rw [hS]; exact hs) (by rw [hS]; exact hadd)
      (by rw [Success_maxRequests]; omega) (by rw [Success_maxRequests]; exact hmax)
    rw [Success_maxRequests] at hres
    refine ⟨hres.1, ?_, hres.2.2⟩
    rw [hres.2.1, List.length_cons]
    omega

/-- The success that brings a HalfOpen breaker to `maxRequests` consecutive successes
closes it and resets its counts. -/
theorem Success_halfOpen_reaches (c : circuit) (now : Int)
    (hs : c.state = State.StateHalfOpen)
    (hk : c.counts.ConsecutiveSuccesses + 1 = c.maxRequests)
    (hmax : c.maxRequests < uint64Size) :
    (c.Success now).state = State.StateClosed ∧ (c.Success now).counts = {} := by
  have hadd : AddUint64 c.counts.ConsecutiveSuccesses 1 = c.maxRequests := by
    rw [← hk]
    exact AddUint64_one_of_lt (by omega)
  have hS : c.Success now = ({ c with counts := { c.counts with
      TotalSuccesses := AddUint64 c.counts.TotalSuccesses 1
      ConsecutiveSuccesses := AddUint64 c.counts.ConsecutiveSuccesses 1
      ConsecutiveFailures := 0 } } : circuit).setState State.StateClosed now := by
    simp only [Success, hadd]
    simp [hs]
  rw [hS]
  refine ⟨setState_state _ _ _, setState_counts_of_ne _ _ _ ?_⟩
  simp [hs]

/-- A HalfOpen breaker whose generation has not expired at `now` admits a call of `Allow`
that finds fewer than `maxRequests` requests counted, and counts it. -/
theorem Allow_halfOpen_admitted (c : circuit) (now : Int)
    (hs : c.state = State.StateHalfOpen) (hnow : now ≤ c.generation.ExpiredAt)
    (hlt : c.counts.Requests < c.maxRequests) (hmax : c.maxRequests < uint64Size) :
    (c.Allow now).err = none ∧ (c.Allow now).report = true ∧
      (c.Allow now).c = { c with counts := { c.counts with Requests := c.counts.Requests + 1 } } := by
  have hexp : ¬ (c.generation.ExpiredAt < now) := by omega
  have hnot : ¬ (c.maxRequests ≤ c.counts.Requests) := by omega
  have hadd : AddUint64 c.counts.Requests 1 = c.counts.Requests + 1 :=
    AddUint64_one_of_lt (by omega)
  simp [Allow, hs, hexp, hnot, addRequest, hadd]

/-- A HalfOpen breaker whose generation has not expired at `now` rejects a call of
`Allow` that finds `maxRequests` requests or more counted, and does not change. -/
theorem Allow_halfOpen_rejected (c : circuit) (now : Int)
    (hs : c.state = State.StateHalfOpen) (hnow : now ≤ c.generation.ExpiredAt)
    (hge : c.maxRequests ≤ c.counts.Requests) :
    (c.Allow now).err = some Error.ErrTooManyRequests ∧ (c.Allow now).report = false ∧
      (c.Allow now).c = c := by
  have hexp : ¬ (c.generation.ExpiredAt < now) := by omega
  simp [Allow, hs, hexp, hge]

/-- A run of `Allow` calls inside the generation of a HalfOpen breaker: the calls are
admitted until `maxRequests` requests are counted, and all later ones are rejected. -/
theorem allows_halfOpen (nows : List Int) (c : circuit)
    (hs : c.state = State.StateHalfOpen) (hnow : ∀ t ∈ nows, t ≤ c.generation.ExpiredAt)
    (hmax : c.maxRequests < uint64Size) :
    (c.allows nows).2 =
      List.replicate (min nows.length (c.maxRequests - c.counts.Requests)) none ++
        List.replicate (nows.length - (c.maxRequests - c.counts.Requests))
          (some Error.ErrTooManyRequests) := by
  induction nows generalizing c with
  | nil => simp [allows]
  | cons t ts ih =>
    have ht : t ≤ c.generation.ExpiredAt := hnow t (List.mem_cons_self _ _)
    have hts : ∀ u ∈ ts, u ≤ c.generation.ExpiredAt :=
      fun u hu => hnow u (List.mem_cons_of_mem _ hu)
    have hstep : (c.allows (t :: ts)).2 = (c.Allow t).err :: ((c.Allow t).c.allows ts).2 := rfl
    rw [hstep, List.length_cons]
    by_cases hlt : c.counts.Requests < c.maxRequests
    · obtain ⟨he, _, hc⟩ := Allow_halfOpen_admitted c t hs ht hlt hmax
      have hres := ih (c.Allow t).c (by rw [hc]; exact hs) (by rw [hc]; exact hts)
        (by rw [hc]; exact hmax)
      rw [hres, he, hc]
      simp only
      have e1 : min (ts.length + 1) (c.maxRequests - c.counts.Requests) =
          min ts.length (c.maxRequests - (c.counts.Requests + 1)) + 1 := by omega
      have e2 : ts.length + 1 - (c.maxRequests - c.counts.Requests) =
          ts.length - (c.maxRequests - (c.counts.Requests + 1)) := by omega
      rw [e1, e2, List.replicate_succ, List.cons_append]
    · have hge : c.maxRequests ≤ c.counts.Requests := by omega
      obtain ⟨he, _, hc⟩ := Allow_halfOpen_rejected c t hs ht hge
      have hres := ih (c.Allow t).c (by rw [hc]; exact hs) (by rw [hc]; exact hts)
        (by rw [hc]; exact hmax)
      rw [hres, he, hc]
      have e0 : c.maxRequests - c.counts.Requests = 0 := by omega
      simp [e0, List.replicate_succ]

/-- A HalfOpen breaker with `maxRequests` at least one, asked by `Allow` after the expiry
of its generation: the call starts a new generation, which zeroes `Requests` before the
test against `maxRequests`, so it is admitted; the breaker stays HalfOpen with
`Requests = 1` and its new generation expires at `now + interval`. -/
theorem Allow_halfOpen_expired (c : circuit) (now : Int)
    (hs : c.state = State.StateHalfOpen)
    (hexp : c.generation.ExpiredAt < now) (hm : 1 ≤ c.maxRequests) :
    (c.Allow now).err = none ∧ (c.Allow now).c.state = State.StateHalfOpen ∧
      (c.Allow now).c.counts.Requests = 1 ∧
      (c.Allow now).c.generation.ExpiredAt = now + c.interval ∧
      (c.Allow now).c.interval = c.interval ∧
      (c.Allow now).c.maxRequests = c.maxRequests := by
  have hnot : ¬ (c.maxRequests ≤ 0) := by omega
  have hadd : AddUint64 0 1 = 1 := by decide
  simp [Allow, hs, hexp, toNewGeneration, addRequest, hnot, hadd]

/-- A HalfOpen breaker that `Allow` made of an Open one has a negative interval and a
generation that has expired already (an Open breaker with an interval of zero or more is
never left by `Allow`).  From such a breaker every `Allow` at instants that do not
decrease is admitted, however many there are. -/
theorem allows_halfOpen_expired (nows : List Int) (c : circuit)
    (hs : c.state = State.StateHalfOpen) (hi : c.interval < 0) (hm : 1 ≤ c.maxRequests)
    (hexp : ∀ t ∈ nows, c.generation.ExpiredAt < t) (hsorted : nows.Pairwise (· ≤ ·)) :
    (c.allows nows).2 = List.replicate nows.length none := by
  induction nows generalizing c with
  | nil => simp [allows]
  | cons t ts ih =>
    have hstep : (c.allows (t :: ts)).2 = (c.Allow t).err :: ((c.Allow t).c.allows ts).2 := rfl
    obtain ⟨he, hst, _, hgen, hint, hmax⟩ :=
      Allow_halfOpen_expired c t hs (hexp t (List.mem_cons_self _ _)) hm
    have hle : ∀ u ∈ ts, t ≤ u := (List.pairwise_cons.mp hsorted).1
    have hres := ih (c.Allow t).c hst (by rw [hint]; exact hi) (by rw [hmax]; exact hm)
      (fun u hu => by rw [hgen]; have := hle u hu; omega) (List.pairwise_cons.mp hsorted).2
    rw [hstep, hres, he, List.length_cons, List.replicate_succ]

/-- An error returned by `Allow` is one of the two sentinels, each in its own state. -/
theorem Allow_err_sentinel (c : circuit) (now : Int) (e : Error)
    (he : (c.Allow now).err = some e) :
    (e = Error.ErrCircuitOpen ∧ c.state = State.StateOpen) ∨
      (e = Error.ErrTooManyRequests ∧ c.state = State.StateHalfOpen) := by
  cases hst : c.state
  · simp [Allow, hst] at he
  · right
    refine ⟨?_, rfl⟩
    by_cases hexp : c.generation.ExpiredAt < now
    · by_cases hge : (c.toNewGeneration now).maxRequests ≤ (c.toNewGeneration now).counts.Requests
      · simp [Allow, hst, hexp, hge] at he
        exact he.symm
      · simp [Allow, hst, hexp, hge] at he
    · by_cases hge : c.maxRequests ≤ c.counts.Requests
      · simp [Allow, hst, hexp, hge] at he
        exact he.symm
      · simp [Allow, hst, hexp, hge] at he
  · left
    refine ⟨?_, rfl⟩
    by_cases hexp : c.generation.ExpiredAt < now
    · by_cases hexp2 : (c.toNewGeneration now).generation.ExpiredAt < now
      · simp [Allow, hst, hexp, hexp2] at he
      · simp [Allow, hst, hexp, hexp2] at he
        exact he.symm
    · simp [Allow, hst, hexp] at he
      exact he.symm

/-! ## The claims -/

/-- C1 (the code departs from it).  The Open breaker `openExample` has a
non-negative interval and timeout and its generation expired at five seconds; `Allow`
one nanosecond later still returns `ErrCircuitOpen` with no report function, and the
breaker is Open with no request counted, where the claim asks for HalfOpen and one
counted request. -/
theorem C1_allow_after_timeout_still_open :
    openExample.state = State.StateOpen ∧ 0 ≤ openExample.interval ∧
      0 ≤ openExample.timeout ∧ openExample.generation.ExpiredAt < 5 * Second + 1 ∧
      (openExample.Allow (5 * Second + 1)).err = some Error.ErrCircuitOpen ∧
      (openExample.Allow (5 * Second + 1)).report = false ∧
      (openExample.Allow (5 * Second + 1)).c.State = State.StateOpen ∧
      (openExample.Allow (5 * Second + 1)).c.Counts.Requests = 0 := by
  decide

/-- C2, as stated, fails: after the fifth consecutive `Failure()` on a fresh breaker
with the default trip predicate there are five consecutive failures and `State()` is
Closed, not Open. -/
theorem C2_counterexample :
    ((NewBreaker "example" [] 0).failures [1, 2, 3, 4, 5]).Counts.ConsecutiveFailures ≥ 5 ∧
      ((NewBreaker "example" [] 0).failures [1, 2, 3, 4, 5]).State ≠ State.StateOpen := by
  decide

/-- C2, amended.  For a Closed breaker with the default trip predicate and no
consecutive failure so far, and every run of `Failure()` calls: `State()` is Open
afterwards exactly when the run has at least six calls, that is as soon as the
consecutive failures exceed five, and it is Closed with as many consecutive failures as
calls while the run has at most five. -/
theorem C2_default_trips_after_sixth_failure (c : circuit) (nows : List Int)
    (hp : c.readyToTrip = defaultReadyToTrip) (hs : c.State = State.StateClosed)
    (h0 : c.Counts.ConsecutiveFailures = 0) :
    ((c.failures nows).State = State.StateOpen ↔ 6 ≤ nows.length) ∧
      (nows.length ≤ 5 → (c.failures nows).State = State.StateClosed ∧
        (c.failures nows).Counts.ConsecutiveFailures = nows.length) := by
  have h := failures_default_closed nows c 0 hp hs h0 (by omega)
  simpa [circuit.State, circuit.Counts] using h

theorem C2_default_trips_after_sixth_failure_witness :
    (((NewBreaker "example" [] 0).failures [1, 2, 3, 4, 5, 6]).State = State.StateOpen ↔
        6 ≤ [(1 : Int), 2, 3, 4, 5, 6].length) ∧
      ([(1 : Int), 2, 3, 4, 5, 6].length ≤ 5 →
        ((NewBreaker "example" [] 0).failures [1, 2, 3, 4, 5, 6]).State = State.StateClosed ∧
        ((NewBreaker "example" [] 0).failures [1, 2, 3, 4, 5, 6]).Counts.ConsecutiveFailures =
          [(1 : Int), 2, 3, 4, 5, 6].length) :=
  C2_default_trips_after_sixth_failure (NewBreaker "example" [] 0) [1, 2, 3, 4, 5, 6]
    rfl rfl rfl

/-- C3.  For an Open breaker and an instant `now` that is not later than the expiry of
its generation, `Allow()` returns `ErrCircuitOpen` and no report function and leaves the
breaker, hence its state, counts and generation, as it was. -/
theorem C3_allow_open_before_expiry (c : circuit) (now : Int)
    (hs : c.State = State.StateOpen) (hnow : now ≤ c.generation.ExpiredAt) :
    (c.Allow now).err = some Error.ErrCircuitOpen ∧ (c.Allow now).report = false ∧
      (c.Allow now).c = c := by
  have hs1 : c.state = State.StateOpen := hs
  have hexp : ¬ (c.generation.ExpiredAt < now) := by omega
  unfold Allow
  simp [hs1, hexp]

theorem C3_allow_open_before_expiry_witness :
    (openExample.Allow (5 * Second)).err = some Error.ErrCircuitOpen ∧
      (openExample.Allow (5 * Second)).report = false ∧
      (openExample.Allow (5 * Second)).c = openExample :=
  C3_allow_open_before_expiry openExample (5 * Second) (by decide) (by decide)

/-- C4, as stated, fails.  A breaker created at instant `0` with an interval of minus one
nanosecond, a timeout of five seconds and the default trip predicate is Open after six
failures, and `Allow()` at six seconds admits the probe and leaves it HalfOpen
(`halfOpenReached`).  A `Failure()` on that breaker, at the same instant or later, leaves
it HalfOpen, not Open, with the failure counted. -/
theorem C4_counterexample :
    openNegativeInterval.State = State.StateOpen ∧
      (openNegativeInterval.Allow (6 * Second)).err = none ∧
      halfOpenReached.State = State.StateHalfOpen ∧
      (halfOpenReached.Failure (6 * Second)).State ≠ State.StateOpen ∧
      (halfOpenReached.Failure (6 * Second)).State = State.StateHalfOpen ∧
      (halfOpenReached.Failure (6 * Second)).Counts.ConsecutiveFailures = 1 ∧
      (halfOpenReached.Failure (7 * Second)).State = State.StateHalfOpen := by
  decide

/-- C4, amended.  For a HalfOpen breaker, `Failure()` counts the failure
(`TotalFailures` and `ConsecutiveFailures` incremented, `ConsecutiveSuccesses` zero) and
asks the trip predicate about the counts so updated: when it answers true the breaker is
Open afterwards with all counts zero, and when it answers false the breaker stays
HalfOpen with the updated counts. -/
theorem C4_failure_halfOpen_follows_predicate (c : circuit) (now : Int)
    (hs : c.State = State.StateHalfOpen) :
    (c.readyToTrip { c.counts with
        TotalFailures := AddUint64 c.counts.TotalFailures 1
        ConsecutiveFailures := AddUint64 c.counts.ConsecutiveFailures 1
        ConsecutiveSuccesses := 0 } = true →
      (c.Failure now).State = State.StateOpen ∧ (c.Failure now).Counts = {}) ∧
    (c.readyToTrip { c.counts with
        TotalFailures := AddUint64 c.counts.TotalFailures 1
        ConsecutiveFailures := AddUint64 c.counts.ConsecutiveFailures 1
        ConsecutiveSuccesses := 0 } = false →
      (c.Failure now).State = State.StateHalfOpen ∧
      (c.Failure now).Counts = { c.counts with
        TotalFailures := AddUint64 c.counts.TotalFailures 1
        ConsecutiveFailures := AddUint64 c.counts.ConsecutiveFailures 1
        ConsecutiveSuccesses := 0 }) := by
  have hs1 : c.state = State.StateHalfOpen := hs
  constructor
  · intro hp
    simp only [circuit.State, circuit.Counts, Failure, hp, if_true]
    refine ⟨setState_state _ _ _, setState_counts_of_ne _ _ _ ?_⟩
    simp [hs1]
  · intro hp
    simp only [circuit.State, circuit.Counts, Failure, hp]
    simp [hs1]

theorem C4_failure_halfOpen_follows_predicate_witness :
    halfOpenReached.State = State.StateHalfOpen ∧
      (halfOpenReached.Failure (6 * Second)).State = State.StateHalfOpen ∧
      (halfOpenReached.Failure (6 * Second)).Counts =
        { Requests := 1, TotalFailures := 1, ConsecutiveFailures := 1 } :=
  ⟨by decide,
    (C4_failure_halfOpen_follows_predicate halfOpenReached (6 * Second) (by decide)).2
      (by decide)⟩

/-- C5.  For a HalfOpen breaker with `maxRequests = m`, `m` at least one (and a
`uint64`), and no consecutive success so far, after `k` calls of `Success()` in a row the
breaker is still HalfOpen when `k < m`, and it is Closed with all counts zero when
`k = m`. -/
theorem C5_successes_close_at_maxRequests (c : circuit) (nows : List Int)
    (hs : c.State = State.StateHalfOpen) (hm : 1 ≤ c.maxRequests)
    (hmax : c.maxRequests < uint64Size) (h0 : c.Counts.ConsecutiveSuccesses = 0) :
    (nows.length < c.maxRequests → (c.successes nows).State = State.StateHalfOpen) ∧
      (nows.length = c.maxRequests →
        (c.successes nows).State = State.StateClosed ∧ (c.successes nows).Counts = {}) := by
  have hs1 : c.state = State.StateHalfOpen := hs
  have h01 : c.counts.ConsecutiveSuccesses = 0 := h0
  constructor
  · intro hlt
    exact (successes_halfOpen_below nows c 0 hs1 h01 (by omega) hmax).1
  · intro heq
    have hne : nows ≠ [] := by
      intro h
      rw [h] at heq
      simp at heq
      omega
    have hsplit : nows = nows.dropLast ++ [nows.getLast hne] :=
      (List.dropLast_append_getLast hne).symm
    have hlen : nows.dropLast.length + 1 = c.maxRequests := by
      rw [List.length_dropLast]
      have : 0 < nows.length := List.length_pos.mpr hne
      omega
    obtain ⟨hst, hcs, hmr⟩ :=
      successes_halfOpen_below nows.dropLast c 0 hs1 h01 (by omega) hmax
    have hrun : c.successes nows =
        (c.successes nows.dropLast).Success (nows.getLast hne) := by
      conv_lhs => rw [hsplit]
      simp [successes, List.foldl_append]
    rw [hrun]
    exact Success_halfOpen_reaches _ _ hst (by rw [hcs, hmr]; omega) (by rw [hmr]; exact hmax)

theorem C5_successes_close_at_maxRequests_witness :
    (({ halfOpenExample with maxRequests := 3 } : circuit).successes [1, 2]).State =
        State.StateHalfOpen ∧
      ((({ halfOpenExample with maxRequests := 3 } : circuit).successes [1, 2, 3]).State =
          State.StateClosed ∧
        (({ halfOpenExample with maxRequests := 3 } : circuit).successes [1, 2, 3]).Counts = {}) :=
  ⟨(C5_successes_close_at_maxRequests { halfOpenExample with maxRequests := 3 } [1, 2]
      rfl (by decide) (by decide) rfl).1 (by decide),
    (C5_successes_close_at_maxRequests { halfOpenExample with maxRequests := 3 } [1, 2, 3]
      rfl (by decide) (by decide) rfl).2 (by decide)⟩

/-- C6 (the code departs from it).  The breaker `openNegativeInterval` (interval minus
one nanosecond, timeout five seconds, `maxRequests = 1`, opened by six failures) is made
HalfOpen by `Allow()` at six seconds, with a generation that expired one nanosecond
before it began.  With no report in between, the calls of `Allow()` at six seconds and
one, two and three nanoseconds later are all admitted, as are four calls at the same
instant, and the breaker is HalfOpen with `Requests = 1` after each run: four probes are
admitted where `maxRequests` allows one, and none is rejected with
`ErrTooManyRequests`. -/
theorem C6_halfOpen_admits_beyond_maxRequests :
    openNegativeInterval.State = State.StateOpen ∧
      openNegativeInterval.maxRequests = 1 ∧ openNegativeInterval.interval = -1 ∧
      halfOpenReached.State = State.StateHalfOpen ∧
      halfOpenReached.Counts.Requests = 1 ∧
      halfOpenReached.generation.ExpiredAt = 6 * Second - 1 ∧
      (openNegativeInterval.allows
          [6 * Second, 6 * Second + 1, 6 * Second + 2, 6 * Second + 3]).2 =
        [none, none, none, none] ∧
      (openNegativeInterval.allows
          [6 * Second, 6 * Second + 1, 6 * Second + 2, 6 * Second + 3]).1.State =
        State.StateHalfOpen ∧
      (openNegativeInterval.allows
          [6 * Second, 6 * Second + 1, 6 * Second + 2, 6 * Second + 3]).1.Counts.Requests = 1 ∧
      (openNegativeInterval.allows [6 * Second, 6 * Second, 6 * Second, 6 * Second]).2 =
        [none, none, none, none] ∧
      (openNegativeInterval.allows [6 * Second, 6 * Second, 6 * Second, 6 * Second]).1.State =
        State.StateHalfOpen := by
  decide

/-- C7.  For every trip predicate and every Closed breaker, `Failure()` increments
`TotalFailures` and `ConsecutiveFailures` by one (as `uint64`, so by exactly one below
the largest value), sets `ConsecutiveSuccesses` to zero and leaves the other counts, and
evaluates the predicate on the counts so updated: the breaker is Open afterwards if and
only if the predicate is true of them, and otherwise it stays Closed with the updated
counts. -/
theorem C7_failure_closed_follows_predicate (c : circuit) (now : Int)
    (hs : c.State = State.StateClosed) :
    ((c.Failure now).State = State.StateOpen ↔
        c.readyToTrip { c.counts with
          TotalFailures := AddUint64 c.counts.TotalFailures 1
          ConsecutiveFailures := AddUint64 c.counts.ConsecutiveFailures 1
          ConsecutiveSuccesses := 0 } = true) ∧
      (c.readyToTrip { c.counts with
          TotalFailures := AddUint64 c.counts.TotalFailures 1
          ConsecutiveFailures := AddUint64 c.counts.ConsecutiveFailures 1
          ConsecutiveSuccesses := 0 } = false →
        (c.Failure now).State = State.StateClosed ∧
        (c.Failure now).Counts = { c.counts with
          TotalFailures := AddUint64 c.counts.TotalFailures 1
          ConsecutiveFailures := AddUint64 c.counts.ConsecutiveFailures 1
          ConsecutiveSuccesses := 0 }) ∧
      (c.counts.TotalFailures + 1 < uint64Size →
        AddUint64 c.counts.TotalFailures 1 = c.counts.TotalFailures + 1) ∧
      (c.counts.ConsecutiveFailures + 1 < uint64Size →
        AddUint64 c.counts.ConsecutiveFailures 1 = c.counts.ConsecutiveFailures + 1) := by
  have hs1 : c.state = State.StateClosed := hs
  refine ⟨?_, ?_, AddUint64_one_of_lt, AddUint64_one_of_lt⟩
  · cases hp : c.readyToTrip { c.counts with
        TotalFailures := AddUint64 c.counts.TotalFailures 1
        ConsecutiveFailures := AddUint64 c.counts.ConsecutiveFailures 1
        ConsecutiveSuccesses := 0 }
    · simp only [circuit.State, Failure, hp]
      simp [hs1]
    · simp only [circuit.State, Failure, hp, if_true]
      simp [setState_state]
  · intro hp
    simp only [circuit.State, circuit.Counts, Failure, hp]
    simp [hs1]

theorem C7_failure_closed_follows_predicate_witness :
    ((NewBreaker "example" [WithReadyToTrip fun n => decide (n.TotalFailures ≥ 1)] 0).Failure
        1).State = State.StateOpen :=
  (C7_failure_closed_follows_predicate
    (NewBreaker "example" [WithReadyToTrip fun n => decide (n.TotalFailures ≥ 1)] 0) 1
    rfl).1.mpr (by decide)

/-- C8.  A call `setState(s, now)` with `s` different from the current state sets the
state to `s`, resets all five counts to zero, replaces the generation by one that expires
at `now + interval` when `s` is Closed or HalfOpen and at `now + timeout` when `s` is
Open, and invokes the installed `onStateChange` callback exactly once, with the name, the
previous state and `s` (no call is made when the callback is nil); the settings are
kept.  A call with the current state changes nothing and invokes no callback. -/
theorem C8_setState_transition (c : circuit) (s : State) (now : Int) :
    (c.state ≠ s →
        (c.setState s now).state = s ∧
        (c.setState s now).counts =
          { Requests := 0, TotalSuccesses := 0, TotalFailures := 0,
            ConsecutiveSuccesses := 0, ConsecutiveFailures := 0 } ∧
        (c.setState s now).generation =
          { ExpiredAt := (if s = State.StateOpen then now + c.timeout else now + c.interval) } ∧
        (c.onStateChange = true →
          (c.setState s now).notified = c.notified ++ [(c.name, c.state, s)]) ∧
        (c.onStateChange = false → (c.setState s now).notified = c.notified) ∧
        (c.setState s now).name = c.name ∧
        (c.setState s now).maxRequests = c.maxRequests ∧
        (c.setState s now).interval = c.interval ∧
        (c.setState s now).timeout = c.timeout ∧
        (c.setState s now).readyToTrip = c.readyToTrip ∧
        (c.setState s now).onStateChange = c.onStateChange) ∧
      (c.state = s → c.setState s now = c) := by
  constructor
  · intro hne
    cases s <;> simp [setState, hne]
  · intro heq
    simp [setState, heq]

theorem C8_setState_transition_witness :
    (openExample.setState State.StateHalfOpen 7).generation =
        { ExpiredAt := 7 + openExample.interval } ∧
      (openExample.setState State.StateHalfOpen 7).notified =
        [("example", State.StateClosed, State.StateOpen),
          ("example", State.StateOpen, State.StateHalfOpen)] ∧
      openExample.setState State.StateOpen 7 = openExample :=
  ⟨((C8_setState_transition openExample State.StateHalfOpen 7).1 (by decide)).2.2.1,
    ((C8_setState_transition openExample State.StateHalfOpen 7).1 (by decide)).2.2.2.1 rfl,
    (C8_setState_transition openExample State.StateOpen 7).2 rfl⟩

/-- C9.  `Execute(ctx, fn)`: when `Allow` rejects, `Execute` returns that error, which
is `ErrCircuitOpen` or `ErrTooManyRequests`, the world of `fn` is untouched (`fn` is not
invoked) and the breaker is as `Allow` left it (no success or failure is recorded);
otherwise `fn` is applied once to its world, `Execute` returns exactly the error `fn`
returned, and the breaker is what `Success()` makes of the admitted breaker when `fn`
returned nil and what `Failure()` makes of it when `fn` returned an error. -/
theorem C9_execute {σ : Type} (c : circuit) (fn : σ → Option Error × σ) (w : σ)
    (now later : Int) :
    (∀ e, (c.Allow now).err = some e →
        c.Execute fn w now later = (some e, (c.Allow now).c, w) ∧
        (e = Error.ErrCircuitOpen ∨ e = Error.ErrTooManyRequests)) ∧
      ((c.Allow now).err = none →
        (c.Execute fn w now later).1 = (fn w).1 ∧
        (c.Execute fn w now later).2.2 = (fn w).2 ∧
        ((fn w).1 = none →
          (c.Execute fn w now later).2.1 = (c.Allow now).c.Success later) ∧
        (∀ e, (fn w).1 = some e →
          (c.Execute fn w now later).2.1 = (c.Allow now).c.Failure later)) := by
  constructor
  · intro e he
    refine ⟨by simp [Execute, he], ?_⟩
    rcases Allow_err_sentinel c now e he with h | h
    · exact Or.inl h.1
    · exact Or.inr h.1
  · intro hn
    refine ⟨by simp [Execute, hn], by simp [Execute, hn], ?_, ?_⟩
    · intro hf
      simp [Execute, hn, hf, done]
    · intro e hf
      simp [Execute, hn, hf, done]

theorem C9_execute_witness :
    (NewBreaker "example" [] 0).Execute (fun n : Nat => (some (Error.other "failed"), n + 1))
        0 1 2 =
      (some (Error.other "failed"), ((NewBreaker "example" [] 0).Allow 1).c.Failure 2, 1) ∧
    (openExample.Execute (fun n : Nat => (none, n + 1)) 0 1 2).1 =
      some Error.ErrCircuitOpen ∧
    (openExample.Execute (fun n : Nat => (none, n + 1)) 0 1 2).2.2 = 0 :=
  ⟨Prod.ext
      ((C9_execute (NewBreaker "example" [] 0)
        (fun n : Nat => (some (Error.other "failed"), n + 1)) 0 1 2).2 rfl).1
      (Prod.ext
        (((C9_execute (NewBreaker "example" [] 0)
          (fun n : Nat => (some (Error.other "failed"), n + 1)) 0 1 2).2 rfl).2.2.2
            (Error.other "failed") rfl)
        ((C9_execute (NewBreaker "example" [] 0)
          (fun n : Nat => (some (Error.other "failed"), n + 1)) 0 1 2).2 rfl).2.1),
    congrArg Prod.fst
      ((C9_execute openExample (fun n : Nat => (none, n + 1)) 0 1 2).1
        Error.ErrCircuitOpen (by decide)).1,
    congrArg (fun r => r.2.2)
      ((C9_execute openExample (fun n : Nat => (none, n + 1)) 0 1 2).1
        Error.ErrCircuitOpen (by decide)).1⟩

/-- C10.  For a Closed breaker and every instant `now`, `Allow()` returns a nil error
and the report function and the breaker stays Closed; when the generation had expired
the counts are reset, a new generation expiring at `now + interval` starts and
`Requests` is one, and otherwise `Requests` is incremented by one (as `uint64`) and
nothing else changes.  For every breaker, an error returned by `Allow()` is
`ErrCircuitOpen`, and then the state was Open, or `ErrTooManyRequests`, and then the
state was HalfOpen. -/
theorem C10_allow_closed_admits (c : circuit) (now : Int) :
    (c.State = State.StateClosed →
        (c.Allow now).err = none ∧ (c.Allow now).report = true ∧
        (c.Allow now).c.State = State.StateClosed ∧
        (c.generation.ExpiredAt < now →
          (c.Allow now).c = { c with
            counts := { Requests := 1 }
            generation := { ExpiredAt := now + c.interval } }) ∧
        (¬ c.generation.ExpiredAt < now →
          (c.Allow now).c = { c with
            counts := { c.counts with Requests := AddUint64 c.counts.Requests 1 } }) ∧
        (c.counts.Requests + 1 < uint64Size →
          AddUint64 c.counts.Requests 1 = c.counts.Requests + 1)) ∧
      (∀ e, (c.Allow now).err = some e →
        (e = Error.ErrCircuitOpen ∧ c.State = State.StateOpen) ∨
        (e = Error.ErrTooManyRequests ∧ c.State = State.StateHalfOpen)) := by
  constructor
  · intro hs
    have hs1 : c.state = State.StateClosed := hs
    refine ⟨by simp [Allow, hs1], by simp [Allow, hs1], ?_, ?_, ?_, AddUint64_one_of_lt⟩
    · by_cases hexp : c.generation.ExpiredAt < now <;>
        simp [Allow, hs1, hexp, circuit.State, addRequest, toNewGeneration]
    · intro hexp
      simp [Allow, hs1, hexp, addRequest, toNewGeneration, AddUint64_zero_one]
    · intro hexp
      simp [Allow, hs1, hexp, addRequest]
  · intro e he
    exact Allow_err_sentinel c now e he

theorem C10_allow_closed_admits_witness :
    ((NewBreaker "example" [] 0).Allow (Minute + 1)).err = none ∧
      ((NewBreaker "example" [] 0).Allow (Minute + 1)).c.State = State.StateClosed ∧
      ((NewBreaker "example" [] 0).Allow (Minute + 1)).c.Counts.Requests = 1 ∧
      ((NewBreaker "example" [] 0).Allow 5).c.Counts.Requests = 1 :=
  ⟨((C10_allow_closed_admits (NewBreaker "example" [] 0) (Minute + 1)).1 rfl).1,
    ((C10_allow_closed_admits (NewBreaker "example" [] 0) (Minute + 1)).1 rfl).2.2.1,
    congrArg (fun b : circuit => b.Counts.Requests)
      (((C10_allow_closed_admits (NewBreaker "example" [] 0) (Minute + 1)).1 rfl).2.2.2.1
        (by decide)),
    congrArg (fun b : circuit => b.Counts.Requests)
      (((C10_allow_closed_admits (NewBreaker "example" [] 0) 5).1 rfl).2.2.2.2.1
        (by decide))⟩

end circuitbreaker

/-! ## Claims on the first statistical period -/

namespace circuitbreaker

open circuit

/-- The first generation of a breaker expires one minute after its creation, whatever
the options. -/
theorem NewBreaker_generation (name : String) (opts : List Option_) (t0 : Int) :
    (NewBreaker name opts t0).generation.ExpiredAt = t0 + Minute := rfl

/-- C11 (the code departs from it).  A breaker created at instant `0` with an interval
of ten seconds has a first generation that expires after one minute, not after ten
seconds: `Allow()` at eleven seconds, later than `t0 + d`, keeps the request counted at
one second (`Requests` becomes two) and starts no new generation, where the claim asks
for a reset and a generation expiring at twenty-one seconds. -/
theorem C11_first_period_is_one_minute :
    (NewBreaker "example" [WithInterval (10 * Second)] 0).interval = 10 * Second ∧
      (NewBreaker "example" [WithInterval (10 * Second)] 0).generation.ExpiredAt = Minute ∧
      ((NewBreaker "example" [WithInterval (10 * Second)] 0).Allow Second).c.Counts.Requests
        = 1 ∧
      (((NewBreaker "example" [WithInterval (10 * Second)] 0).Allow Second).c.Allow
        (11 * Second)).c.State = State.StateClosed ∧
      (((NewBreaker "example" [WithInterval (10 * Second)] 0).Allow Second).c.Allow
        (11 * Second)).c.Counts.Requests = 2 ∧
      (((NewBreaker "example" [WithInterval (10 * Second)] 0).Allow Second).c.Allow
        (11 * Second)).c.generation.ExpiredAt = Minute := by
  decide

end circuitbreaker

/-! ## General facts about the limiters -/

namespace ratelimit

open tokenBucket slidingWindow

theorem toInt64_of_nonneg {x : ℚ} (h : 0 ≤ x) : toInt64 x = ⌊x⌋ := by
  simp [toInt64, h]

theorem toInt64_intCast (z : Int) : toInt64 (z : ℚ) = z := by
  unfold toInt64
  split <;> simp

theorem Seconds_Second : Seconds Second = 1 := by
  norm_num [Seconds, Second]

theorem refill_tokens_le (b : bucket) (now : Int) : (b.refill now).tokens ≤ (b.refill now).burst :=
  min_le_left _ _

theorem put_same (l : tokenBucket) (key : String) (bkt : bucket) :
    (l.put key bkt).buckets key = some bkt := by
  simp [tokenBucket.put]

theorem put_other (l : tokenBucket) (key k : String) (bkt : bucket) (h : k ≠ key) :
    (l.put key bkt).buckets k = l.buckets k := by
  simp [tokenBucket.put, h]

/-- A limiter without buckets has all levels capped. -/
theorem levelsCapped_new (opts : List Option_) : (NewTokenBucket opts).levelsCapped := by
  intro key bkt h
  simp [NewTokenBucket] at h

theorem levelsCapped_put (l : tokenBucket) (key : String) (bkt : bucket)
    (hl : l.levelsCapped) (hb : bkt.tokens ≤ bkt.burst) : (l.put key bkt).levelsCapped := by
  intro k b h
  by_cases hk : k = key
  · subst hk
    rw [put_same] at h
    cases h
    exact hb
  · rw [put_other _ _ _ _ hk] at h
    exact hl k b h

/-- The method `AllowN` keeps all levels capped, whatever the cost. -/
theorem AllowN_levelsCapped (l : tokenBucket) (key : String) (n now : Int)
    (hl : l.levelsCapped) : (l.AllowN key n now).l.levelsCapped := by
  unfold tokenBucket.AllowN
  split
  · exact hl
  · rename_i hn
    have hpos : (0 : ℚ) ≤ (n : ℚ) := by
      have : (0 : Int) ≤ n := by omega
      exact_mod_cast this
    have hr := refill_tokens_le (l.getOrCreate key now) now
    simp only
    split
    · exact levelsCapped_put l key _ hl hr
    · apply levelsCapped_put l key _ hl
      show ((l.getOrCreate key now).refill now).tokens - (n : ℚ) ≤
        ((l.getOrCreate key now).refill now).burst
      linarith

/-- The method `ReserveN` keeps all levels capped when the cost is not negative. -/
theorem ReserveN_levelsCapped_of_nonneg (l : tokenBucket) (key : String) (n now : Int)
    (hn : 0 ≤ n) (hl : l.levelsCapped) : (l.ReserveN key n now).l.levelsCapped := by
  have hpos : (0 : ℚ) ≤ (n : ℚ) := by exact_mod_cast hn
  have hr := refill_tokens_le (l.getOrCreate key now) now
  unfold tokenBucket.ReserveN
  apply levelsCapped_put l key _ hl
  show ((l.getOrCreate key now).refill now).tokens - (n : ℚ) ≤
    ((l.getOrCreate key now).refill now).burst
  linarith

/-- The refilled level of a bucket at `now`. -/
theorem refill_tokens (b : bucket) (now : Int) :
    (b.refill now).tokens = min b.burst (b.tokens + Seconds (now - b.last) * b.rate) := rfl

/-- A call of `AllowN` with a positive cost that finds enough tokens after the refill. -/
theorem AllowN_of_le (l : tokenBucket) (key : String) (n now : Int) (hn : 0 < n)
    (h : (n : ℚ) ≤ ((l.getOrCreate key now).refill now).tokens) :
    l.AllowN key n now =
      ⟨l.put key { (l.getOrCreate key now).refill now with
        tokens := ((l.getOrCreate key now).refill now).tokens - (n : ℚ) }, true, none⟩ := by
  have hn0 : ¬ n ≤ 0 := by omega
  have hlt : ¬ ((l.getOrCreate key now).refill now).tokens < (n : ℚ) := not_lt.mpr h
  simp only [tokenBucket.AllowN, hn0, if_false, hlt]

/-- A call of `AllowN` with a positive cost that finds too few tokens after the refill. -/
theorem AllowN_of_lt (l : tokenBucket) (key : String) (n now : Int) (hn : 0 < n)
    (h : ((l.getOrCreate key now).refill now).tokens < (n : ℚ)) :
    l.AllowN key n now = ⟨l.put key ((l.getOrCreate key now).refill now), false, none⟩ := by
  have hn0 : ¬ n ≤ 0 := by omega
  simp only [tokenBucket.AllowN, hn0, if_false, h, if_true]

theorem tb_AllowN_nonpos (l : tokenBucket) (key : String) (n now : Int) (hn : n ≤ 0) :
    l.AllowN key n now = ⟨l, true, none⟩ := by
  simp [tokenBucket.AllowN, hn]

theorem getOrCreate_of_none (l : tokenBucket) (key : String) (now : Int)
    (h : l.buckets key = none) :
    l.getOrCreate key now =
      { last := now, tokens := (l.burst : ℚ), rate := l.rate, burst := (l.burst : ℚ) } := by
  simp [tokenBucket.getOrCreate, h]

theorem getOrCreate_of_some (l : tokenBucket) (key : String) (now : Int) (b : bucket)
    (h : l.buckets key = some b) : l.getOrCreate key now = b := by
  simp [tokenBucket.getOrCreate, h]

theorem getOrCreate_put (l : tokenBucket) (key : String) (b : bucket) (now : Int) :
    (l.put key b).getOrCreate key now = b :=
  getOrCreate_of_some _ _ _ _ (put_same l key b)

theorem Seconds_zero : Seconds 0 = 0 := by
  simp [Seconds]

/-! ## Claims on the limiters -/

/-- C12.  For every key, every instant and every cost `n ≤ 0`: `AllowN` of the token
bucket and of the sliding window returns `(true, nil)` and leaves the limiter as it was,
and `AllowN` of the distributed limiter returns `(true, nil)`, sends no call to the store
and leaves the store as it was. -/
theorem C12_allowN_nonpositive_cost {σ : Type} (tb : tokenBucket) (sw : slidingWindow)
    (rl : redisLimiter σ) (s : σ) (key : String) (n now : Int) (hn : n ≤ 0) :
    tb.AllowN key n now = ⟨tb, true, none⟩ ∧
      sw.AllowN key n now = some ⟨sw, true, none⟩ ∧
      rl.AllowN s key n now = ⟨s, [], (true, none)⟩ := by
  refine ⟨?_, ?_, ?_⟩
  · simp [tokenBucket.AllowN, hn]
  · simp [slidingWindow.AllowN, hn]
  · simp [redisLimiter.AllowN, hn]

theorem C12_allowN_nonpositive_cost_witness :
    tokenBucketExample.AllowN "k" (-3) 5 = ⟨tokenBucketExample, true, none⟩ ∧
      slidingWindowExample.AllowN "k" (-3) 5 = some ⟨slidingWindowExample, true, none⟩ ∧
      (NewRedisLimiter (fun _ (s : Nat) => (Except.error (Error.backend "down"), s + 1))
          []).AllowN 0 "k" (-3) 5 = ⟨0, [], (true, none)⟩ :=
  C12_allowN_nonpositive_cost tokenBucketExample slidingWindowExample
    (NewRedisLimiter (fun _ (s : Nat) => (Except.error (Error.backend "down"), s + 1)) [])
    0 "k" (-3) 5 (by decide)

/-- C13 (the code departs from it).  On the fresh token bucket limiter
`tokenBucketExample` (rate one, burst one), `ReserveN("k", 0, 0)` creates the bucket of
`"k"`, and `ReserveN("k", -5, 0)` creates it with six tokens, five more than the
capacity; on the sliding window limiter `slidingWindowExample`, `ReserveN("k", 0, 0)`
creates the entry list of `"k"`.  The claim asks for an unchanged state. -/
theorem C13_reserveN_nonpositive_cost_changes_state :
    tokenBucketExample.buckets "k" = none ∧
      (tokenBucketExample.ReserveN "k" 0 0).l.buckets "k" =
        some { last := 0, tokens := 1, rate := 1, burst := 1 } ∧
      (tokenBucketExample.ReserveN "k" (-5) 0).l.buckets "k" =
        some { last := 0, tokens := 6, rate := 1, burst := 1 } ∧
      slidingWindowExample.windows "k" = none ∧
      (slidingWindowExample.ReserveN "k" 0 0).l.windows "k" = some [] := by
  refine ⟨rfl, ?_, ?_, rfl, ?_⟩
  · norm_num [tokenBucketExample, NewTokenBucket, tokenBucket.ReserveN, tokenBucket.put,
      tokenBucket.getOrCreate, bucket.refill, Seconds]
  · norm_num [tokenBucketExample, NewTokenBucket, tokenBucket.ReserveN, tokenBucket.put,
      tokenBucket.getOrCreate, bucket.refill, Seconds]
  · simp [slidingWindowExample, NewSlidingWindow, slidingWindow.ReserveN, slidingWindow.put,
      slidingWindow.validWindows]

/-- C14 (the code departs from it).  On a fresh limiter with rate two and burst three,
the call `ReserveN("a", -1, 5)` leaves the bucket of `"a"` with four tokens, above its
capacity of three. -/
theorem C14_reserveN_negative_cost_exceeds_capacity :
    (NewTokenBucket [WithRate 2, WithBurst 3]).levelsCapped ∧
      ((NewTokenBucket [WithRate 2, WithBurst 3]).ReserveN "a" (-1) 5).l.buckets "a" =
        some { last := 5, tokens := 4, rate := 2, burst := 3 } ∧
      ¬ ((NewTokenBucket [WithRate 2, WithBurst 3]).ReserveN "a" (-1) 5).l.levelsCapped := by
  have h : ((NewTokenBucket [WithRate 2, WithBurst 3]).ReserveN "a" (-1) 5).l.buckets "a" =
      some { last := 5, tokens := 4, rate := 2, burst := 3 } := by
    norm_num [NewTokenBucket, WithRate, WithBurst, tokenBucket.ReserveN, tokenBucket.put,
      tokenBucket.getOrCreate, bucket.refill, Seconds]
  refine ⟨levelsCapped_new _, h, ?_⟩
  intro hcap
  have := hcap "a" _ h
  norm_num at this

/-- C15.  For a token bucket limiter with rate above zero and burst at least one (token
arithmetic exact), a key without a bucket and an instant `t`: `AllowN(key, burst, t)`
returns true and `AllowN(key, 1, t)` right after it returns false; `AllowN(key, 1, t2)`
after that returns true at the instant `t2` that is `1 / rate` seconds after `t`, and
more generally it returns true exactly at the instants `t2` that are at least `1 / rate`
seconds after `t` (so also when `1 / rate` seconds is not a whole number of
nanoseconds: from the first instant of the clock after it). -/
theorem C15_burst_then_wait (l : tokenBucket) (key : String) (t t2 : Int)
    (hrate : 0 < l.rate) (hburst : 1 ≤ l.burst) (hfresh : l.buckets key = none) :
    (l.AllowN key l.burst t).ok = true ∧
      ((l.AllowN key l.burst t).l.AllowN key 1 t).ok = false ∧
      (Seconds (t2 - t) = 1 / l.rate →
        (((l.AllowN key l.burst t).l.AllowN key 1 t).l.AllowN key 1 t2).ok = true) ∧
      ((((l.AllowN key l.burst t).l.AllowN key 1 t).l.AllowN key 1 t2).ok = true ↔
        1 / l.rate ≤ Seconds (t2 - t)) := by
  have hb : (1 : ℚ) ≤ (l.burst : ℚ) := by exact_mod_cast hburst
  have h1 : l.AllowN key l.burst t =
      ⟨l.put key { last := t, tokens := 0, rate := l.rate, burst := (l.burst : ℚ) },
        true, none⟩ := by
    rw [AllowN_of_le l key l.burst t (by omega)]
    · simp [getOrCreate_of_none l key t hfresh, bucket.refill, Seconds_zero]
    · simp [getOrCreate_of_none l key t hfresh, bucket.refill, Seconds_zero]
  have h2 : (l.put key { last := t, tokens := 0, rate := l.rate, burst := (l.burst : ℚ) }).AllowN
      key 1 t =
      ⟨(l.put key { last := t, tokens := 0, rate := l.rate, burst := (l.burst : ℚ) }).put key
        { last := t, tokens := 0, rate := l.rate, burst := (l.burst : ℚ) }, false, none⟩ := by
    have hmin : min (l.burst : ℚ) 0 = 0 := min_eq_right (by linarith)
    rw [AllowN_of_lt _ key 1 t (by omega)]
    · simp [getOrCreate_put, bucket.refill, Seconds_zero, hmin]
    · simp [getOrCreate_put, bucket.refill, Seconds_zero, hmin]
  have hlevel : (((((l.put key
      { last := t, tokens := 0, rate := l.rate, burst := (l.burst : ℚ) }).put
      key { last := t, tokens := 0, rate := l.rate, burst := (l.burst : ℚ) }).getOrCreate
      key t2).refill t2).tokens) = min (l.burst : ℚ) (Seconds (t2 - t) * l.rate) := by
    simp [getOrCreate_put, bucket.refill]
  have hone : 1 / l.rate ≤ Seconds (t2 - t) ↔ 1 ≤ Seconds (t2 - t) * l.rate :=
    div_le_iff₀ hrate
  have h3 : (((l.put key { last := t, tokens := 0, rate := l.rate, burst := (l.burst : ℚ) }).put
      key { last := t, tokens := 0, rate := l.rate, burst := (l.burst : ℚ) }).AllowN
      key 1 t2).ok = true ↔ 1 / l.rate ≤ Seconds (t2 - t) := by
    by_cases hle : 1 ≤ Seconds (t2 - t) * l.rate
    · rw [AllowN_of_le _ key 1 t2 (by omega)
        (by rw [hlevel]; exact_mod_cast le_min hb hle)]
      exact ⟨fun _ => hone.mpr hle, fun _ => rfl⟩
    · rw [AllowN_of_lt _ key 1 t2 (by omega)
        (by rw [hlevel]; exact_mod_cast lt_of_le_of_lt (min_le_right _ _) (not_le.mp hle))]
      exact ⟨fun h => by simp at h, fun h => absurd (hone.mp h) hle⟩
  rw [h1]
  refine ⟨rfl, ?_, ?_, ?_⟩
  · simp only
    rw [h2]
  · intro ht2
    simp only
    rw [h2]
    exact h3.mpr (le_of_eq ht2.symm)
  · simp only
    rw [h2]
    exact h3

theorem C15_burst_then_wait_witness :
    ((NewTokenBucket [WithRate 3, WithBurst 2]).AllowN "k" 2 7).ok = true ∧
      (((NewTokenBucket [WithRate 3, WithBurst 2]).AllowN "k" 2 7).l.AllowN "k" 1 7).ok =
        false ∧
      ((((NewTokenBucket [WithRate 3, WithBurst 2]).AllowN "k" 2 7).l.AllowN "k" 1 7).l.AllowN
        "k" 1 333333341).ok = true ∧
      ¬ ((((NewTokenBucket [WithRate 3, WithBurst 2]).AllowN "k" 2 7).l.AllowN "k" 1 7).l.AllowN
        "k" 1 333333340).ok = true ∧
      ((((NewTokenBucket [WithRate 10, WithBurst 3]).AllowN "k" 3 7).l.AllowN "k" 1 7).l.AllowN
        "k" 1 100000007).ok = true :=
  ⟨(C15_burst_then_wait (NewTokenBucket [WithRate 3, WithBurst 2]) "k" 7 333333341
      (by norm_num [NewTokenBucket, WithRate, WithBurst])
      (by norm_num [NewTokenBucket, WithRate, WithBurst]) rfl).1,
    (C15_burst_then_wait (NewTokenBucket [WithRate 3, WithBurst 2]) "k" 7 333333341
      (by norm_num [NewTokenBucket, WithRate, WithBurst])
      (by norm_num [NewTokenBucket, WithRate, WithBurst]) rfl).2.1,
    (C15_burst_then_wait (NewTokenBucket [WithRate 3, WithBurst 2]) "k" 7 333333341
      (by norm_num [NewTokenBucket, WithRate, WithBurst])
      (by norm_num [NewTokenBucket, WithRate, WithBurst]) rfl).2.2.2.mpr
      (by norm_num [NewTokenBucket, WithRate, WithBurst, Seconds]),
    fun h => absurd
      ((C15_burst_then_wait (NewTokenBucket [WithRate 3, WithBurst 2]) "k" 7 333333340
        (by norm_num [NewTokenBucket, WithRate, WithBurst])
        (by norm_num [NewTokenBucket, WithRate, WithBurst]) rfl).2.2.2.mp h)
      (by norm_num [NewTokenBucket, WithRate, WithBurst, Seconds]),
    (C15_burst_then_wait (NewTokenBucket [WithRate 10, WithBurst 3]) "k" 7 100000007
      (by norm_num [NewTokenBucket, WithRate, WithBurst])
      (by norm_num [NewTokenBucket, WithRate, WithBurst]) rfl).2.2.1
      (by norm_num [NewTokenBucket, WithRate, WithBurst, Seconds])⟩

/-! ## The arithmetic of the machine -/

theorem machine_float64_zero : machine.float64 0 = some 0 := by simp [machine.float64]

/-- The binary exponent of a number between two consecutive powers of two. -/
theorem machine_log_two_eq (x : ℚ) (e : Int) (h1 : (2 : ℚ) ^ e ≤ x)
    (h2 : x < (2 : ℚ) ^ (e + 1)) : Int.log 2 x = e := by
  have hpos : 0 < x := lt_of_lt_of_le (by positivity) h1
  have hb : 1 < 2 := by norm_num
  apply le_antisymm
  · have := (Int.lt_zpow_iff_log_lt hb hpos).mp (by exact_mod_cast h2)
    omega
  · exact (Int.zpow_le_iff_le_log hb hpos).mp (by exact_mod_cast h1)

/-- The `float64` of a number whose binary exponent is `e`, normal, and whose rounded
significand is `m`. -/
theorem machine_float64_eq (x : ℚ) (e m : Int) (he : -1022 ≤ e) (h1 : (2 : ℚ) ^ e ≤ |x|)
    (h2 : |x| < (2 : ℚ) ^ (e + 1))
    (hm : machine.roundHalfEven (x / (2 : ℚ) ^ (e - 52)) = m)
    (hy : |(m : ℚ) * (2 : ℚ) ^ (e - 52)| < (2 : ℚ) ^ (1024 : Int)) :
    machine.float64 x = some ((m : ℚ) * (2 : ℚ) ^ (e - 52)) := by
  have hx : x ≠ 0 := by
    intro h
    rw [h, abs_zero] at h1
    exact absurd h1 (not_le.mpr (by positivity))
  have hlog : Int.log 2 |x| = e := machine_log_two_eq _ _ h1 h2
  simp only [machine.float64, hx, if_false, hlog, max_eq_left he, hm, hy, if_true]

theorem machine_roundHalfEven_intCast (k : Int) : machine.roundHalfEven (k : ℚ) = k := by
  simp [machine.roundHalfEven]

theorem machine_wrapInt64_of_range (z : Int) (h1 : -2 ^ 63 ≤ z) (h2 : z < 2 ^ 63) :
    machine.wrapInt64 z = z := by
  unfold machine.wrapInt64
  omega

theorem machine_wrapInt64_add (a b : Int) :
    machine.wrapInt64 (machine.wrapInt64 a + b) = machine.wrapInt64 (a + b) := by
  unfold machine.wrapInt64
  omega

/-- An integer of at most 53 bits is a `float64`. -/
theorem machine_float64_intCast (z : Int) (h1 : -2 ^ 53 ≤ z) (h2 : z ≤ 2 ^ 53) :
    machine.float64 (z : ℚ) = some (z : ℚ) := by
  by_cases hz : z = 0
  · rw [hz, Int.cast_zero]
    exact machine_float64_zero
  have habs1 : (1 : ℚ) ≤ |(z : ℚ)| := by
    have : (1 : Int) ≤ |z| := Int.one_le_abs hz
    exact_mod_cast this
  have habs2 : |(z : ℚ)| ≤ 2 ^ 53 := by
    have : |z| ≤ 2 ^ 53 := abs_le.mpr ⟨by omega, h2⟩
    exact_mod_cast this
  have hpos : (0 : ℚ) < |(z : ℚ)| := by linarith
  have hb : 1 < 2 := by norm_num
  have hlo : (2 : ℚ) ^ Int.log 2 |(z : ℚ)| ≤ |(z : ℚ)| := by
    exact_mod_cast Int.zpow_log_le_self hb hpos
  have hhi : |(z : ℚ)| < (2 : ℚ) ^ (Int.log 2 |(z : ℚ)| + 1) := by
    exact_mod_cast Int.lt_zpow_succ_log_self hb |(z : ℚ)|
  have he0 : 0 ≤ Int.log 2 |(z : ℚ)| :=
    (Int.zpow_le_iff_le_log hb hpos).mp (by simpa using habs1)
  have he53 : Int.log 2 |(z : ℚ)| < 54 :=
    (Int.lt_zpow_iff_log_lt hb hpos).mp (by
      have : |(z : ℚ)| < 2 ^ (54 : ℤ) := lt_of_le_of_lt habs2 (by norm_num)
      exact_mod_cast this)
  generalize Int.log 2 |(z : ℚ)| = e at hlo hhi he0 he53
  by_cases he : e ≤ 52
  · obtain ⟨k, hk⟩ := Int.eq_ofNat_of_zero_le (by omega : 0 ≤ 52 - e)
    have hq : (2 : ℚ) ^ (e - 52) = ((2 : ℚ) ^ k)⁻¹ := by
      rw [show e - 52 = -(k : Int) by omega, zpow_neg, zpow_natCast]
    have hm : machine.roundHalfEven ((z : ℚ) / (2 : ℚ) ^ (e - 52)) = z * 2 ^ k := by
      rw [hq, div_inv_eq_mul]
      have : (z : ℚ) * (2 : ℚ) ^ k = ((z * 2 ^ k : Int) : ℚ) := by push_cast; ring
      rw [this, machine_roundHalfEven_intCast]
    have hval : ((z * 2 ^ k : Int) : ℚ) * (2 : ℚ) ^ (e - 52) = (z : ℚ) := by
      rw [hq]
      push_cast
      field_simp
    rw [machine_float64_eq (z : ℚ) e (z * 2 ^ k) (by omega) hlo hhi hm
      (by rw [hval]; exact lt_of_le_of_lt habs2 (by norm_num)), hval]
  · have he53b : e = 53 := by omega
    subst he53b
    have hm : machine.roundHalfEven ((z : ℚ) / (2 : ℚ) ^ ((53 : Int) - 52)) = z / 2 := by
      have habs : |(z : ℚ)| = 2 ^ 53 :=
        le_antisymm habs2 (by have := hlo; norm_num at this; linarith)
      have hz2 : z = 2 ^ 53 ∨ z = -2 ^ 53 := by
        have : |z| = 2 ^ 53 := by exact_mod_cast habs
        rcases abs_eq (by norm_num : (0 : Int) ≤ 2 ^ 53) |>.mp this with h | h
        · exact Or.inl h
        · exact Or.inr h
      rcases hz2 with h | h
      · rw [h]
        norm_num [machine.roundHalfEven]
      · rw [h]
        norm_num [machine.roundHalfEven]
    have hval : ((z / 2 : Int) : ℚ) * (2 : ℚ) ^ ((53 : Int) - 52) = (z : ℚ) := by
      have habs : |(z : ℚ)| = 2 ^ 53 :=
        le_antisymm habs2 (by have := hlo; norm_num at this; linarith)
      have hz2 : z = 2 ^ 53 ∨ z = -2 ^ 53 := by
        have : |z| = 2 ^ 53 := by exact_mod_cast habs
        rcases abs_eq (by norm_num : (0 : Int) ≤ 2 ^ 53) |>.mp this with h | h
        · exact Or.inl h
        · exact Or.inr h
      rcases hz2 with h | h
      · rw [h]
        norm_num
      · rw [h]
        norm_num
    rw [machine_float64_eq (z : ℚ) 53 (z / 2) (by norm_num) hlo hhi hm
      (by rw [hval]; exact lt_of_le_of_lt habs2 (by norm_num)), hval]

/-- The number `2 ^ 53` is a `float64`. -/
theorem machine_float64_two_pow_53 :
    machine.float64 9007199254740992 = some 9007199254740992 := by
  rw [machine_float64_eq 9007199254740992 53 4503599627370496 (by norm_num)
    (by norm_num [le_abs]) (by norm_num [abs_lt]) (by norm_num [machine.roundHalfEven])
    (by norm_num [abs_lt])]
  norm_num

/-- The number `2 ^ 53 + 1` is not a `float64`: it is half way between `2 ^ 53` and
`2 ^ 53 + 2` and is rounded to the former, whose significand is even. -/
theorem machine_float64_two_pow_53_succ :
    machine.float64 9007199254740993 = some 9007199254740992 := by
  rw [machine_float64_eq 9007199254740993 53 4503599627370496 (by norm_num)
    (by norm_num [le_abs]) (by norm_num [abs_lt]) (by norm_num [machine.roundHalfEven])
    (by norm_num [abs_lt])]
  norm_num

theorem machine_Sub_self (t : Int) : machine.Sub t t = 0 := by
  unfold machine.Sub
  rw [sub_self]
  decide

theorem machine_Seconds_zero : machine.Seconds 0 = some 0 := by
  have h1 : ((Int.tdiv 0 1000000000 : Int) : ℚ) = 0 := by norm_num
  have h2 : ((Int.tmod 0 1000000000 : Int) : ℚ) = 0 := by norm_num
  unfold machine.Seconds
  rw [Option.bind_eq_bind, h1, h2, machine_float64_zero, Option.some_bind, Option.some_bind,
    zero_div, machine_float64_zero, Option.some_bind, add_zero, machine_float64_zero]

/-- A refill at the instant of the last one adds nothing. -/
theorem machine_refill_same_instant (b : bucket) (now : Int) (hlast : b.last = now)
    (hrep : machine.float64 b.tokens = some b.tokens) :
    machine.tokenBucket.refill b now =
      some { b with tokens := min b.burst b.tokens, last := now } := by
  unfold machine.tokenBucket.refill
  rw [Option.bind_eq_bind, hlast, machine_Sub_self, machine_Seconds_zero, Option.some_bind,
    zero_mul, machine_float64_zero, Option.some_bind, add_zero, hrep, Option.some_bind]

/-- The bucket that the first call for a key finds: full, with the capacity
`float64(burst)`, and refilled by nothing. -/
theorem machine_fresh_bucket (l : tokenBucket) (key : String) (now : Int) (B : ℚ)
    (hfresh : l.buckets key = none) (hB : machine.float64 (l.burst : ℚ) = some B)
    (hrep : machine.float64 B = some B) :
    (machine.tokenBucket.getOrCreate l key now).bind
        (fun bkt => machine.tokenBucket.refill bkt now) =
      some { last := now, tokens := B, rate := l.rate, burst := B } := by
  have hg : machine.tokenBucket.getOrCreate l key now =
      some { last := now, tokens := B, rate := l.rate, burst := B } := by
    unfold machine.tokenBucket.getOrCreate
    rw [hfresh, hB]
    rfl
  rw [hg, Option.some_bind, machine_refill_same_instant _ now rfl hrep]
  simp only [min_self]

/-- The first call of `AllowN` for a key, with a cost above zero. -/
theorem machine_AllowN_fresh (l : tokenBucket) (key : String) (n now : Int) (B c : ℚ)
    (hn : 0 < n) (hfresh : l.buckets key = none)
    (hB : machine.float64 (l.burst : ℚ) = some B) (hrep : machine.float64 B = some B)
    (hc : machine.float64 (n : ℚ) = some c) :
    machine.tokenBucket.AllowN l key n now =
      if B < c then
        some ⟨l.put key { last := now, tokens := B, rate := l.rate, burst := B }, false, none⟩
      else
        (machine.float64 (B - c)).bind fun tokens =>
          some ⟨l.put key { last := now, tokens := tokens, rate := l.rate, burst := B },
            true, none⟩ := by
  unfold machine.tokenBucket.AllowN
  rw [if_neg (not_le.mpr hn), Option.bind_eq_bind]
  have h := machine_fresh_bucket l key now B hfresh hB hrep
  rw [Option.bind_eq_some] at h
  obtain ⟨b0, hb0, hb1⟩ := h
  rw [hb0, Option.some_bind, hb1, Option.some_bind, hc]
  simp only [Option.bind_eq_bind, Option.some_bind]

/-- The first call of `ReserveN` for a key. -/
theorem machine_ReserveN_fresh (l : tokenBucket) (key : String) (n now : Int) (B c t : ℚ)
    (hfresh : l.buckets key = none)
    (hB : machine.float64 (l.burst : ℚ) = some B) (hrep : machine.float64 B = some B)
    (hc : machine.float64 (n : ℚ) = some c) (ht : machine.float64 (B - c) = some t) :
    machine.tokenBucket.ReserveN l key n now =
      (machine.tokenBucket.waitDuration t l.rate).bind fun wait =>
        (machine.int64 B).bind fun level =>
          some ⟨l.put key { last := now, tokens := t, rate := l.rate, burst := B },
            some { OK := true, Limit := l.burst, Tokens := level,
                   TimeToAct := now + wait, DelayFrom := now }, none⟩ := by
  unfold machine.tokenBucket.ReserveN
  rw [Option.bind_eq_bind]
  have h := machine_fresh_bucket l key now B hfresh hB hrep
  rw [Option.bind_eq_some] at h
  obtain ⟨b0, hb0, hb1⟩ := h
  rw [hb0, Option.some_bind, hb1, Option.some_bind, hc]
  simp only [Option.bind_eq_bind, Option.some_bind]
  rw [ht, Option.some_bind]

theorem machine_float64_1001 : machine.float64 1001 = some 1001 := by
  rw [machine_float64_eq 1001 9 8804889115230208 (by norm_num)
    (by norm_num [le_abs]) (by norm_num [abs_lt]) (by norm_num [machine.roundHalfEven])
    (by norm_num [abs_lt])]
  norm_num

theorem machine_float64_neg_1001 : machine.float64 (-1001) = some (-1001) := by
  rw [machine_float64_eq (-1001) 9 (-8804889115230208) (by norm_num)
    (by norm_num [le_abs]) (by norm_num [abs_lt]) (by norm_num [machine.roundHalfEven])
    (by norm_num [abs_lt])]
  norm_num

/-- The quotient `1001 / 1000` is not a `float64`: it is rounded down. -/
theorem machine_float64_1001_div_1000 :
    machine.float64 (1001 / 1000) = some (4508103226997866 / 4503599627370496) := by
  rw [machine_float64_eq (1001 / 1000) 0 4508103226997866 (by norm_num)
    (by norm_num [le_abs]) (by norm_num [abs_lt]) (by norm_num [machine.roundHalfEven])
    (by norm_num [abs_lt])]
  norm_num

/-- The product of that `float64` by `1e9` is rounded to the `float64` just below
`1001000000`. -/
theorem machine_float64_1001_nanos :
    machine.float64 (4508103226997866 / 4503599627370496 * 1000000000) =
      some (8396996607999999 / 8388608) := by
  rw [machine_float64_eq (4508103226997866 / 4503599627370496 * 1000000000) 29
    8396996607999999 (by norm_num)
    (by norm_num [le_abs]) (by norm_num [abs_lt]) (by norm_num [machine.roundHalfEven])
    (by norm_num [abs_lt])]
  norm_num

theorem machine_int64_1001_nanos :
    machine.int64 (8396996607999999 / 8388608) = some 1000999999 := by
  have h : toInt64 (8396996607999999 / 8388608) = 1000999999 := by norm_num [toInt64]
  unfold machine.int64
  rw [h, if_pos (by decide)]

theorem machine_int64_zero : machine.int64 0 = some 0 := by
  have h : toInt64 0 = 0 := by norm_num [toInt64]
  unfold machine.int64
  rw [h, if_pos (by decide)]

/-- The wait for a level of `-1001` tokens at a rate of `1000` per second: one
nanosecond less than `1.001` seconds. -/
theorem machine_waitDuration_1001 :
    machine.tokenBucket.waitDuration (-1001) 1000 = some 1000999999 := by
  unfold machine.tokenBucket.waitDuration
  rw [if_pos (by norm_num), if_neg (by norm_num), neg_neg, Option.bind_eq_bind,
    machine_float64_1001_div_1000, Option.some_bind, machine_float64_1001_nanos,
    Option.some_bind, machine_int64_1001_nanos]

/-- When `float64(burst)` is exact, the bucket found or created is that of the exact
arithmetic. -/
theorem machine_getOrCreate_eq (l : tokenBucket) (key : String) (now : Int)
    (hB : machine.float64 (l.burst : ℚ) = some (l.burst : ℚ)) :
    machine.tokenBucket.getOrCreate l key now = some (l.getOrCreate key now) := by
  unfold machine.tokenBucket.getOrCreate tokenBucket.getOrCreate
  cases h : l.buckets key with
  | none =>
    simp only [hB]
    rfl
  | some b => rfl

/-- When the elapsed time, the tokens added and the new level are exact, the refill is
that of the exact arithmetic. -/
theorem machine_refill_eq (b : bucket) (now : Int)
    (he : machine.Seconds (machine.Sub now b.last) = some (Seconds (now - b.last)))
    (hd : machine.float64 (Seconds (now - b.last) * b.rate) =
      some (Seconds (now - b.last) * b.rate))
    (hs : machine.float64 (b.tokens + Seconds (now - b.last) * b.rate) =
      some (b.tokens + Seconds (now - b.last) * b.rate)) :
    machine.tokenBucket.refill b now = some (b.refill now) := by
  unfold machine.tokenBucket.refill
  simp only [Option.bind_eq_bind]
  rw [he, Option.some_bind, hd, Option.some_bind, hs, Option.some_bind]
  rfl

/-- When no conversion and no operation of the call rounds, `AllowN` with the
arithmetic of the machine is `AllowN` with exact arithmetic. -/
theorem machine_AllowN_eq (l : tokenBucket) (key : String) (n now : Int)
    (h : machine.tokenBucket.exactAllowN l key n now) :
    machine.tokenBucket.AllowN l key n now = some (l.AllowN key n now) := by
  obtain ⟨hB, he, hd, hs, hc, ht⟩ := h
  by_cases hn : n ≤ 0
  · rw [machine.tokenBucket.AllowN, if_pos hn, tb_AllowN_nonpos l key n now hn]
  unfold machine.tokenBucket.AllowN
  simp only [Option.bind_eq_bind]
  rw [if_neg hn, machine_getOrCreate_eq l key now hB, Option.some_bind,
    machine_refill_eq _ now he hd hs, Option.some_bind, hc, Option.some_bind]
  by_cases hlt : ((l.getOrCreate key now).refill now).tokens < (n : ℚ)
  · rw [if_pos hlt, AllowN_of_lt l key n now (by omega) hlt]
  · rw [if_neg hlt, ht, Option.some_bind, AllowN_of_le l key n now (by omega) (not_lt.mp hlt)]

/-- When no conversion and no operation of the call rounds or is out of range,
`ReserveN` with the arithmetic of the machine is `ReserveN` with exact arithmetic. -/
theorem machine_ReserveN_eq (l : tokenBucket) (key : String) (n now : Int)
    (hrate : (l.getOrCreate key now).rate ≠ 0)
    (h : machine.tokenBucket.exactReserveN l key n now) :
    machine.tokenBucket.ReserveN l key n now = some (l.ReserveN key n now) := by
  obtain ⟨⟨hB, he, hd, hs, hc, ht⟩, hneg, hli⟩ := h
  have hrate2 : ((l.getOrCreate key now).refill now).rate = (l.getOrCreate key now).rate := rfl
  have hwait : machine.tokenBucket.waitDuration
      (((l.getOrCreate key now).refill now).tokens - (n : ℚ))
      ((l.getOrCreate key now).refill now).rate =
      some (if ((l.getOrCreate key now).refill now).tokens - (n : ℚ) < 0 then
        toInt64 (-(((l.getOrCreate key now).refill now).tokens - (n : ℚ)) /
          ((l.getOrCreate key now).refill now).rate * 1000000000) else 0) := by
    unfold machine.tokenBucket.waitDuration
    by_cases hlt : ((l.getOrCreate key now).refill now).tokens - (n : ℚ) < 0
    · obtain ⟨hq, hw, hwi⟩ := hneg hlt
      rw [if_pos hlt, if_pos hlt, hrate2, if_neg hrate]
      simp only [Option.bind_eq_bind]
      rw [hq, Option.some_bind, hw, Option.some_bind]
      unfold machine.int64
      exact if_pos hwi
    · rw [if_neg hlt, if_neg hlt]
  have hlevel : machine.int64 ((l.getOrCreate key now).refill now).tokens =
      some (toInt64 ((l.getOrCreate key now).refill now).tokens) := by
    unfold machine.int64
    exact if_pos hli
  unfold machine.tokenBucket.ReserveN
  simp only [Option.bind_eq_bind]
  rw [machine_getOrCreate_eq l key now hB, Option.some_bind,
    machine_refill_eq _ now he hd hs, Option.some_bind, hc, Option.some_bind, ht,
    Option.some_bind, hwait, Option.some_bind, hlevel, Option.some_bind]
  rfl

/-- The first call for a key is exact when the burst, the cost and their difference
have at most 53 bits: no time has elapsed, and every number of the call is an integer. -/
theorem machine_exactAllowN_fresh (l : tokenBucket) (key : String) (n now : Int)
    (hfresh : l.buckets key = none) (hb : -2 ^ 53 ≤ l.burst ∧ l.burst ≤ 2 ^ 53)
    (hn : -2 ^ 53 ≤ n ∧ n ≤ 2 ^ 53)
    (hbn : -2 ^ 53 ≤ l.burst - n ∧ l.burst - n ≤ 2 ^ 53) :
    machine.tokenBucket.exactAllowN l key n now := by
  have hg := getOrCreate_of_none l key now hfresh
  have hlast : (l.getOrCreate key now).last = now := by rw [hg]
  have htok : (l.getOrCreate key now).tokens = (l.burst : ℚ) := by rw [hg]
  have hbur : (l.getOrCreate key now).burst = (l.burst : ℚ) := by rw [hg]
  have hsec : Seconds (now - (l.getOrCreate key now).last) = 0 := by
    rw [hlast, sub_self, Seconds_zero]
  have hB := machine_float64_intCast l.burst hb.1 hb.2
  have hlevel : ((l.getOrCreate key now).refill now).tokens - (n : ℚ) =
      ((l.burst - n : Int) : ℚ) := by
    rw [refill_tokens, hsec, zero_mul, add_zero, htok, hbur, min_self]
    push_cast
    ring
  refine ⟨hB, ?_, ?_, ?_, machine_float64_intCast n hn.1 hn.2, ?_⟩
  · rw [hsec, hlast, machine_Sub_self, machine_Seconds_zero]
  · rw [hsec, zero_mul, machine_float64_zero]
  · rw [hsec, zero_mul, add_zero, htok, hB]
  · rw [hlevel, machine_float64_intCast _ hbn.1 hbn.2]

/-- C16, as stated, fails: `float64(n)` rounds.  On the limiter with rate one and burst
`2 ^ 53`, for a key without a bucket and the cost `n = 2 ^ 53 + 1` at the instant `0`:
the level `r = min(burst, burst + 0 * rate)` of the claim is `2 ^ 53`, below `n`, so that
`r - n = -1`; yet `AllowN`, with the arithmetic of the machine, returns true, because
`float64(n)` is `2 ^ 53`, and leaves the level zero. -/
theorem C16_counterexample :
    ∃ d : Decision tokenBucket,
      machine.tokenBucket.AllowN (NewTokenBucket [WithRate 1, WithBurst 9007199254740992])
        "k" 9007199254740993 0 = some d ∧
      d.ok = true ∧ d.err = none ∧
      d.l.buckets "k" =
        some { last := 0, tokens := 0, rate := 1, burst := 9007199254740992 } ∧
      ¬ ((9007199254740993 : ℚ) ≤
        min (9007199254740992 : ℚ) (9007199254740992 + Seconds (0 - 0) * 1)) ∧
      min (9007199254740992 : ℚ) (9007199254740992 + Seconds (0 - 0) * 1) -
        9007199254740993 = -1 := by
  have hB : machine.float64
      (((NewTokenBucket [WithRate 1, WithBurst 9007199254740992]).burst : Int) : ℚ) =
      some 9007199254740992 := by
    have : (((NewTokenBucket [WithRate 1, WithBurst 9007199254740992]).burst : Int) : ℚ) =
        9007199254740992 := by norm_num [NewTokenBucket, WithBurst, WithRate]
    rw [this]
    exact machine_float64_two_pow_53
  have hc : machine.float64 ((9007199254740993 : Int) : ℚ) = some 9007199254740992 := by
    have : ((9007199254740993 : Int) : ℚ) = 9007199254740993 := by norm_num
    rw [this]
    exact machine_float64_two_pow_53_succ
  have h := machine_AllowN_fresh (NewTokenBucket [WithRate 1, WithBurst 9007199254740992])
    "k" 9007199254740993 0 9007199254740992 9007199254740992 (by decide) rfl hB
    machine_float64_two_pow_53 hc
  rw [if_neg (lt_irrefl _), sub_self, machine_float64_zero, Option.some_bind] at h
  refine ⟨_, h, rfl, rfl, ?_, ?_, ?_⟩
  · rw [put_same]
    rfl
  · norm_num [Seconds]
  · norm_num [Seconds]

/-- The method `AllowN` with exact arithmetic, for a cost `n > 0` and the bucket `b` of
the key (for a key without a bucket, the bucket with level `burst` and last refill
`now`): with `r = min(burst, level + (now - last) * rate)`, it returns true if and only
if `r ≥ n`, with a nil error; afterwards the bucket of the key has last refill `now` and
level `r - n` when the call returned true and exactly `r` when it returned false, and no
other bucket has changed. -/
theorem tb_AllowN_cases (l : tokenBucket) (key : String) (n now : Int)
    (hn : 0 < n) :
    ((l.AllowN key n now).ok = true ↔
        (n : ℚ) ≤ min (l.getOrCreate key now).burst
          ((l.getOrCreate key now).tokens +
            Seconds (now - (l.getOrCreate key now).last) * (l.getOrCreate key now).rate)) ∧
      (l.AllowN key n now).err = none ∧
      (l.AllowN key n now).l.buckets key = some
        { l.getOrCreate key now with
          last := now
          tokens :=
            if (l.AllowN key n now).ok = true then
              min (l.getOrCreate key now).burst
                ((l.getOrCreate key now).tokens +
                  Seconds (now - (l.getOrCreate key now).last) * (l.getOrCreate key now).rate)
                - (n : ℚ)
            else
              min (l.getOrCreate key now).burst
                ((l.getOrCreate key now).tokens +
                  Seconds (now - (l.getOrCreate key now).last) *
                    (l.getOrCreate key now).rate) } ∧
      (∀ k, k ≠ key → (l.AllowN key n now).l.buckets k = l.buckets k) ∧
      (∀ b, l.buckets key = some b → l.getOrCreate key now = b) ∧
      (l.buckets key = none →
        l.getOrCreate key now =
          { last := now, tokens := (l.burst : ℚ), rate := l.rate, burst := (l.burst : ℚ) } ∧
        min (l.getOrCreate key now).burst
          ((l.getOrCreate key now).tokens +
            Seconds (now - (l.getOrCreate key now).last) * (l.getOrCreate key now).rate) =
          (l.burst : ℚ)) := by
  have hfresh : l.buckets key = none →
      l.getOrCreate key now =
          { last := now, tokens := (l.burst : ℚ), rate := l.rate, burst := (l.burst : ℚ) } ∧
        min (l.getOrCreate key now).burst
          ((l.getOrCreate key now).tokens +
            Seconds (now - (l.getOrCreate key now).last) * (l.getOrCreate key now).rate) =
          (l.burst : ℚ) := by
    intro h
    refine ⟨getOrCreate_of_none l key now h, ?_⟩
    rw [getOrCreate_of_none l key now h]
    simp [Seconds_zero]
  have hsome : ∀ b, l.buckets key = some b → l.getOrCreate key now = b :=
    fun b h => getOrCreate_of_some l key now b h
  by_cases h : (n : ℚ) ≤ ((l.getOrCreate key now).refill now).tokens
  · have hA := AllowN_of_le l key n now hn h
    rw [refill_tokens] at h
    rw [hA]
    refine ⟨⟨fun _ => h, fun _ => rfl⟩, rfl, ?_, ?_, hsome, hfresh⟩
    · simp [put_same, bucket.refill]
    · intro k hk
      exact put_other l key k _ hk
  · have hlt : ((l.getOrCreate key now).refill now).tokens < (n : ℚ) := not_le.mp h
    have hA := AllowN_of_lt l key n now hn hlt
    rw [refill_tokens] at h
    rw [hA]
    refine ⟨⟨fun hf => by simp at hf, fun hle => absurd hle h⟩, rfl, ?_, ?_, hsome, hfresh⟩
    · simp [put_same, bucket.refill]
    · intro k hk
      exact put_other l key k _ hk

/-- C16, amended.  With the token arithmetic taken exactly (the conversion `float64(n)`,
the elapsed time and the `float64` operations without rounding): for the token bucket, a
cost `n > 0` and the bucket `b` of the key, with level `b.tokens` and last refill
`b.last` (for a key without a bucket, the bucket with level `burst` and last refill
`now`): with `r = min(burst, level + (now - last) * rate)`, the elapsed time in seconds,
`AllowN(key, n, now)` returns true if and only if `r ≥ n`, with a nil error; afterwards
the bucket of the key has last refill `now` and level `r - n` when the call returned
true and exactly `r` when it returned false, and no other bucket has changed.  For a key
without a bucket `r` is `burst`.  And whenever no conversion and no operation of the call
rounds, `AllowN` with the arithmetic of the machine returns just that. -/
theorem C16_allowN_refill_then_subtract (l : tokenBucket) (key : String) (n now : Int)
    (hn : 0 < n) :
    ((l.AllowN key n now).ok = true ↔
        (n : ℚ) ≤ min (l.getOrCreate key now).burst
          ((l.getOrCreate key now).tokens +
            Seconds (now - (l.getOrCreate key now).last) * (l.getOrCreate key now).rate)) ∧
      (l.AllowN key n now).err = none ∧
      (l.AllowN key n now).l.buckets key = some
        { l.getOrCreate key now with
          last := now
          tokens :=
            if (l.AllowN key n now).ok = true then
              min (l.getOrCreate key now).burst
                ((l.getOrCreate key now).tokens +
                  Seconds (now - (l.getOrCreate key now).last) * (l.getOrCreate key now).rate)
                - (n : ℚ)
            else
              min (l.getOrCreate key now).burst
                ((l.getOrCreate key now).tokens +
                  Seconds (now - (l.getOrCreate key now).last) *
                    (l.getOrCreate key now).rate) } ∧
      (∀ k, k ≠ key → (l.AllowN key n now).l.buckets k = l.buckets k) ∧
      (∀ b, l.buckets key = some b → l.getOrCreate key now = b) ∧
      (l.buckets key = none →
        l.getOrCreate key now =
          { last := now, tokens := (l.burst : ℚ), rate := l.rate, burst := (l.burst : ℚ) } ∧
        min (l.getOrCreate key now).burst
          ((l.getOrCreate key now).tokens +
            Seconds (now - (l.getOrCreate key now).last) * (l.getOrCreate key now).rate) =
          (l.burst : ℚ)) ∧
      (machine.tokenBucket.exactAllowN l key n now →
        machine.tokenBucket.AllowN l key n now = some (l.AllowN key n now)) := by
  obtain ⟨h1, h2, h3, h4, h5, h6⟩ := tb_AllowN_cases l key n now hn
  exact ⟨h1, h2, h3, h4, h5, h6, machine_AllowN_eq l key n now⟩

theorem C16_allowN_refill_then_subtract_witness :
    ((NewTokenBucket [WithRate 10, WithBurst 3]).AllowN "k" 2 7).l.buckets "k" =
        some { last := 7, tokens := 1, rate := 10, burst := 3 } ∧
      machine.tokenBucket.AllowN (NewTokenBucket [WithRate 10, WithBurst 3]) "k" 2 7 =
        some ((NewTokenBucket [WithRate 10, WithBurst 3]).AllowN "k" 2 7) := by
  have h := C16_allowN_refill_then_subtract (NewTokenBucket [WithRate 10, WithBurst 3])
    "k" 2 7 (by decide)
  have hok : ((NewTokenBucket [WithRate 10, WithBurst 3]).AllowN "k" 2 7).ok = true := by
    norm_num [NewTokenBucket, WithRate, WithBurst, tokenBucket.AllowN, tokenBucket.getOrCreate,
      bucket.refill, Seconds]
  refine ⟨?_, h.2.2.2.2.2.2 (machine_exactAllowN_fresh _ "k" 2 7 rfl
    ⟨by decide, by decide⟩ ⟨by decide, by decide⟩ ⟨by decide, by decide⟩)⟩
  rw [h.2.2.1, hok]
  norm_num [NewTokenBucket, WithRate, WithBurst, tokenBucket.getOrCreate, Seconds]

/-- C17, as stated, fails: the wait is computed in `float64` and cut to whole
nanoseconds.  On the limiter with rate 1000 and burst 0, for a key without a bucket,
`ReserveN(key, 1001, 0)` with the arithmetic of the machine leaves the level `-1001` and
reports `TimeToAct = 1000999999` nanoseconds, where the wait of the claim,
`max(0, -(r - n)) / rate` with `r = min(burst, burst + 0 * rate) = 0`, is `1.001`
seconds, that is `1001000000` nanoseconds.  And with exact arithmetic, on the limiter
with rate 3 and burst 1, `ReserveN(key, 2, 0)` reports `TimeToAct = 333333333`
nanoseconds, where the wait of the claim is a third of a second. -/
theorem C17_counterexample :
    (∃ (d : Reserved tokenBucket) (res : Reservation),
      machine.tokenBucket.ReserveN (NewTokenBucket [WithRate 1000, WithBurst 0]) "k" 1001 0 =
        some d ∧
      d.r = some res ∧ res.OK = true ∧ res.DelayFrom = 0 ∧
      res.TimeToAct = 0 + 1000999999 ∧
      d.l.buckets "k" = some { last := 0, tokens := -1001, rate := 1000, burst := 0 } ∧
      max 0 (-(min (0 : ℚ) (0 + Seconds (0 - 0) * 1000) - 1001)) / 1000 * 1000000000 =
        1001000000) ∧
    (∃ res : Reservation,
      ((NewTokenBucket [WithRate 3, WithBurst 1]).ReserveN "k" 2 0).r = some res ∧
      res.TimeToAct = 0 + 333333333 ∧
      Seconds 333333333 ≠ max 0 (-(min (1 : ℚ) (1 + Seconds (0 - 0) * 3) - 2)) / 3) := by
  constructor
  · have hB : machine.float64
        (((NewTokenBucket [WithRate 1000, WithBurst 0]).burst : Int) : ℚ) = some 0 := by
      have : (((NewTokenBucket [WithRate 1000, WithBurst 0]).burst : Int) : ℚ) = 0 := by
        norm_num [NewTokenBucket, WithBurst, WithRate]
      rw [this]
      exact machine_float64_zero
    have hc : machine.float64 ((1001 : Int) : ℚ) = some 1001 := by
      have : ((1001 : Int) : ℚ) = 1001 := by norm_num
      rw [this]
      exact machine_float64_1001
    have ht : machine.float64 ((0 : ℚ) - 1001) = some (-1001) := by
      rw [zero_sub]
      exact machine_float64_neg_1001
    have hrate : (NewTokenBucket [WithRate 1000, WithBurst 0]).rate = 1000 := rfl
    have h := machine_ReserveN_fresh (NewTokenBucket [WithRate 1000, WithBurst 0])
      "k" 1001 0 0 1001 (-1001) rfl hB machine_float64_zero hc ht
    rw [hrate, machine_waitDuration_1001, Option.some_bind, machine_int64_zero,
      Option.some_bind] at h
    refine ⟨_, _, h, rfl, rfl, rfl, rfl, ?_, ?_⟩
    · rw [put_same]
    · norm_num [Seconds]
  · refine ⟨_, rfl, ?_, ?_⟩
    · norm_num [NewTokenBucket, WithRate, WithBurst, tokenBucket.getOrCreate, bucket.refill,
        Seconds, toInt64]
    · norm_num [Seconds]

/-- The method `ReserveN` with exact arithmetic, for the bucket `b` of the key with a
rate above zero: with `r = min(burst, level + elapsed * rate)`, it returns a reservation
with `OK = true` and a nil error, whatever `n`; the level afterwards is `r - n` and the
last refill is `now`; `DelayFrom` is `now` and `TimeToAct` is `now` plus the wait
`max(0, -(r - n)) / rate` seconds cut to whole nanoseconds. -/
theorem tb_ReserveN_cases (l : tokenBucket) (key : String) (n now : Int)
    (hrate : 0 < (l.getOrCreate key now).rate) :
    ∃ res : Reservation,
      (l.ReserveN key n now).r = some res ∧ (l.ReserveN key n now).err = none ∧
      res.OK = true ∧ res.DelayFrom = now ∧
      res.TimeToAct = now +
        ⌊max 0 (-(min (l.getOrCreate key now).burst
          ((l.getOrCreate key now).tokens +
            Seconds (now - (l.getOrCreate key now).last) * (l.getOrCreate key now).rate)
          - (n : ℚ))) / (l.getOrCreate key now).rate * 1000000000⌋ ∧
      (((res.TimeToAct - now : Int) : ℚ) ≤
        max 0 (-(min (l.getOrCreate key now).burst
          ((l.getOrCreate key now).tokens +
            Seconds (now - (l.getOrCreate key now).last) * (l.getOrCreate key now).rate)
          - (n : ℚ))) / (l.getOrCreate key now).rate * 1000000000) ∧
      (max 0 (-(min (l.getOrCreate key now).burst
          ((l.getOrCreate key now).tokens +
            Seconds (now - (l.getOrCreate key now).last) * (l.getOrCreate key now).rate)
          - (n : ℚ))) / (l.getOrCreate key now).rate * 1000000000 <
        ((res.TimeToAct - now : Int) : ℚ) + 1) ∧
      (l.ReserveN key n now).l.buckets key = some
        { l.getOrCreate key now with
          last := now
          tokens := min (l.getOrCreate key now).burst
            ((l.getOrCreate key now).tokens +
              Seconds (now - (l.getOrCreate key now).last) * (l.getOrCreate key now).rate)
            - (n : ℚ) } := by
  have hwait : ∀ tokens : ℚ,
      (if tokens < 0 then toInt64 ((-tokens / (l.getOrCreate key now).rate) * 1000000000)
        else 0) = ⌊max 0 (-tokens) / (l.getOrCreate key now).rate * 1000000000⌋ := by
    intro tokens
    split
    · rename_i hneg
      have hpos : 0 ≤ -tokens / (l.getOrCreate key now).rate * 1000000000 := by
        have : 0 ≤ -tokens / (l.getOrCreate key now).rate :=
          div_nonneg (by linarith) hrate.le
        positivity
      rw [toInt64_of_nonneg hpos, max_eq_right (by linarith)]
    · rename_i hnn
      rw [max_eq_left (by linarith)]
      simp
  have hrefill : ((l.getOrCreate key now).refill now).rate = (l.getOrCreate key now).rate :=
    rfl
  refine ⟨_, rfl, rfl, rfl, rfl, ?_, ?_, ?_, ?_⟩
  · show now + _ = now + _
    rw [← refill_tokens]
    exact congrArg (fun z : Int => now + z) (hwait _)
  · show (((now + _ - now : Int)) : ℚ) ≤ _
    rw [← refill_tokens]
    simp only [hrefill, hwait, add_sub_cancel_left]
    exact Int.floor_le _
  · show _ < (((now + _ - now : Int)) : ℚ) + 1
    rw [← refill_tokens]
    simp only [hrefill, hwait, add_sub_cancel_left]
    exact Int.lt_floor_add_one _
  · simp [tokenBucket.ReserveN, put_same, bucket.refill]

/-- C17, amended.  With the token arithmetic taken exactly (the `float64` operations
and the elapsed time without rounding, durations without bound): for the token bucket,
every cost `n` (so every `n > 0`) and the bucket `b` of the key (for a key without a
bucket, the full bucket created at `now`) with a rate above zero: with
`r = min(burst, level + elapsed * rate)`, `ReserveN(key, n, now)` returns a reservation
with `OK = true` and a nil error, whatever `n`; the level afterwards is `r - n` and the
last refill is `now`; `DelayFrom` is `now` and `TimeToAct` is `now` plus the wait
`max(0, -(r - n)) / rate` seconds cut to whole nanoseconds (rounded down).  And whenever
no conversion and no operation of the call rounds or leaves the range of `int64`,
`ReserveN` with the arithmetic of the machine returns just that. -/
theorem C17_reserveN_always_subtracts (l : tokenBucket) (key : String) (n now : Int)
    (hrate : 0 < (l.getOrCreate key now).rate) :
    ∃ res : Reservation,
      (l.ReserveN key n now).r = some res ∧ (l.ReserveN key n now).err = none ∧
      res.OK = true ∧ res.DelayFrom = now ∧
      res.TimeToAct = now +
        ⌊max 0 (-(min (l.getOrCreate key now).burst
          ((l.getOrCreate key now).tokens +
            Seconds (now - (l.getOrCreate key now).last) * (l.getOrCreate key now).rate)
          - (n : ℚ))) / (l.getOrCreate key now).rate * 1000000000⌋ ∧
      (((res.TimeToAct - now : Int) : ℚ) ≤
        max 0 (-(min (l.getOrCreate key now).burst
          ((l.getOrCreate key now).tokens +
            Seconds (now - (l.getOrCreate key now).last) * (l.getOrCreate key now).rate)
          - (n : ℚ))) / (l.getOrCreate key now).rate * 1000000000) ∧
      (max 0 (-(min (l.getOrCreate key now).burst
          ((l.getOrCreate key now).tokens +
            Seconds (now - (l.getOrCreate key now).last) * (l.getOrCreate key now).rate)
          - (n : ℚ))) / (l.getOrCreate key now).rate * 1000000000 <
        ((res.TimeToAct - now : Int) : ℚ) + 1) ∧
      (l.ReserveN key n now).l.buckets key = some
        { l.getOrCreate key now with
          last := now
          tokens := min (l.getOrCreate key now).burst
            ((l.getOrCreate key now).tokens +
              Seconds (now - (l.getOrCreate key now).last) * (l.getOrCreate key now).rate)
            - (n : ℚ) } ∧
      (machine.tokenBucket.exactReserveN l key n now →
        machine.tokenBucket.ReserveN l key n now = some (l.ReserveN key n now)) := by
  obtain ⟨res, h1, h2, h3, h4, h5, h6, h7, h8⟩ := tb_ReserveN_cases l key n now hrate
  exact ⟨res, h1, h2, h3, h4, h5, h6, h7, h8,
    machine_ReserveN_eq l key n now (ne_of_gt hrate)⟩

/-- A quarter is a `float64`. -/
theorem machine_float64_quarter : machine.float64 (1 / 4) = some (1 / 4) := by
  rw [machine_float64_eq (1 / 4) (-2) 4503599627370496 (by norm_num)
    (by norm_num [le_abs]) (by norm_num [abs_lt]) (by norm_num [machine.roundHalfEven])
    (by norm_num [abs_lt])]
  norm_num

theorem C17_reserveN_always_subtracts_witness :
    ∃ res : Reservation,
      ((NewTokenBucket [WithRate 4]).ReserveN "k" 2 0).r = some res ∧
      res.OK = true ∧ res.TimeToAct = 250000000 ∧
      ((NewTokenBucket [WithRate 4]).ReserveN "k" 2 0).l.buckets "k" =
        some { last := 0, tokens := -1, rate := 4, burst := 1 } ∧
      machine.tokenBucket.ReserveN (NewTokenBucket [WithRate 4]) "k" 2 0 =
        some ((NewTokenBucket [WithRate 4]).ReserveN "k" 2 0) := by
  obtain ⟨res, hr, _, hok, _, hta, _, _, hb, hm⟩ :=
    C17_reserveN_always_subtracts (NewTokenBucket [WithRate 4]) "k" 2 0
      (by norm_num [NewTokenBucket, WithRate, tokenBucket.getOrCreate])
  have hlevel : (((NewTokenBucket [WithRate 4]).getOrCreate "k" 0).refill 0).tokens -
      ((2 : Int) : ℚ) = -1 := by
    norm_num [NewTokenBucket, WithRate, tokenBucket.getOrCreate, bucket.refill, Seconds]
  have hfull : (((NewTokenBucket [WithRate 4]).getOrCreate "k" 0).refill 0).tokens = 1 := by
    norm_num [NewTokenBucket, WithRate, tokenBucket.getOrCreate, bucket.refill, Seconds]
  have hrate : ((NewTokenBucket [WithRate 4]).getOrCreate "k" 0).rate = 4 := rfl
  have hq : -(-1 : ℚ) / 4 = 1 / 4 := by norm_num
  have hw : -(-1 : ℚ) / 4 * 1000000000 = ((250000000 : Int) : ℚ) := by norm_num
  have hexact : machine.tokenBucket.exactReserveN (NewTokenBucket [WithRate 4]) "k" 2 0 := by
    refine ⟨machine_exactAllowN_fresh _ "k" 2 0 rfl ⟨by decide, by decide⟩
      ⟨by decide, by decide⟩ ⟨by decide, by decide⟩, ?_, ?_, ?_⟩
    · intro _
      rw [hlevel, hrate]
      refine ⟨?_, ?_, ?_, ?_⟩
      · rw [hq]
        exact machine_float64_quarter
      · rw [hw]
        exact machine_float64_intCast _ (by norm_num) (by norm_num)
      · rw [hw, toInt64_intCast]
        decide
      · rw [hw, toInt64_intCast]
        decide
    · rw [hfull]
      norm_num [toInt64]
    · rw [hfull]
      norm_num [toInt64]
  refine ⟨res, hr, hok, ?_, ?_, hm hexact⟩
  · rw [hta]
    norm_num [NewTokenBucket, WithRate, tokenBucket.getOrCreate, Seconds]
  · rw [hb]
    norm_num [NewTokenBucket, WithRate, tokenBucket.getOrCreate, Seconds]

end ratelimit

namespace ratelimit

open tokenBucket slidingWindow

/-! ## Facts on the sliding window -/

theorem sw_put_same (l : slidingWindow) (key : String) (ws : List window) :
    (l.put key ws).windows key = some ws := by
  simp [slidingWindow.put]

theorem sw_put_other (l : slidingWindow) (key k : String) (ws : List window) (h : k ≠ key) :
    (l.put key ws).windows k = l.windows k := by
  simp [slidingWindow.put, h]

/-- A limiter with rate ten per second, a window of one second and a precision of one
second admits at most ten requests per window, keeps the entries of the current second
and quantizes an instant to its second. -/
theorem sw_ten_per_second (l : slidingWindow) (hrate : l.rate = 10)
    (hwin : l.window = Second) (hprec : l.precision = Second) (now : Int) :
    l.maxRequests = 10 ∧ l.expireTime now = Unix now - 1 ∧
      l.currentTimestamp now = some (Unix now) := by
  have h1 : toInt64 (1 : ℚ) = 1 := by norm_num [toInt64]
  have h10 : toInt64 (10 * 1 : ℚ) = 10 := by norm_num [toInt64]
  refine ⟨?_, ?_, ?_⟩
  · rw [slidingWindow.maxRequests, hrate, hwin, Seconds_Second, h10]
  · rw [slidingWindow.expireTime, hwin, Seconds_Second, h1]
  · simp [slidingWindow.currentTimestamp, slidingWindow.precisionSeconds, hprec,
      Seconds_Second, h1]

/-- The first call for a key without entries, cost one, ten per second. -/
theorem sw_allow_first (l : slidingWindow) (key : String) (T : Int) (hrate : l.rate = 10)
    (hwin : l.window = Second) (hprec : l.precision = Second)
    (hw : l.windows key = none) :
    l.AllowN key 1 T = some ⟨l.put key [{ timestamp := Unix T, count := 1 }], true, none⟩ := by
  obtain ⟨hmax, _, hcur⟩ := sw_ten_per_second l hrate hwin hprec T
  simp [slidingWindow.AllowN, slidingWindow.validWindows, hw, sumCounts, hmax, hcur, upsert,
    addToFirst]

/-- A call of cost one in the second of the only entry of the key, ten per second: it
is admitted and counted while the entry holds fewer than ten requests, and rejected
once it holds ten. -/
theorem sw_allow_same_second (l : slidingWindow) (key : String) (T k : Int)
    (hrate : l.rate = 10) (hwin : l.window = Second) (hprec : l.precision = Second)
    (hw : l.windows key = some [{ timestamp := Unix T, count := k }]) :
    (k + 1 ≤ 10 → l.AllowN key 1 T =
        some ⟨l.put key [{ timestamp := Unix T, count := k + 1 }], true, none⟩) ∧
      (10 < k + 1 → l.AllowN key 1 T =
        some ⟨l.put key [{ timestamp := Unix T, count := k }], false, none⟩) := by
  obtain ⟨hmax, hexp, hcur⟩ := sw_ten_per_second l hrate hwin hprec T
  have hvalid : l.validWindows key T = [{ timestamp := Unix T, count := k }] := by
    simp [slidingWindow.validWindows, hw, hexp]
  constructor
  · intro hk
    have hnot : ¬ (10 < k + 1) := by omega
    simp [slidingWindow.AllowN, hvalid, sumCounts, hmax, hcur, upsert, addToFirst, hnot]
  · intro hk
    simp [slidingWindow.AllowN, hvalid, sumCounts, hmax, hk]

/-- A call of cost one at least one second after the second of the only entry of the
key, ten per second: the entry has expired and the call is admitted. -/
theorem sw_allow_next_window (l : slidingWindow) (key : String) (T T2 k : Int)
    (hrate : l.rate = 10) (hwin : l.window = Second) (hprec : l.precision = Second)
    (hw : l.windows key = some [{ timestamp := Unix T, count := k }])
    (hT2 : T + Second ≤ T2) :
    l.AllowN key 1 T2 =
      some ⟨l.put key [{ timestamp := Unix T2, count := 1 }], true, none⟩ := by
  obtain ⟨hmax, hexp, hcur⟩ := sw_ten_per_second l hrate hwin hprec T2
  have hlate : Unix T ≤ Unix T2 - 1 := by
    unfold Unix
    unfold Second at hT2
    omega
  have hvalid : l.validWindows key T2 = [] := by
    have : ¬ (Unix T2 - 1 < Unix T) := by omega
    simp [slidingWindow.validWindows, hw, hexp, this]
  simp [slidingWindow.AllowN, hvalid, sumCounts, hmax, hcur, upsert, addToFirst]

/-- A run of `j` calls of cost one in the second of the only entry of the key, which
holds `k` requests, with `k + j` at most ten: all are admitted, and the run goes on from
a limiter with the same settings whose entry holds `k + j` requests. -/
theorem sw_run_same_second (key : String) (T : Int) (j : Nat) :
    ∀ (l : slidingWindow) (k : Int), l.rate = 10 → l.window = Second →
      l.precision = Second →
      l.windows key = some [{ timestamp := Unix T, count := k }] → k + j ≤ 10 →
      ∃ l2 : slidingWindow, l2.rate = 10 ∧ l2.window = Second ∧ l2.precision = Second ∧
        l2.windows key = some [{ timestamp := Unix T, count := k + j }] ∧
        ∀ rest, l.allowRun key (List.replicate j (1, T) ++ rest) =
          (l2.allowRun key rest).map fun p => (p.1, List.replicate j true ++ p.2) := by
  induction j with
  | zero =>
    intro l k hrate hwin hprec hw _
    refine ⟨l, hrate, hwin, hprec, by simpa using hw, fun rest => ?_⟩
    simp
  | succ j ih =>
    intro l k hrate hwin hprec hw hk
    have hstep := (sw_allow_same_second l key T k hrate hwin hprec hw).1
      (by push_cast at hk; omega)
    obtain ⟨l2, h2rate, h2win, h2prec, h2w, hrun⟩ :=
      ih (l.put key [{ timestamp := Unix T, count := k + 1 }]) (k + 1) hrate hwin hprec
        (sw_put_same _ _ _) (by push_cast at hk; omega)
    refine ⟨l2, h2rate, h2win, h2prec, ?_, fun rest => ?_⟩
    · rw [h2w]
      push_cast
      congr 3
      ring
    · rw [List.replicate_succ, List.cons_append]
      rw [slidingWindow.allowRun, hstep, Option.some_bind, hrun, Option.map_map]
      rfl

/-- The update loop finds no entry exactly when no entry has the timestamp. -/
theorem addToFirst_eq_none (ts n : Int) (ws : List window) :
    addToFirst ts n ws = none ↔ ∀ w ∈ ws, w.timestamp ≠ ts := by
  induction ws with
  | nil => simp [addToFirst]
  | cons w ws ih =>
    by_cases h : w.timestamp = ts
    · simp [addToFirst, h]
    · simp [addToFirst, h, ih]

/-- When the update loop finds an entry, it is the first one with the timestamp, and it
is the only entry that changes: its count grows by `n`. -/
theorem addToFirst_eq_some (ts n : Int) (ws ws2 : List window)
    (h : addToFirst ts n ws = some ws2) :
    ∃ pre w post, ws = pre ++ w :: post ∧ w.timestamp = ts ∧
      (∀ x ∈ pre, x.timestamp ≠ ts) ∧
      ws2 = pre ++ { w with count := w.count + n } :: post := by
  induction ws generalizing ws2 with
  | nil => simp [addToFirst] at h
  | cons w ws ih =>
    by_cases hw : w.timestamp = ts
    · simp only [addToFirst, hw, if_true, Option.some.injEq] at h
      exact ⟨[], w, ws, rfl, hw, by simp, by simp [← h, hw]⟩
    · simp only [addToFirst, hw, if_false, Option.map_eq_some'] at h
      obtain ⟨rest, hrest, hws2⟩ := h
      obtain ⟨pre, x, post, hsplit, hx, hpre, hrest2⟩ := ih rest hrest
      refine ⟨w :: pre, x, post, by simp [hsplit], hx, ?_, by simp [← hws2, hrest2]⟩
      intro y hy
      rcases List.mem_cons.mp hy with rfl | hy
      · exact hw
      · exact hpre y hy

theorem sumCounts_cons (w : window) (ws : List window) :
    sumCounts (w :: ws) = w.count + sumCounts ws := by
  simp [sumCounts]

/-- The update adds exactly `n` to the sum of the counts. -/
theorem sumCounts_upsert (ws : List window) (ts n : Int) :
    sumCounts (upsert ws ts n) = sumCounts ws + n := by
  unfold upsert
  cases h : addToFirst ts n ws with
  | none => simp [sumCounts]
  | some ws2 =>
    obtain ⟨pre, w, post, hsplit, _, _, hws2⟩ := addToFirst_eq_some ts n ws ws2 h
    simp only [hsplit, hws2, sumCounts, List.map_append, List.map_cons, List.sum_append,
      List.sum_cons]
    ring

/-- The method `ReserveN` of the sliding window leaves the entries of the key that have
not expired as they were: it adds nothing. -/
theorem sw_ReserveN_validWindows (l : slidingWindow) (key : String) (n now : Int) :
    (l.ReserveN key n now).l.validWindows key now = l.validWindows key now := by
  simp [slidingWindow.ReserveN, slidingWindow.validWindows, slidingWindow.put,
    slidingWindow.expireTime, List.filter_filter]

/-! ## Claims on the sliding window -/

/-- C18.  For a sliding window limiter with rate ten per second, a window of one second
and a precision of one second, a key without entries and an instant `T`: ten calls
`AllowN(key, 1, T)` in a row all return true, an eleventh returns false, and a call
`AllowN(key, 1, T2)` after it, at any instant `T2` at least one second after `T`, returns
true; no call panics. -/
theorem C18_ten_per_second (l : slidingWindow) (key : String) (T T2 : Int)
    (hrate : l.rate = 10) (hwin : l.window = Second) (hprec : l.precision = Second)
    (hw : l.windows key = none) (hT2 : T + Second ≤ T2) :
    (l.allowRun key (List.replicate 10 (1, T) ++ [(1, T), (1, T2)])).map Prod.snd =
      some (List.replicate 10 true ++ [false, true]) := by
  have h1 := sw_allow_first l key T hrate hwin hprec hw
  obtain ⟨l2, h2rate, h2win, h2prec, h2w, hrun⟩ :=
    sw_run_same_second key T 9 (l.put key [{ timestamp := Unix T, count := 1 }]) 1
      hrate hwin hprec (sw_put_same _ _ _) (by norm_num)
  have h2w10 : l2.windows key = some [{ timestamp := Unix T, count := 10 }] := by
    rw [h2w]
    norm_num
  have h11 := (sw_allow_same_second l2 key T 10 h2rate h2win h2prec h2w10).2 (by norm_num)
  have h12 := sw_allow_next_window (l2.put key [{ timestamp := Unix T, count := 10 }]) key
    T T2 10 h2rate h2win h2prec (sw_put_same _ _ _) hT2
  have hsplit : List.replicate 10 ((1 : Int), T) ++ [(1, T), (1, T2)] =
      (1, T) :: (List.replicate 9 ((1 : Int), T) ++ [(1, T), (1, T2)]) := rfl
  rw [hsplit, slidingWindow.allowRun, h1, Option.some_bind, hrun]
  simp [slidingWindow.allowRun, h11, h12, List.replicate]

theorem C18_ten_per_second_witness :
    (slidingWindowExample.allowRun "k"
        (List.replicate 10 (1, 5) ++ [(1, 5), (1, 1000000005)])).map Prod.snd =
      some (List.replicate 10 true ++ [false, true]) :=
  C18_ten_per_second slidingWindowExample "k" 5 1000000005 rfl rfl rfl rfl (by decide)

theorem sw_AllowN_nonpos (w : slidingWindow) (key : String) (n now : Int) (hn : n ≤ 0) :
    w.AllowN key n now = some ⟨w, true, none⟩ := by
  simp [slidingWindow.AllowN, hn]

theorem sw_AllowN_over (w : slidingWindow) (key : String) (n now : Int) (hn : 0 < n)
    (hover : sumCounts (w.validWindows key now) + n > w.maxRequests) :
    w.AllowN key n now = some ⟨w.put key (w.validWindows key now), false, none⟩ := by
  have hn0 : ¬ n ≤ 0 := by omega
  simp [slidingWindow.AllowN, hn0, hover]

theorem sw_AllowN_fit (w : slidingWindow) (key : String) (n now cur : Int) (hn : 0 < n)
    (hfit : ¬ sumCounts (w.validWindows key now) + n > w.maxRequests)
    (hcur : w.currentTimestamp now = some cur) :
    w.AllowN key n now =
      some ⟨w.put key (upsert (w.validWindows key now) cur n), true, none⟩ := by
  have hn0 : ¬ n ≤ 0 := by omega
  simp [slidingWindow.AllowN, hn0, hfit, hcur]

theorem sw_AllowN_panic (w : slidingWindow) (key : String) (n now : Int) (hn : 0 < n)
    (hfit : ¬ sumCounts (w.validWindows key now) + n > w.maxRequests)
    (hcur : w.currentTimestamp now = none) : w.AllowN key n now = none := by
  have hn0 : ¬ n ≤ 0 := by omega
  simp [slidingWindow.AllowN, hn0, hfit, hcur]

/-! ## The sliding window with the arithmetic of the machine -/

theorem machine_float64_one : machine.float64 1 = some 1 := by
  rw [machine_float64_eq 1 0 4503599627370496 (by norm_num)
    (by norm_num [le_abs]) (by norm_num [abs_lt]) (by norm_num [machine.roundHalfEven])
    (by norm_num [abs_lt])]
  norm_num

theorem machine_float64_ten : machine.float64 10 = some 10 := by
  rw [machine_float64_eq 10 3 5629499534213120 (by norm_num)
    (by norm_num [le_abs]) (by norm_num [abs_lt]) (by norm_num [machine.roundHalfEven])
    (by norm_num [abs_lt])]
  norm_num

theorem machine_int64_one : machine.int64 1 = some 1 := by
  have h : toInt64 1 = 1 := by norm_num [toInt64]
  unfold machine.int64
  rw [h, if_pos (by decide)]

theorem machine_int64_ten : machine.int64 10 = some 10 := by
  have h : toInt64 10 = 10 := by norm_num [toInt64]
  unfold machine.int64
  rw [h, if_pos (by decide)]

theorem machine_Seconds_Second : machine.Seconds Second = some 1 := by
  have h1 : ((Int.tdiv Second 1000000000 : Int) : ℚ) = 1 := by norm_num [Second]
  have h2 : ((Int.tmod Second 1000000000 : Int) : ℚ) = 0 := by norm_num [Second]
  unfold machine.Seconds
  rw [Option.bind_eq_bind, h1, h2, machine_float64_one, Option.some_bind,
    machine_float64_zero, Option.some_bind, zero_div, machine_float64_zero, Option.some_bind,
    add_zero, machine_float64_one]

/-- The method `AllowN` of a limiter with rate ten, a window of one second and a
precision of one second, with the arithmetic of the machine, for a cost above zero. -/
theorem machine_sw_AllowN_ten (l : slidingWindow) (hrate : l.rate = 10)
    (hwin : l.window = Second) (hprec : l.precision = Second) (key : String) (n now : Int)
    (hn : 0 < n) :
    machine.slidingWindow.AllowN l key n now =
      if machine.wrapInt64 (machine.sumCounts (((l.windows key).getD []).filter
          (fun w => decide (w.timestamp > machine.wrapInt64 (Unix now - 1)))) + n) > 10 then
        some ⟨l.put key (((l.windows key).getD []).filter
          (fun w => decide (w.timestamp > machine.wrapInt64 (Unix now - 1)))), false, none⟩
      else
        some ⟨l.put key (machine.upsert (((l.windows key).getD []).filter
            (fun w => decide (w.timestamp > machine.wrapInt64 (Unix now - 1))))
          (machine.wrapInt64 (Unix now - Int.tmod (Unix now) 1)) n), true, none⟩ := by
  unfold machine.slidingWindow.AllowN
  simp only [Option.bind_eq_bind]
  rw [if_neg (not_le.mpr hn), hwin, hprec, hrate, machine_Seconds_Second,
    Option.some_bind, machine_int64_one, Option.some_bind, mul_one, machine_float64_ten,
    Option.some_bind, machine_int64_ten, Option.some_bind]
  simp only [Option.some_bind]
  rw [machine_int64_one]
  simp only [Option.some_bind, one_ne_zero, if_false]

/-- The addition of `int64` wraps around: on the limiter `slidingWindowExample`, after an
admitted call of cost one, a call of cost `2 ^ 63 - 1` at the same instant finds the
count one, adds the cost to it, which gives the least `int64`, finds that it is not
above `maxRequests = 10`, and is admitted. -/
theorem machine_sw_wraps :
    ∃ d1 d2 : Decision slidingWindow,
      machine.slidingWindow.AllowN slidingWindowExample "k" 1 0 = some d1 ∧
      d1.ok = true ∧ d1.l.windows "k" = some [{ timestamp := 0, count := 1 }] ∧
      machine.slidingWindow.AllowN d1.l "k" 9223372036854775807 0 = some d2 ∧
      d2.ok = true ∧
      d2.l.windows "k" = some [{ timestamp := 0, count := -9223372036854775808 }] := by
  have h1 := machine_sw_AllowN_ten slidingWindowExample rfl rfl rfl "k" 1 0 (by decide)
  rw [if_neg (by decide)] at h1
  have h2 := machine_sw_AllowN_ten
    (slidingWindowExample.put "k" [{ timestamp := 0, count := 1 }]) rfl rfl rfl "k"
    9223372036854775807 0 (by decide)
  rw [if_neg (by decide)] at h2
  have hu : machine.upsert (((slidingWindowExample.windows "k").getD []).filter
      (fun w => decide (w.timestamp > machine.wrapInt64 (Unix 0 - 1))))
      (machine.wrapInt64 (Unix 0 - Int.tmod (Unix 0) 1)) 1 =
      [{ timestamp := 0, count := 1 }] := by decide
  rw [hu] at h1
  refine ⟨_, _, h1, rfl, sw_put_same _ _ _, h2, rfl, ?_⟩
  rw [sw_put_same, sw_put_same]
  decide

/-- The method `AllowN` of the sliding window for a cost `n > 0` and a precision of at
least one whole second, with `S` the sum of the counts of the entries of the key that
have not expired: it does not panic, returns a nil error, and returns true if and only
if `S + n ≤ maxRequests`.  When it returns true the entries of the key are the entries
that have not expired with `n` added to the first entry of the current precision bucket
`cur`, or with the entry `(cur, n)` appended when there is none; when it returns false
they are the entries that have not expired, as they were.  The entries of the other keys
stay. -/
theorem sw_AllowN_cases (l : slidingWindow) (key : String) (n now : Int)
    (hn : 0 < n) (hp : 1 ≤ l.precisionSeconds) :
    ∃ (d : Decision slidingWindow) (cur : Int),
      l.AllowN key n now = some d ∧ d.err = none ∧
      cur = Unix now - Int.tmod (Unix now) l.precisionSeconds ∧
      (0 ≤ Unix now → cur = Unix now / l.precisionSeconds * l.precisionSeconds) ∧
      (0 ≤ l.rate * Seconds l.window → l.maxRequests = ⌊l.rate * Seconds l.window⌋) ∧
      (d.ok = true ↔ sumCounts (l.validWindows key now) + n ≤ l.maxRequests) ∧
      (d.ok = true →
        d.l.windows key = some (upsert (l.validWindows key now) cur n) ∧
        sumCounts (upsert (l.validWindows key now) cur n) =
          sumCounts (l.validWindows key now) + n ∧
        ((∀ w ∈ l.validWindows key now, w.timestamp ≠ cur) →
          upsert (l.validWindows key now) cur n =
            l.validWindows key now ++ [{ timestamp := cur, count := n }]) ∧
        ((∃ w ∈ l.validWindows key now, w.timestamp = cur) →
          ∃ pre w post, l.validWindows key now = pre ++ w :: post ∧ w.timestamp = cur ∧
            (∀ x ∈ pre, x.timestamp ≠ cur) ∧
            upsert (l.validWindows key now) cur n =
              pre ++ { w with count := w.count + n } :: post)) ∧
      (d.ok = false → d.l.windows key = some (l.validWindows key now)) ∧
      (∀ k, k ≠ key → d.l.windows k = l.windows k) := by
  have hn0 : ¬ n ≤ 0 := by omega
  have hp0 : l.precisionSeconds ≠ 0 := by omega
  have hcur : l.currentTimestamp now =
      some (Unix now - Int.tmod (Unix now) l.precisionSeconds) := by
    simp [slidingWindow.currentTimestamp, hp0]
  have hround : 0 ≤ Unix now → Unix now - Int.tmod (Unix now) l.precisionSeconds =
      Unix now / l.precisionSeconds * l.precisionSeconds := by
    intro h0
    rw [Int.tmod_eq_emod h0 (by omega), Int.emod_def]
    ring
  have hfloor : 0 ≤ l.rate * Seconds l.window →
      l.maxRequests = ⌊l.rate * Seconds l.window⌋ := fun h => toInt64_of_nonneg h
  have hups : (∀ w ∈ l.validWindows key now,
        w.timestamp ≠ Unix now - Int.tmod (Unix now) l.precisionSeconds) →
      upsert (l.validWindows key now) (Unix now - Int.tmod (Unix now) l.precisionSeconds) n =
        l.validWindows key now ++
          [{ timestamp := Unix now - Int.tmod (Unix now) l.precisionSeconds, count := n }] := by
    intro h
    simp [upsert, (addToFirst_eq_none _ n _).mpr h]
  have hfound : (∃ w ∈ l.validWindows key now,
        w.timestamp = Unix now - Int.tmod (Unix now) l.precisionSeconds) →
      ∃ pre w post, l.validWindows key now = pre ++ w :: post ∧
        w.timestamp = Unix now - Int.tmod (Unix now) l.precisionSeconds ∧
        (∀ x ∈ pre, x.timestamp ≠ Unix now - Int.tmod (Unix now) l.precisionSeconds) ∧
        upsert (l.validWindows key now)
            (Unix now - Int.tmod (Unix now) l.precisionSeconds) n =
          pre ++ { w with count := w.count + n } :: post := by
    intro h
    cases hadd : addToFirst (Unix now - Int.tmod (Unix now) l.precisionSeconds) n
        (l.validWindows key now) with
    | none =>
      obtain ⟨w, hw, hts⟩ := h
      exact absurd hts ((addToFirst_eq_none _ n _).mp hadd w hw)
    | some ws2 =>
      obtain ⟨pre, w, post, hsplit, hw, hpre, hws2⟩ := addToFirst_eq_some _ n _ ws2 hadd
      exact ⟨pre, w, post, hsplit, hw, hpre, by simp [upsert, hadd, hws2]⟩
  by_cases hover : sumCounts (l.validWindows key now) + n > l.maxRequests
  · refine ⟨⟨l.put key (l.validWindows key now), false, none⟩, _, ?_, rfl, rfl, hround,
      hfloor, ?_, ?_, ?_, ?_⟩
    · simp [slidingWindow.AllowN, hn0, hover]
    · constructor
      · intro h; cases h
      · intro h; omega
    · intro h; cases h
    · intro _; exact sw_put_same _ _ _
    · intro k hk; exact sw_put_other _ _ _ _ hk
  · refine ⟨⟨l.put key (upsert (l.validWindows key now)
        (Unix now - Int.tmod (Unix now) l.precisionSeconds) n), true, none⟩, _, ?_, rfl, rfl,
      hround, hfloor, ?_, ?_, ?_, ?_⟩
    · simp [slidingWindow.AllowN, hn0, hover, hcur]
    · constructor
      · intro _; omega
      · intro _; rfl
    · intro _
      exact ⟨sw_put_same _ _ _, sumCounts_upsert _ _ _, hups, hfound⟩
    · intro h; cases h
    · intro k hk; exact sw_put_other _ _ _ _ hk

/-- A window of a whole number of seconds is that number of seconds. -/
theorem toInt64_Seconds_whole (W : Int) : toInt64 (Seconds (W * Second)) = W := by
  have h : Seconds (W * Second) = (W : ℚ) := by
    unfold Seconds Second
    push_cast
    field_simp
  rw [h, toInt64_intCast]

/-- The settings of a sliding window limiter whose window and precision are whole
numbers of seconds. -/
theorem sw_whole_seconds (l : slidingWindow) (W P : Int) (hW : l.window = W * Second)
    (hP : l.precision = P * Second) :
    (∀ now, l.expireTime now = Unix now - W) ∧
      l.maxRequests = toInt64 (l.rate * (W : ℚ)) ∧ l.precisionSeconds = P ∧
      ∀ key now, l.validWindows key now =
        ((l.windows key).getD []).filter (fun w => decide (w.timestamp > Unix now - W)) := by
  have hsec : Seconds (W * Second) = (W : ℚ) := by
    unfold Seconds Second
    push_cast
    field_simp
  have hexp : ∀ now, l.expireTime now = Unix now - W := by
    intro now
    rw [slidingWindow.expireTime, hW, toInt64_Seconds_whole]
  refine ⟨hexp, ?_, ?_, ?_⟩
  · rw [slidingWindow.maxRequests, hW, hsec]
  · rw [slidingWindow.precisionSeconds, hP, toInt64_Seconds_whole]
  · intro key now
    rw [slidingWindow.validWindows, hexp]

/-- The settings of a limiter with rate ten, a window of one second and a half and a
precision of one second: fifteen requests fit the window, and the entries kept are those
of the current second. -/
theorem sw_window_1500ms (l : slidingWindow) (hrate : l.rate = 10)
    (hwin : l.window = 1500 * Millisecond) (hprec : l.precision = Second) (now : Int) :
    l.maxRequests = 15 ∧ l.expireTime now = Unix now - 1 ∧
      l.currentTimestamp now = some (Unix now) := by
  have h1 : toInt64 (1 : ℚ) = 1 := by norm_num [toInt64]
  have hs : Seconds (1500 * Millisecond) = 3 / 2 := by norm_num [Seconds, Millisecond]
  have h15 : toInt64 (10 * (3 / 2) : ℚ) = 15 := by norm_num [toInt64]
  have h32 : toInt64 (3 / 2 : ℚ) = 1 := by norm_num [toInt64]
  refine ⟨?_, ?_, ?_⟩
  · rw [slidingWindow.maxRequests, hrate, hwin, hs, h15]
  · rw [slidingWindow.expireTime, hwin, hs, h32]
  · simp [slidingWindow.currentTimestamp, slidingWindow.precisionSeconds, hprec,
      Seconds_Second, h1]

theorem machine_int64_intCast (z : Int) (h : machine.isInt64 z) :
    machine.int64 (z : ℚ) = some z := by
  unfold machine.int64
  rw [toInt64_intCast]
  exact if_pos h

/-- A duration of a whole number of seconds is that number of seconds, exactly. -/
theorem machine_Seconds_whole (W : Int) (h1 : -2 ^ 53 ≤ W) (h2 : W ≤ 2 ^ 53) :
    machine.Seconds (W * Second) = some (W : ℚ) := by
  have hd : Int.tdiv (W * Second) 1000000000 = W := by
    unfold Second
    exact Int.mul_tdiv_cancel _ (by norm_num)
  have hm : Int.tmod (W * Second) 1000000000 = 0 := by
    unfold Second
    exact Int.mul_tmod_left _ _
  unfold machine.Seconds
  simp only [Option.bind_eq_bind]
  rw [hd, hm, machine_float64_intCast W h1 h2, Option.some_bind, Int.cast_zero,
    machine_float64_zero, Option.some_bind, zero_div, machine_float64_zero, Option.some_bind,
    add_zero, machine_float64_intCast W h1 h2]

theorem machine_sumCounts_foldl (ws : List window) :
    ∀ a : Int, ws.foldl (fun count w => machine.wrapInt64 (count + w.count))
      (machine.wrapInt64 a) = machine.wrapInt64 (a + sumCounts ws) := by
  induction ws with
  | nil =>
    intro a
    simp [sumCounts]
  | cons w ws ih =>
    intro a
    rw [List.foldl_cons, machine_wrapInt64_add, ih, sumCounts_cons]
    congr 1
    ring

/-- The sum of the loop is the sum of the counts, wrapped once. -/
theorem machine_sumCounts_eq (ws : List window) :
    machine.sumCounts ws = machine.wrapInt64 (sumCounts ws) := by
  have h := machine_sumCounts_foldl ws 0
  rw [zero_add] at h
  rw [← h]
  rfl

theorem sumCounts_nonneg (ws : List window) (h : ∀ w ∈ ws, 0 ≤ w.count) :
    0 ≤ sumCounts ws := by
  induction ws with
  | nil => simp [sumCounts]
  | cons w ws ih =>
    rw [sumCounts_cons]
    have := h w (List.mem_cons_self _ _)
    have := ih (fun x hx => h x (List.mem_cons_of_mem _ hx))
    omega

theorem count_le_sumCounts (ws : List window) (h : ∀ w ∈ ws, 0 ≤ w.count) :
    ∀ w ∈ ws, w.count ≤ sumCounts ws := by
  induction ws with
  | nil => intro w hw; cases hw
  | cons x ws ih =>
    intro w hw
    rw [sumCounts_cons]
    have hx := h x (List.mem_cons_self _ _)
    have hrest := sumCounts_nonneg ws (fun y hy => h y (List.mem_cons_of_mem _ hy))
    rcases List.mem_cons.mp hw with rfl | hw
    · omega
    · have := ih (fun y hy => h y (List.mem_cons_of_mem _ hy)) w hw
      omega

theorem machine_addToFirst_eq (ts n : Int) (ws : List window)
    (h : ∀ w ∈ ws, machine.isInt64 (w.count + n)) :
    machine.addToFirst ts n ws = addToFirst ts n ws := by
  induction ws with
  | nil => rfl
  | cons w ws ih =>
    have hw := h w (List.mem_cons_self _ _)
    rw [machine.addToFirst, addToFirst, machine_wrapInt64_of_range _ hw.1 hw.2,
      ih (fun x hx => h x (List.mem_cons_of_mem _ hx))]

theorem machine_upsert_eq (ws : List window) (ts n : Int)
    (h : ∀ w ∈ ws, machine.isInt64 (w.count + n)) :
    machine.upsert ws ts n = upsert ws ts n := by
  rw [machine.upsert, upsert, machine_addToFirst_eq ts n ws h]

/-- The current bucket of an `int64` second is an `int64`. -/
theorem isInt64_bucket (u P : Int) (hu : machine.isInt64 u) (hP : 1 ≤ P) :
    machine.isInt64 (u - Int.tmod u P) := by
  unfold machine.isInt64 at *
  rw [Int.tmod_def]
  rcases le_total 0 u with h | h
  · rw [Int.tdiv_eq_ediv h (by omega)]
    have h1 : 0 ≤ P * (u / P) := mul_nonneg (by omega) (Int.ediv_nonneg h (by omega))
    have h2 : P * (u / P) ≤ u := Int.mul_ediv_self_le (by omega)
    constructor <;> linarith
  · have hneg : Int.tdiv u P = -((-u) / P) := by
      have := Int.neg_tdiv (-u) P
      rw [neg_neg] at this
      rw [this, Int.tdiv_eq_ediv (by omega) (by omega)]
    rw [hneg]
    have h1 : 0 ≤ P * ((-u) / P) := mul_nonneg (by omega) (Int.ediv_nonneg (by omega) (by omega))
    have h2 : P * ((-u) / P) ≤ -u := Int.mul_ediv_self_le (by omega)
    constructor <;> linarith

/-- With a window and a precision of whole seconds, the product `rate * W` a `float64`
and every `int64` of the call in range (the Unix second of the call and the expiry
threshold, `maxRequests`, the counts kept not below zero and their sum with the cost
below `2 ^ 63`), `AllowN` with the arithmetic of the machine is `AllowN` with exact
arithmetic. -/
theorem machine_sw_AllowN_eq (l : slidingWindow) (key : String) (n now W P : Int)
    (hW : l.window = W * Second) (hP : l.precision = P * Second)
    (hWr : -2 ^ 53 ≤ W ∧ W ≤ 2 ^ 53) (hPr : 1 ≤ P ∧ P ≤ 2 ^ 53)
    (hexact : machine.float64 (l.rate * (W : ℚ)) = some (l.rate * (W : ℚ)))
    (hmax : machine.isInt64 (toInt64 (l.rate * (W : ℚ))))
    (hnow : machine.isInt64 (Unix now)) (hexp : machine.isInt64 (Unix now - W))
    (hcounts : ∀ w ∈ l.validWindows key now, 0 ≤ w.count)
    (hsum : sumCounts (l.validWindows key now) + n < 2 ^ 63) :
    machine.slidingWindow.AllowN l key n now = l.AllowN key n now := by
  by_cases hn : n ≤ 0
  · rw [machine.slidingWindow.AllowN, if_pos hn, sw_AllowN_nonpos l key n now hn]
  obtain ⟨hexpire, hmaxeq, hprec, hvalid⟩ := sw_whole_seconds l W P hW hP
  have hWi : machine.isInt64 W := by
    unfold machine.isInt64
    constructor <;> omega
  have hPi : machine.isInt64 P := by
    unfold machine.isInt64
    constructor <;> omega
  have hmaxi : machine.int64 (l.rate * (W : ℚ)) = some (toInt64 (l.rate * (W : ℚ))) := by
    unfold machine.int64
    exact if_pos hmax
  have hS0 : 0 ≤ sumCounts (l.validWindows key now) := sumCounts_nonneg _ hcounts
  have hSw : machine.sumCounts (l.validWindows key now) = sumCounts (l.validWindows key now) := by
    rw [machine_sumCounts_eq, machine_wrapInt64_of_range _ (by omega) (by omega)]
  have hSn : machine.wrapInt64 (sumCounts (l.validWindows key now) + n) =
      sumCounts (l.validWindows key now) + n :=
    machine_wrapInt64_of_range _ (by omega) hsum
  have hcur := isInt64_bucket (Unix now) P hnow hPr.1
  have hups : machine.upsert (l.validWindows key now) (Unix now - Int.tmod (Unix now) P) n =
      upsert (l.validWindows key now) (Unix now - Int.tmod (Unix now) P) n := by
    apply machine_upsert_eq
    intro w hw
    have h0 := hcounts w hw
    have hle := count_le_sumCounts _ hcounts w hw
    unfold machine.isInt64
    constructor <;> omega
  unfold machine.slidingWindow.AllowN
  simp only [Option.bind_eq_bind]
  rw [if_neg hn, hW, hP, machine_Seconds_whole W hWr.1 hWr.2, Option.some_bind,
    machine_int64_intCast W hWi, Option.some_bind, hexact, Option.some_bind, hmaxi,
    Option.some_bind, machine_wrapInt64_of_range _ hexp.1 hexp.2, ← hvalid key now, hSw, hSn]
  by_cases hover : sumCounts (l.validWindows key now) + n > l.maxRequests
  · rw [sw_AllowN_over l key n now (by omega) hover, if_pos (by rw [← hmaxeq]; exact hover)]
  · have hcurrent : l.currentTimestamp now = some (Unix now - Int.tmod (Unix now) P) := by
      have hp0 : ¬ P = 0 := by omega
      simp [slidingWindow.currentTimestamp, hp0, hprec]
    rw [sw_AllowN_fit l key n now _ (by omega) hover hcurrent,
      if_neg (by rw [← hmaxeq]; exact hover), machine_Seconds_whole P (by omega) hPr.2,
      Option.some_bind, machine_int64_intCast P hPi, Option.some_bind,
      if_neg (by omega : ¬ P = 0), machine_wrapInt64_of_range _ hcur.1 hcur.2, hups]

/-- The product of the `float64` nearest to `0.7` by ten is half way between two
`float64` numbers and is rounded up to seven. -/
theorem machine_float64_rounds_to_seven :
    machine.float64 (3152519739159347 / 4503599627370496 * ((10 : Int) : ℚ)) = some 7 := by
  rw [machine_float64_eq (3152519739159347 / 4503599627370496 * ((10 : Int) : ℚ)) 2
    7881299347898368 (by norm_num)
    (by norm_num [le_abs]) (by norm_num [abs_lt]) (by norm_num [machine.roundHalfEven])
    (by norm_num [abs_lt])]
  norm_num

/-- The product `rate * window` is rounded: on a limiter whose rate is the `float64`
nearest to `0.7`, with a window of ten seconds and a precision of one second,
`rate * window` is below seven, yet `maxRequests` is seven, and a call of cost seven for a
key without entries is admitted. -/
theorem machine_sw_rounds :
    (machine.slidingWindow.AllowN
        (NewSlidingWindow [WithRate (3152519739159347 / 4503599627370496),
          WithWindow (10 * Second), WithPrecision Second]) "k" 7 0).map (fun d => d.ok) =
        some true ∧
      ⌊(3152519739159347 / 4503599627370496 : ℚ) * Seconds (10 * Second)⌋ = 6 := by
  have h7 : machine.int64 7 = some 7 := by
    have h : toInt64 7 = 7 := by norm_num [toInt64]
    unfold machine.int64
    rw [h, if_pos (by decide)]
  have hsec : machine.Seconds ((1 : Int) * Second) = some ((1 : Int) : ℚ) :=
    machine_Seconds_whole 1 (by norm_num) (by norm_num)
  rw [one_mul] at hsec
  constructor
  · unfold machine.slidingWindow.AllowN
    simp only [Option.bind_eq_bind]
    rw [if_neg (by decide)]
    show Option.map _ ((machine.Seconds (10 * Second)).bind _) = _
    rw [machine_Seconds_whole 10 (by norm_num) (by norm_num), Option.some_bind,
      machine_int64_intCast 10 ⟨by decide, by decide⟩, Option.some_bind]
    show Option.map _
      ((machine.float64 (3152519739159347 / 4503599627370496 * ((10 : Int) : ℚ))).bind _) = _
    rw [machine_float64_rounds_to_seven, Option.some_bind, h7, Option.some_bind,
      if_neg (by decide)]
    show Option.map _ ((machine.Seconds Second).bind _) = _
    rw [hsec, Option.some_bind, machine_int64_intCast 1 ⟨by decide, by decide⟩,
      Option.some_bind, if_neg (by decide)]
    rfl
  · norm_num [Seconds, Second]

/-- C19, as stated, fails, in three ways.  The window is cut to whole seconds when the
entries are pruned: on a limiter with rate ten, a window of one second and a half and a
precision of one second, `floor(rate * window)` is fifteen; a call of cost fifteen at the
Unix second six is admitted and leaves the entry `(6, 15)`; at the Unix second seven that
entry has a timestamp above `now - window = 5.5`, so that `S + n = 16` for a cost of one,
yet the call is admitted.  The sums are `int64`: on a limiter with rate ten and a
window and a precision of one second, after an admitted call of cost one, `S + n` is
`2 ^ 63` for the cost `2 ^ 63 - 1` at the same instant, above `floor(rate * window) = 10`,
yet the call, with the arithmetic of the machine, is admitted.  And the product
`rate * window` is rounded: on a limiter whose rate is the `float64` nearest to `0.7`,
with a window of ten seconds, `floor(rate * window)` is six, yet a call of cost seven for
a key without entries, with the arithmetic of the machine, is admitted. -/
theorem C19_counterexample :
    (∃ d1 d2 : Decision slidingWindow,
      (NewSlidingWindow [WithRate 10, WithWindow (1500 * Millisecond),
        WithPrecision Second]).AllowN "k" 15 (6 * Second) = some d1 ∧
      d1.ok = true ∧ d1.l.windows "k" = some [{ timestamp := 6, count := 15 }] ∧
      d1.l.AllowN "k" 1 (7 * Second) = some d2 ∧ d2.ok = true ∧
      ⌊(10 : ℚ) * Seconds (1500 * Millisecond)⌋ = 15 ∧
      sumCounts ([({ timestamp := 6, count := 15 } : window)].filter
        (fun w => decide ((w.timestamp : ℚ) >
          Seconds (7 * Second) - Seconds (1500 * Millisecond)))) + 1 = 16) ∧
    (∃ d1 d2 : Decision slidingWindow,
      machine.slidingWindow.AllowN slidingWindowExample "k" 1 0 = some d1 ∧
      d1.ok = true ∧ d1.l.windows "k" = some [{ timestamp := 0, count := 1 }] ∧
      machine.slidingWindow.AllowN d1.l "k" 9223372036854775807 0 = some d2 ∧
      d2.ok = true ∧
      ⌊(10 : ℚ) * Seconds Second⌋ = 10 ∧
      sumCounts ([({ timestamp := 0, count := 1 } : window)].filter
        (fun w => decide ((w.timestamp : ℚ) > Seconds 0 - Seconds Second))) +
          9223372036854775807 = 9223372036854775808) ∧
    ((machine.slidingWindow.AllowN
        (NewSlidingWindow [WithRate (3152519739159347 / 4503599627370496),
          WithWindow (10 * Second), WithPrecision Second]) "k" 7 0).map (fun d => d.ok) =
        some true ∧
      ⌊(3152519739159347 / 4503599627370496 : ℚ) * Seconds (10 * Second)⌋ = 6 ∧
      sumCounts (([] : List window).filter
        (fun w => decide ((w.timestamp : ℚ) > Seconds 0 - Seconds (10 * Second)))) + 7 =
          7) := by
  refine ⟨?_, ?_, machine_sw_rounds.1, machine_sw_rounds.2, by simp [sumCounts]⟩
  · have hset := sw_window_1500ms
      (NewSlidingWindow [WithRate 10, WithWindow (1500 * Millisecond), WithPrecision Second])
      rfl rfl rfl
    have hset2 := sw_window_1500ms
      ((NewSlidingWindow [WithRate 10, WithWindow (1500 * Millisecond),
        WithPrecision Second]).put "k" [{ timestamp := 6, count := 15 }]) rfl rfl rfl
    have hu6 : Unix (6 * Second) = 6 := by decide
    have hu7 : Unix (7 * Second) = 7 := by decide
    have hv1 : (NewSlidingWindow [WithRate 10, WithWindow (1500 * Millisecond),
        WithPrecision Second]).validWindows "k" (6 * Second) = [] := rfl
    have hv2 : ((NewSlidingWindow [WithRate 10, WithWindow (1500 * Millisecond),
        WithPrecision Second]).put "k" [{ timestamp := 6, count := 15 }]).validWindows "k"
        (7 * Second) = [] := by
      rw [slidingWindow.validWindows, (hset2 (7 * Second)).2.1, sw_put_same, hu7]
      decide
    have hc1 := sw_AllowN_fit
      (NewSlidingWindow [WithRate 10, WithWindow (1500 * Millisecond), WithPrecision Second])
      "k" 15 (6 * Second) 6 (by decide)
      (by rw [hv1, (hset 0).1]; decide) (by rw [(hset (6 * Second)).2.2, hu6])
    rw [hv1] at hc1
    have hc2 := sw_AllowN_fit
      ((NewSlidingWindow [WithRate 10, WithWindow (1500 * Millisecond),
        WithPrecision Second]).put "k" [{ timestamp := 6, count := 15 }])
      "k" 1 (7 * Second) 7 (by decide)
      (by rw [hv2, (hset2 0).1]; decide) (by rw [(hset2 (7 * Second)).2.2, hu7])
    refine ⟨_, _, hc1, rfl, sw_put_same _ _ _, hc2, rfl, ?_, ?_⟩
    · norm_num [Seconds, Millisecond]
    · norm_num [Seconds, Millisecond, Second, sumCounts]
  · obtain ⟨d1, d2, h1, hok1, hw1, h2, hok2, _⟩ := machine_sw_wraps
    refine ⟨d1, d2, h1, hok1, hw1, h2, hok2, ?_, ?_⟩
    · norm_num [Seconds, Second]
    · norm_num [Seconds, Second, sumCounts]

/-- A whole number of seconds that is a `time.Duration` has at most 53 bits. -/
theorem seconds_of_duration (W : Int) (h : machine.isInt64 (W * Second)) :
    -2 ^ 53 ≤ W ∧ W ≤ 2 ^ 53 := by
  unfold machine.isInt64 Second at h
  constructor <;> omega

/-- C19, amended.  For the sliding window limiter whose window is a whole number `W` of
seconds and whose precision is a whole number `P` of seconds, at least one (both of them
durations), a key, a cost `n > 0` and an instant `now`, with `live` the entries of the
key whose timestamp is above `now.Unix() - W` and `S` the sum of their counts; when the
arithmetic of the machine is exact, that is when the product `rate * W` is a `float64`,
so that it is not rounded, and no `int64` overflows (`int64(rate * W)`, `now.Unix()` and
`now.Unix() - W` are in range, the counts of `live` are not below zero and
`S + n < 2 ^ 63`): `AllowN`, with the arithmetic of the machine as with exact
arithmetic, does not panic, returns a nil error, and returns true if and only if
`S + n ≤ int64(rate * W)`, which is `floor(rate * W)` when `rate * W` is not below zero.
When it returns true the entries of the key are `live` with `n` added to the first entry
of the current precision bucket `cur`, or with the entry `(cur, n)` appended when there
is none, and nothing else changed, so their sum is `S + n`; when it returns false they
are `live`, as they were.  The entries of the other keys stay.  The bucket `cur` is
`now.Unix()` minus its remainder by `P`, which is `now.Unix()` rounded down to a multiple
of the precision for instants from 1970 on. -/
theorem C19_slidingWindow_allowN (l : slidingWindow) (key : String) (n now W P : Int)
    (hn : 0 < n) (hW : l.window = W * Second) (hP : l.precision = P * Second)
    (hP1 : 1 ≤ P) (hWd : machine.isInt64 (W * Second)) (hPd : machine.isInt64 (P * Second))
    (hexact : machine.float64 (l.rate * (W : ℚ)) = some (l.rate * (W : ℚ)))
    (hmax : machine.isInt64 (toInt64 (l.rate * (W : ℚ))))
    (hnow : machine.isInt64 (Unix now)) (hexp : machine.isInt64 (Unix now - W))
    (hcounts : ∀ w ∈ ((l.windows key).getD []).filter
      (fun w => decide (w.timestamp > Unix now - W)), 0 ≤ w.count)
    (hsum : sumCounts (((l.windows key).getD []).filter
      (fun w => decide (w.timestamp > Unix now - W))) + n < 2 ^ 63) :
    ∃ (d : Decision slidingWindow) (live : List window) (cur : Int),
      l.AllowN key n now = some d ∧
      machine.slidingWindow.AllowN l key n now = some d ∧ d.err = none ∧
      live = ((l.windows key).getD []).filter
        (fun w => decide (w.timestamp > Unix now - W)) ∧
      cur = Unix now - Int.tmod (Unix now) P ∧
      (0 ≤ Unix now → cur = Unix now / P * P) ∧
      (0 ≤ l.rate * (W : ℚ) → toInt64 (l.rate * (W : ℚ)) = ⌊l.rate * (W : ℚ)⌋) ∧
      (d.ok = true ↔ sumCounts live + n ≤ toInt64 (l.rate * (W : ℚ))) ∧
      (d.ok = true →
        d.l.windows key = some (upsert live cur n) ∧
        sumCounts (upsert live cur n) = sumCounts live + n ∧
        ((∀ w ∈ live, w.timestamp ≠ cur) →
          upsert live cur n = live ++ [{ timestamp := cur, count := n }]) ∧
        ((∃ w ∈ live, w.timestamp = cur) →
          ∃ pre w post, live = pre ++ w :: post ∧ w.timestamp = cur ∧
            (∀ x ∈ pre, x.timestamp ≠ cur) ∧
            upsert live cur n = pre ++ { w with count := w.count + n } :: post)) ∧
      (d.ok = false → d.l.windows key = some live) ∧
      (∀ k, k ≠ key → d.l.windows k = l.windows k) := by
  obtain ⟨_, hmaxeq, hprec, hvalid⟩ := sw_whole_seconds l W P hW hP
  obtain ⟨d, cur, hd, herr, hcur, hround, _, hok, htrue, hfalse, hother⟩ :=
    sw_AllowN_cases l key n now hn (by rw [hprec]; exact hP1)
  have hmachine := machine_sw_AllowN_eq l key n now W P hW hP (seconds_of_duration W hWd)
    ⟨hP1, (seconds_of_duration P hPd).2⟩ hexact hmax hnow hexp
    (by rw [hvalid]; exact hcounts) (by rw [hvalid]; exact hsum)
  rw [hprec] at hcur hround
  rw [hmaxeq, hvalid] at hok
  rw [hvalid] at htrue hfalse
  exact ⟨d, _, cur, hd, hmachine.trans hd, herr, rfl, hcur, hround,
    fun h => toInt64_of_nonneg h, hok, htrue, hfalse, hother⟩

theorem C19_slidingWindow_allowN_witness :
    ∃ (d : Decision slidingWindow) (cur : Int),
      slidingWindowExample.AllowN "k" 4 2500000000 = some d ∧
      machine.slidingWindow.AllowN slidingWindowExample "k" 4 2500000000 = some d ∧
      cur = 2 ∧ d.ok = true ∧
      d.l.windows "k" = some [{ timestamp := 2, count := 4 }] := by
  have hprod : slidingWindowExample.rate * ((1 : Int) : ℚ) = 10 := by
    norm_num [slidingWindowExample, NewSlidingWindow, WithRate, WithWindow, WithPrecision]
  have h10 : toInt64 (slidingWindowExample.rate * ((1 : Int) : ℚ)) = 10 := by
    rw [hprod]
    norm_num [toInt64]
  obtain ⟨d, live, cur, hd, hm, _, hlive, hcur, _, _, hok, hwin, _, _⟩ :=
    C19_slidingWindow_allowN slidingWindowExample "k" 4 2500000000 1 1 (by decide)
      (by decide) (by decide) (by decide) ⟨by decide, by decide⟩ ⟨by decide, by decide⟩
      (by rw [hprod]; exact machine_float64_ten) (by rw [h10]; exact ⟨by decide, by decide⟩)
      ⟨by decide, by decide⟩ ⟨by decide, by decide⟩ (by decide) (by decide)
  have hl : live = [] := by rw [hlive]; rfl
  have hcur2 : cur = 2 := by rw [hcur]; decide
  have hok2 : d.ok = true := by
    rw [hok, hl, h10]
    decide
  refine ⟨d, cur, hd, hm, hcur2, hok2, ?_⟩
  rw [(hwin hok2).1, hl, hcur2]
  rfl

/-- C20 (the code departs from it).  On the fresh limiter `slidingWindowExample` (ten
requests per window), `ReserveN("k", 3, 0)` returns an OK reservation and leaves the key
with an empty entry list: the sum of the counts is zero before and zero after the call,
not three, and a following `AllowN("k", 10, 0)` at the same instant is admitted, as if
nothing had been reserved. -/
theorem C20_reserveN_commits_nothing :
    sumCounts (slidingWindowExample.validWindows "k" 0) = 0 ∧
      (slidingWindowExample.ReserveN "k" 3 0).r =
        some { OK := true, Limit := 10, Tokens := 3, TimeToAct := 0, DelayFrom := 0 } ∧
      (slidingWindowExample.ReserveN "k" 3 0).l.windows "k" = some [] ∧
      sumCounts ((slidingWindowExample.ReserveN "k" 3 0).l.validWindows "k" 0) = 0 ∧
      ((slidingWindowExample.ReserveN "k" 3 0).l.AllowN "k" 10 0).map (fun d => d.ok) =
        some true := by
  have hmax : slidingWindowExample.maxRequests = 10 :=
    (sw_ten_per_second slidingWindowExample rfl rfl rfl 0).1
  have hmax2 : (slidingWindowExample.put "k" []).maxRequests = 10 :=
    (sw_ten_per_second (slidingWindowExample.put "k" []) rfl rfl rfl 0).1
  have hcur : (slidingWindowExample.put "k" []).currentTimestamp 0 = some (Unix 0) :=
    (sw_ten_per_second (slidingWindowExample.put "k" []) rfl rfl rfl 0).2.2
  have hvalid : slidingWindowExample.validWindows "k" 0 = [] := rfl
  have hres : (slidingWindowExample.ReserveN "k" 3 0).l = slidingWindowExample.put "k" [] := by
    simp [slidingWindow.ReserveN, hvalid]
  have hvalid2 : (slidingWindowExample.put "k" []).validWindows "k" 0 = [] := by
    simp [slidingWindow.validWindows, slidingWindow.put]
  refine ⟨by rw [hvalid]; rfl, ?_, ?_, ?_, ?_⟩
  · simp [slidingWindow.ReserveN, hvalid, hmax, sumCounts]
  · rw [hres]; exact sw_put_same _ _ _
  · rw [hres, hvalid2]; rfl
  · rw [hres]
    simp [slidingWindow.AllowN, hvalid2, hmax2, hcur, sumCounts]

end ratelimit

/-! ## Claims on the script of the distributed limiter -/

namespace ratelimit

open tokenBucket slidingWindow

/-- C21.  The script as a function of the stored hash and its arguments: for every
rate and every burst of at least one, when the hash of the key holds exactly one token
at the timestamp `now`, two executions that request one token with that timestamp (two
calls that may differ in the time to live only), run one after the other in either
order, yield the decision 1 first and the decision 0 second: exactly one is allowed.
The first execution stores zero tokens at `now`, the second stores nothing. -/
theorem C21_one_token_two_requests (stored : Hash) (c1 c2 : EvalCall) (now : Int)
    (hlast : stored.last = some (now : ℚ)) (htokens : stored.tokens = some 1)
    (h1now : c1.now = now) (h2now : c2.now = now)
    (h1req : c1.requested = 1) (h2req : c2.requested = 1)
    (h1burst : 1 ≤ c1.burst) (h2burst : 1 ≤ c2.burst) :
    (luaScript stored c1).1.allowed = 1 ∧
      (luaScript (luaScript stored c1).2 c2).1.allowed = 0 ∧
      (luaScript stored c2).1.allowed = 1 ∧
      (luaScript (luaScript stored c2).2 c1).1.allowed = 0 ∧
      (luaScript stored c1).2 =
        { last := some (now : ℚ), tokens := some 0, ttl := some c1.ttl } ∧
      (luaScript (luaScript stored c1).2 c2).2 = (luaScript stored c1).2 := by
  have hb1 : (1 : ℚ) ≤ (c1.burst : ℚ) := by exact_mod_cast h1burst
  have hb2 : (1 : ℚ) ≤ (c2.burst : ℚ) := by exact_mod_cast h2burst
  have first : ∀ c : EvalCall, c.now = now → c.requested = 1 → (1 : ℚ) ≤ (c.burst : ℚ) →
      luaScript stored c =
        ({ allowed := 1, wait := 0 },
          { last := some (now : ℚ), tokens := some 0, ttl := some c.ttl }) := by
    intro c hn hr hb
    simp [luaScript, hlast, htokens, hn, hr, min_eq_right hb]
  have second : ∀ (c : EvalCall) (ttl : Int), c.now = now → c.requested = 1 →
      (1 : ℚ) ≤ (c.burst : ℚ) →
      luaScript { last := some (now : ℚ), tokens := some 0, ttl := some ttl } c =
        ({ allowed := 0, wait := (1 - 0) / c.rate },
          { last := some (now : ℚ), tokens := some 0, ttl := some ttl }) := by
    intro c ttl hn hr hb
    have hmin : min (c.burst : ℚ) 0 = 0 := min_eq_right (by linarith)
    simp [luaScript, hn, hr, hmin]
  rw [first c1 h1now h1req hb1, first c2 h2now h2req hb2]
  refine ⟨rfl, ?_, rfl, ?_, rfl, ?_⟩
  · rw [second c2 c1.ttl h2now h2req hb2]
  · rw [second c1 c2.ttl h1now h1req hb1]
  · rw [second c2 c1.ttl h2now h2req hb2]

theorem C21_one_token_two_requests_witness :
    (luaScript { last := some 7, tokens := some 1 }
        { key := "k", now := 7, requested := 1, rate := 10, burst := 3, ttl := 3600 }).1.allowed
        = 1 ∧
      (luaScript
        (luaScript { last := some 7, tokens := some 1 }
          { key := "k", now := 7, requested := 1, rate := 10, burst := 3, ttl := 3600 }).2
        { key := "k", now := 7, requested := 1, rate := 10, burst := 3, ttl := 60 }).1.allowed
        = 0 :=
  ⟨(C21_one_token_two_requests { last := some 7, tokens := some 1 }
      { key := "k", now := 7, requested := 1, rate := 10, burst := 3, ttl := 3600 }
      { key := "k", now := 7, requested := 1, rate := 10, burst := 3, ttl := 60 } 7
      (by norm_num) rfl rfl rfl rfl rfl (by decide) (by decide)).1,
    (C21_one_token_two_requests { last := some 7, tokens := some 1 }
      { key := "k", now := 7, requested := 1, rate := 10, burst := 3, ttl := 3600 }
      { key := "k", now := 7, requested := 1, rate := 10, burst := 3, ttl := 60 } 7
      (by norm_num) rfl rfl rfl rfl rfl (by decide) (by decide)).2.1⟩

end ratelimit

/-! ## Claims on waiting, reservations and keys -/

namespace ratelimit

open tokenBucket slidingWindow

/-- The delay that `WaitN` computes from a reservation of the token bucket is
`DelayFrom - now`, which is zero: `WaitN` of the token bucket returns a nil error for
every context, key, cost and instant, without reaching the `select`. -/
theorem tokenBucket_WaitN_nil (l : tokenBucket) (ctx : Context) (key : String) (n now : Int) :
    (l.WaitN ctx key n now).2 = none := by
  by_cases h : (l.AllowN key n now).ok = true
  · simp [tokenBucket.WaitN, h]
  · simp [tokenBucket.WaitN, h, waitReserved, tokenBucket.ReserveN]

/-- The same for the sliding window, when `AllowN` does not panic. -/
theorem slidingWindow_WaitN_nil (l : slidingWindow) (ctx : Context) (key : String)
    (n now : Int) (r : slidingWindow × Option Error) (h : l.WaitN ctx key n now = some r) :
    r.2 = none := by
  cases hd : l.AllowN key n now with
  | none => simp [slidingWindow.WaitN, hd] at h
  | some d =>
    by_cases hok : d.ok = true
    · simp [slidingWindow.WaitN, hd, hok] at h
      rw [← h]
    · simp [slidingWindow.WaitN, hd, hok] at h
      rw [← h]
      simp [waitReserved, slidingWindow.ReserveN]

/-- C23 (the code departs from it).  On a token bucket limiter with rate ten and burst
one hundred, `WaitN(ctx, "test-key", 1000, 0)` with a context that is done one second
later: `AllowN` rejects the request, the reservation becomes effective ninety seconds
later, and `WaitN` returns a nil error, where the claim asks for the error of the
context. -/
theorem C23_waitN_reports_success :
    ((NewTokenBucket [WithRate 10, WithBurst 100]).AllowN "test-key" 1000 0).ok = false ∧
      (((NewTokenBucket [WithRate 10, WithBurst 100]).AllowN "test-key" 1000 0).l.ReserveN
        "test-key" 1000 0).r =
        some { OK := true, Limit := 100, Tokens := 100, TimeToAct := 90 * Second,
               DelayFrom := 0 } ∧
      ((NewTokenBucket [WithRate 10, WithBurst 100]).WaitN { doneAt := some Second }
        "test-key" 1000 0).2 = none := by
  refine ⟨?_, ?_, tokenBucket_WaitN_nil _ _ _ _ _⟩
  · norm_num [NewTokenBucket, WithRate, WithBurst, tokenBucket.AllowN, tokenBucket.getOrCreate,
      bucket.refill, Seconds]
  · norm_num [NewTokenBucket, WithRate, WithBurst, tokenBucket.AllowN, tokenBucket.ReserveN,
      tokenBucket.getOrCreate, tokenBucket.put, bucket.refill, Seconds, Second, toInt64]

/-- C24 (the code departs from it).  On a fresh token bucket limiter with rate four and
burst one, the reservation that `ReserveN("k", 2, 0)` returns becomes effective a quarter
of a second after it was requested, and its `Delay()` is minus a quarter of a second: the
method computes `DelayFrom - TimeToAct`, where the claim asks for
`TimeToAct - DelayFrom`, which is not negative. -/
theorem C24_delay_is_negated :
    ((NewTokenBucket [WithRate 4]).ReserveN "k" 2 0).r =
        some { OK := true, Limit := 1, Tokens := 1, TimeToAct := 250000000, DelayFrom := 0 } ∧
      Reservation.Delay
        { OK := true, Limit := 1, Tokens := 1, TimeToAct := 250000000, DelayFrom := 0 } =
        -250000000 ∧
      (∀ r : Reservation, r.Delay = -(r.TimeToAct - r.DelayFrom)) := by
  refine ⟨?_, by decide, ?_⟩
  · norm_num [NewTokenBucket, WithRate, tokenBucket.ReserveN, tokenBucket.getOrCreate,
      bucket.refill, Seconds, toInt64]
  · intro r
    unfold Reservation.Delay
    ring

theorem sw_validWindows_congr (w1 w2 : slidingWindow) (key : String) (t : Int)
    (h : slidingWindow.agreeOn key w1 w2) : w1.validWindows key t = w2.validWindows key t := by
  obtain ⟨_, hw, _, hk⟩ := h
  simp [slidingWindow.validWindows, slidingWindow.expireTime, hw, hk]

/-- C25.  The quota is partitioned by key.  For two distinct keys `k` and `k2`: a call
of `AllowN` or `ReserveN` on `k`, of the token bucket or of the sliding window, leaves a
limiter with the same settings and the same bucket, or the same entries, for `k2`; and
two limiters with the same settings and the same bucket or entries for `k2` give the
same result to a call of `AllowN` or `ReserveN` on `k2` and are again such limiters
afterwards.  So every later call on `k2` returns what it would have returned without the
call on `k`. -/
theorem C25_keys_are_independent (k k2 : String) (hk : k2 ≠ k) :
    (∀ (l : tokenBucket) (n now : Int),
        tokenBucket.agreeOn k2 (l.AllowN k n now).l l ∧
        tokenBucket.agreeOn k2 (l.ReserveN k n now).l l) ∧
      (∀ (w : slidingWindow) (n now : Int),
        (∀ d, w.AllowN k n now = some d → slidingWindow.agreeOn k2 d.l w) ∧
        slidingWindow.agreeOn k2 (w.ReserveN k n now).l w) ∧
      (∀ (l1 l2 : tokenBucket) (m t : Int), tokenBucket.agreeOn k2 l1 l2 →
        (l1.AllowN k2 m t).ok = (l2.AllowN k2 m t).ok ∧
        (l1.AllowN k2 m t).err = (l2.AllowN k2 m t).err ∧
        tokenBucket.agreeOn k2 (l1.AllowN k2 m t).l (l2.AllowN k2 m t).l ∧
        (l1.ReserveN k2 m t).r = (l2.ReserveN k2 m t).r ∧
        (l1.ReserveN k2 m t).err = (l2.ReserveN k2 m t).err ∧
        tokenBucket.agreeOn k2 (l1.ReserveN k2 m t).l (l2.ReserveN k2 m t).l) ∧
      (∀ (w1 w2 : slidingWindow) (m t : Int), slidingWindow.agreeOn k2 w1 w2 →
        (w1.AllowN k2 m t).map (fun d => (d.ok, d.err)) =
          (w2.AllowN k2 m t).map (fun d => (d.ok, d.err)) ∧
        (∀ d1 d2, w1.AllowN k2 m t = some d1 → w2.AllowN k2 m t = some d2 →
          slidingWindow.agreeOn k2 d1.l d2.l) ∧
        (w1.ReserveN k2 m t).r = (w2.ReserveN k2 m t).r ∧
        (w1.ReserveN k2 m t).err = (w2.ReserveN k2 m t).err ∧
        slidingWindow.agreeOn k2 (w1.ReserveN k2 m t).l (w2.ReserveN k2 m t).l) := by
  refine ⟨?_, ?_, ?_, ?_⟩
  · intro l n now
    constructor
    · by_cases hn : n ≤ 0
      · rw [tb_AllowN_nonpos l k n now hn]
        exact ⟨rfl, rfl, rfl⟩
      · by_cases hlt : ((l.getOrCreate k now).refill now).tokens < (n : ℚ)
        · rw [AllowN_of_lt l k n now (by omega) hlt]
          exact ⟨rfl, rfl, put_other _ _ _ _ hk⟩
        · rw [AllowN_of_le l k n now (by omega) (not_lt.mp hlt)]
          exact ⟨rfl, rfl, put_other _ _ _ _ hk⟩
    · exact ⟨rfl, rfl, put_other _ _ _ _ hk⟩
  · intro w n now
    constructor
    · intro d hd
      by_cases hn : n ≤ 0
      · rw [sw_AllowN_nonpos w k n now hn] at hd
        cases hd
        exact ⟨rfl, rfl, rfl, rfl⟩
      · by_cases hover : sumCounts (w.validWindows k now) + n > w.maxRequests
        · rw [sw_AllowN_over w k n now (by omega) hover] at hd
          cases hd
          exact ⟨rfl, rfl, rfl, sw_put_other _ _ _ _ hk⟩
        · cases hc : w.currentTimestamp now with
          | none =>
            rw [sw_AllowN_panic w k n now (by omega) hover hc] at hd
            cases hd
          | some cur =>
            rw [sw_AllowN_fit w k n now cur (by omega) hover hc] at hd
            cases hd
            exact ⟨rfl, rfl, rfl, sw_put_other _ _ _ _ hk⟩
    · exact ⟨rfl, rfl, rfl, sw_put_other _ _ _ _ hk⟩
  · intro l1 l2 m t h
    obtain ⟨hr, hb, hbk⟩ := h
    have hg : l1.getOrCreate k2 t = l2.getOrCreate k2 t := by
      simp [tokenBucket.getOrCreate, hr, hb, hbk]
    have hA : (l1.AllowN k2 m t).ok = (l2.AllowN k2 m t).ok ∧
        (l1.AllowN k2 m t).err = (l2.AllowN k2 m t).err ∧
        tokenBucket.agreeOn k2 (l1.AllowN k2 m t).l (l2.AllowN k2 m t).l := by
      by_cases hm : m ≤ 0
      · rw [tb_AllowN_nonpos l1 k2 m t hm, tb_AllowN_nonpos l2 k2 m t hm]
        exact ⟨rfl, rfl, hr, hb, hbk⟩
      · by_cases hlt : ((l2.getOrCreate k2 t).refill t).tokens < (m : ℚ)
        · rw [AllowN_of_lt l1 k2 m t (by omega) (by rw [hg]; exact hlt),
            AllowN_of_lt l2 k2 m t (by omega) hlt, hg]
          exact ⟨rfl, rfl, hr, hb, by rw [put_same, put_same]⟩
        · rw [AllowN_of_le l1 k2 m t (by omega) (by rw [hg]; exact not_lt.mp hlt),
            AllowN_of_le l2 k2 m t (by omega) (not_lt.mp hlt), hg]
          exact ⟨rfl, rfl, hr, hb, by rw [put_same, put_same]⟩
    refine ⟨hA.1, hA.2.1, hA.2.2, ?_, rfl, ?_⟩
    · simp [tokenBucket.ReserveN, hg, hb]
    · refine ⟨hr, hb, ?_⟩
      simp [tokenBucket.ReserveN, hg, put_same]
  · intro w1 w2 m t h
    have hv := sw_validWindows_congr w1 w2 k2 t h
    obtain ⟨hr, hw, hp, hwk⟩ := h
    have hmax : w1.maxRequests = w2.maxRequests := by
      simp [slidingWindow.maxRequests, hr, hw]
    have hcur : w1.currentTimestamp t = w2.currentTimestamp t := by
      simp [slidingWindow.currentTimestamp, slidingWindow.precisionSeconds, hp]
    have hA : (w1.AllowN k2 m t).map (fun d => (d.ok, d.err)) =
          (w2.AllowN k2 m t).map (fun d => (d.ok, d.err)) ∧
        (∀ d1 d2, w1.AllowN k2 m t = some d1 → w2.AllowN k2 m t = some d2 →
          slidingWindow.agreeOn k2 d1.l d2.l) := by
      by_cases hm : m ≤ 0
      · rw [sw_AllowN_nonpos w1 k2 m t hm, sw_AllowN_nonpos w2 k2 m t hm]
        refine ⟨rfl, ?_⟩
        intro d1 d2 h1 h2
        cases h1; cases h2
        exact ⟨hr, hw, hp, hwk⟩
      · by_cases hover : sumCounts (w2.validWindows k2 t) + m > w2.maxRequests
        · rw [sw_AllowN_over w1 k2 m t (by omega) (by rw [hv, hmax]; exact hover),
            sw_AllowN_over w2 k2 m t (by omega) hover, hv]
          refine ⟨rfl, ?_⟩
          intro d1 d2 h1 h2
          cases h1; cases h2
          exact ⟨hr, hw, hp, by rw [sw_put_same, sw_put_same]⟩
        · cases hc : w2.currentTimestamp t with
          | none =>
            rw [sw_AllowN_panic w1 k2 m t (by omega) (by rw [hv, hmax]; exact hover)
              (by rw [hcur]; exact hc), sw_AllowN_panic w2 k2 m t (by omega) hover hc]
            refine ⟨rfl, ?_⟩
            intro d1 d2 h1
            cases h1
          | some cur =>
            rw [sw_AllowN_fit w1 k2 m t cur (by omega) (by rw [hv, hmax]; exact hover)
              (by rw [hcur]; exact hc), sw_AllowN_fit w2 k2 m t cur (by omega) hover hc, hv]
            refine ⟨rfl, ?_⟩
            intro d1 d2 h1 h2
            cases h1; cases h2
            exact ⟨hr, hw, hp, by rw [sw_put_same, sw_put_same]⟩
    refine ⟨hA.1, hA.2, ?_, rfl, ?_⟩
    · simp [slidingWindow.ReserveN, hv, hmax, hr]
    · refine ⟨hr, hw, hp, ?_⟩
      simp [slidingWindow.ReserveN, hv, sw_put_same]

theorem C25_keys_are_independent_witness :
    tokenBucket.agreeOn "b" (tokenBucketExample.AllowN "a" 1 0).l tokenBucketExample ∧
      ((tokenBucketExample.AllowN "a" 1 0).l.AllowN "b" 1 0).ok =
        (tokenBucketExample.AllowN "b" 1 0).ok :=
  ⟨((C25_keys_are_independent "a" "b" (by decide)).1 tokenBucketExample 1 0).1,
    ((C25_keys_are_independent "a" "b" (by decide)).2.2.1 _ _ 1 0
      ((C25_keys_are_independent "a" "b" (by decide)).1 tokenBucketExample 1 0).1).1⟩

/-- C30 (the code departs from it).  The limiter that `NewSlidingWindow()` builds has
rate one, a window of one second and the default precision of one hundred milliseconds,
all above zero; its `precisionSeconds` is zero, and `AllowN("k", 1, 0)` panics on the
remainder by zero.  The same holds for the limiter with rate ten, a window of one
second and a precision of one hundred milliseconds. -/
theorem C30_subsecond_precision_panics :
    0 < (NewSlidingWindow []).rate ∧ 0 < (NewSlidingWindow []).window ∧
      0 < (NewSlidingWindow []).precision ∧
      (NewSlidingWindow []).precision = 100 * Millisecond ∧
      (NewSlidingWindow []).precisionSeconds = 0 ∧
      (NewSlidingWindow []).AllowN "k" 1 0 = none ∧
      (NewSlidingWindow [WithRate 10, WithWindow Second,
        WithPrecision (Millisecond * 100)]).AllowN "test-key" 1 0 = none := by
  have hp : toInt64 (Seconds (Millisecond * 100)) = 0 := by
    norm_num [toInt64, Seconds, Millisecond]
  have h1 : toInt64 (Seconds Second) = 1 := by
    norm_num [toInt64, Seconds_Second]
  have h10 : toInt64 (10 * Seconds Second) = 10 := by
    norm_num [toInt64, Seconds_Second]
  refine ⟨by norm_num [NewSlidingWindow], by decide, by decide, by decide, ?_, ?_, ?_⟩
  · simpa [NewSlidingWindow, slidingWindow.precisionSeconds] using hp
  · simp [NewSlidingWindow, slidingWindow.AllowN, slidingWindow.validWindows, sumCounts,
      slidingWindow.maxRequests, slidingWindow.currentTimestamp,
      slidingWindow.precisionSeconds, hp, h1]
  · simp [NewSlidingWindow, WithRate, WithWindow, WithPrecision, slidingWindow.AllowN,
      slidingWindow.validWindows, sumCounts, slidingWindow.maxRequests,
      slidingWindow.currentTimestamp, slidingWindow.precisionSeconds, hp, h10]

end ratelimit

/-! ## Claim on the recovery middleware -/

namespace middleware

/-- The handler that `Recovery()` returns never panics. -/
theorem Recovery_returns {α ρ : Type} (next : Handler α ρ) (req : α) :
    ∃ resp err, Recovery next req = Outcome.returned resp err := by
  unfold Recovery
  cases next req with
  | returned resp err => exact ⟨resp, err, rfl⟩
  | panicked r => exact ⟨none, recoverError r, rfl⟩

/-- C27 (the code departs from it).  When the wrapped handler panics with the string
`"boom"`, a value that is not an error, the handler that `Recovery()` returns does not
panic and returns a nil response and a nil error, where the claim asks for a non-nil
error; when it panics with an error value, that error is returned. -/
theorem C27_recovery_swallows_string_panic :
    Recovery (fun _ : Unit => (Outcome.panicked (PanicValue.other "boom") : Outcome Nat)) () =
        Outcome.returned none none ∧
      Recovery (fun _ : Unit => (Outcome.panicked (PanicValue.error "bad") : Outcome Nat)) () =
        Outcome.returned none (some "bad") :=
  ⟨rfl, rfl⟩

end middleware

/-! ## Claim on the Open state -/

namespace circuitbreaker

open circuit

theorem setState_interval (c : circuit) (s : State) (now : Int) :
    (c.setState s now).interval = c.interval := by
  unfold setState
  split <;> rfl

theorem Allow_interval (c : circuit) (now : Int) : (c.Allow now).c.interval = c.interval := by
  cases hst : c.state <;> by_cases hexp : c.generation.ExpiredAt < now
  · simp [Allow, hst, hexp, addRequest, toNewGeneration]
  · simp [Allow, hst, hexp, addRequest]
  · by_cases hz : c.maxRequests = 0
    · simp [Allow, hst, hexp, hz, toNewGeneration]
    · simp [Allow, hst, hexp, hz, addRequest, toNewGeneration]
  · by_cases hge : c.maxRequests ≤ c.counts.Requests
    · simp [Allow, hst, hexp, hge]
    · simp [Allow, hst, hexp, hge, addRequest]
  · by_cases hneg : c.interval < 0
    · simp [Allow, hst, hexp, hneg, addRequest, setState_interval, toNewGeneration]
    · simp [Allow, hst, hexp, hneg, toNewGeneration]
  · simp [Allow, hst, hexp]

theorem Success_interval (c : circuit) (now : Int) : (c.Success now).interval = c.interval := by
  simp only [Success]
  split
  · rw [setState_interval]
  · rfl

theorem Failure_interval (c : circuit) (now : Int) : (c.Failure now).interval = c.interval := by
  simp only [Failure]
  split
  · rw [setState_interval]
  · rfl

theorem Success_state_of_ne_halfOpen (c : circuit) (now : Int)
    (hs : c.state ≠ State.StateHalfOpen) : (c.Success now).state = c.state := by
  simp [Success, hs]

theorem Allow_state_closed (c : circuit) (now : Int) (hs : c.state = State.StateClosed) :
    (c.Allow now).c.state = State.StateClosed := by
  by_cases hexp : c.generation.ExpiredAt < now <;>
    simp [Allow, hs, hexp, addRequest, toNewGeneration]

/-- With a non-negative interval, a breaker that is not HalfOpen is not HalfOpen after
any call. -/
theorem run_not_halfOpen (calls : List Call) (c : circuit) (hi : 0 ≤ c.interval)
    (hs : c.state ≠ State.StateHalfOpen) :
    (c.run calls).1.state ≠ State.StateHalfOpen := by
  induction calls generalizing c with
  | nil => exact hs
  | cons call rest ih =>
    cases call with
    | Allow now =>
      apply ih (c.Allow now).c (by rw [Allow_interval]; exact hi)
      cases hst : c.state with
      | StateClosed => rw [Allow_state_closed c now hst]; decide
      | StateHalfOpen => exact absurd hst hs
      | StateOpen => rw [(Allow_open_of_interval_nonneg c now hst hi).2.2]; decide
    | Success now =>
      apply ih (c.Success now) (by rw [Success_interval]; exact hi)
      rw [Success_state_of_ne_halfOpen c now hs]
      exact hs
    | Failure now =>
      apply ih (c.Failure now) (by rw [Failure_interval]; exact hi)
      simp only [Failure]
      split
      · rw [setState_state]; decide
      · exact hs

/-- With a non-negative interval, an Open breaker stays Open through any run of calls
and each `Allow()` of the run returns `ErrCircuitOpen`. -/
theorem run_open (calls : List Call) (c : circuit) (hi : 0 ≤ c.interval)
    (hs : c.state = State.StateOpen) :
    (c.run calls).1.state = State.StateOpen ∧
      ∀ e ∈ (c.run calls).2, e = some Error.ErrCircuitOpen := by
  induction calls generalizing c with
  | nil => exact ⟨hs, by simp [circuit.run]⟩
  | cons call rest ih =>
    cases call with
    | Allow now =>
      obtain ⟨herr, _, hst⟩ := Allow_open_of_interval_nonneg c now hs hi
      obtain ⟨h1, h2⟩ := ih (c.Allow now).c (by rw [Allow_interval]; exact hi) hst
      refine ⟨h1, ?_⟩
      intro e he
      simp only [circuit.run, List.mem_cons] at he
      rcases he with he | he
      · rw [he, herr]
      · exact h2 e he
    | Success now =>
      exact ih (c.Success now) (by rw [Success_interval]; exact hi)
        (by rw [Success_state_of_ne_halfOpen c now (by rw [hs]; decide)]; exact hs)
    | Failure now =>
      exact ih (c.Failure now) (by rw [Failure_interval]; exact hi)
        (Failure_state_open c now hs)

theorem Allow_maxRequests (c : circuit) (now : Int) :
    (c.Allow now).c.maxRequests = c.maxRequests := by
  cases hst : c.state <;> by_cases hexp : c.generation.ExpiredAt < now
  · simp [Allow, hst, hexp, addRequest, toNewGeneration]
  · simp [Allow, hst, hexp, addRequest]
  · by_cases hz : c.maxRequests = 0
    · simp [Allow, hst, hexp, hz, toNewGeneration]
    · simp [Allow, hst, hexp, hz, addRequest, toNewGeneration]
  · by_cases hge : c.maxRequests ≤ c.counts.Requests
    · simp [Allow, hst, hexp, hge]
    · simp [Allow, hst, hexp, hge, addRequest]
  · by_cases hneg : c.interval < 0
    · simp [Allow, hst, hexp, hneg, addRequest, setState, toNewGeneration]
    · simp [Allow, hst, hexp, hneg, toNewGeneration]
  · simp [Allow, hst, hexp]

theorem Failure_maxRequests (c : circuit) (now : Int) :
    (c.Failure now).maxRequests = c.maxRequests := by
  simp only [Failure, setState]
  split
  · split <;> rfl
  · rfl

/-- A breaker enters HalfOpen only through `Allow` on an Open breaker with a negative
interval, and the generation of the HalfOpen breaker expires at `now + interval`, before
it began.  So a HalfOpen breaker that the methods produce has an expired generation: the
invariant is that a HalfOpen breaker has a negative interval and a generation that
expired before the instant `t` of the last call.  `Allow` keeps it, with `t = now`, and
does not return `ErrTooManyRequests` when `maxRequests` is at least one. -/
theorem Allow_keeps_expired (c : circuit) (now t : Int) (hm : 1 ≤ c.maxRequests)
    (hinv : c.state = State.StateHalfOpen → c.interval < 0 ∧ c.generation.ExpiredAt < t)
    (ht : t ≤ now) :
    (c.Allow now).err ≠ some Error.ErrTooManyRequests ∧
      ((c.Allow now).c.state = State.StateHalfOpen →
        (c.Allow now).c.interval < 0 ∧ (c.Allow now).c.generation.ExpiredAt < now) := by
  cases hst : c.state with
  | StateClosed =>
    refine ⟨by simp [Allow, hst], ?_⟩
    intro h
    rw [Allow_state_closed c now hst] at h
    cases h
  | StateHalfOpen =>
    obtain ⟨hi, hexp⟩ := hinv hst
    obtain ⟨he, _, _, hgen, hint, _⟩ := Allow_halfOpen_expired c now hst (by omega) hm
    refine ⟨by rw [he]; simp, fun _ => ?_⟩
    rw [hint, hgen]
    exact ⟨hi, by omega⟩
  | StateOpen =>
    by_cases hi : 0 ≤ c.interval
    · obtain ⟨he, _, hs2⟩ := Allow_open_of_interval_nonneg c now hst hi
      refine ⟨by rw [he]; simp, ?_⟩
      intro h
      rw [hs2] at h
      cases h
    · have hneg : c.interval < 0 := by omega
      by_cases hexp : c.generation.ExpiredAt < now
      · simp [Allow, hst, hexp, toNewGeneration, hneg, setState, addRequest]
      · simp [Allow, hst, hexp]

theorem Success_keeps_expired (c : circuit) (now t : Int)
    (hinv : c.state = State.StateHalfOpen → c.interval < 0 ∧ c.generation.ExpiredAt < t) :
    (c.Success now).state = State.StateHalfOpen →
      (c.Success now).interval < 0 ∧ (c.Success now).generation.ExpiredAt < t := by
  intro h
  by_cases hs : c.state = State.StateHalfOpen
  · obtain ⟨hi, hexp⟩ := hinv hs
    rw [Success_interval]
    refine ⟨hi, ?_⟩
    simp only [Success] at h ⊢
    split at h
    · rw [setState_state] at h
      cases h
    · rename_i hcond
      rw [if_neg hcond]
      exact hexp
  · rw [Success_state_of_ne_halfOpen c now hs] at h
    exact absurd h hs

theorem Failure_keeps_expired (c : circuit) (now t : Int)
    (hinv : c.state = State.StateHalfOpen → c.interval < 0 ∧ c.generation.ExpiredAt < t) :
    (c.Failure now).state = State.StateHalfOpen →
      (c.Failure now).interval < 0 ∧ (c.Failure now).generation.ExpiredAt < t := by
  intro h
  rw [Failure_interval]
  simp only [Failure] at h ⊢
  split at h
  · rw [setState_state] at h
    cases h
  · rename_i hcond
    rw [if_neg hcond]
    exact hinv h

/-- The limit of the half-open state is never applied: from a breaker that is not
HalfOpen, or is HalfOpen with a negative interval and an expired generation, with
`maxRequests` at least one, no `Allow()` of a run of calls at non-decreasing instants
returns `ErrTooManyRequests`. -/
theorem run_never_tooManyRequests (calls : List Call) :
    ∀ (c : circuit) (t : Int), 1 ≤ c.maxRequests →
      (c.state = State.StateHalfOpen → c.interval < 0 ∧ c.generation.ExpiredAt < t) →
      (∀ call ∈ calls, t ≤ call.instant) →
      (calls.map Call.instant).Pairwise (fun x y => x ≤ y) →
      ∀ e ∈ (c.run calls).2, e ≠ some Error.ErrTooManyRequests := by
  induction calls with
  | nil =>
    intro c t _ _ _ _ e he
    simp [circuit.run] at he
  | cons call rest ih =>
    intro c t hm hinv hge hsorted
    simp only [List.map_cons, List.pairwise_cons] at hsorted
    have hrest : ∀ x ∈ rest, call.instant ≤ x.instant :=
      fun x hx => hsorted.1 x.instant (List.mem_map_of_mem Call.instant hx)
    have ht : t ≤ call.instant := hge call (List.mem_cons_self _ _)
    cases call with
    | Allow now =>
      obtain ⟨herr, hinv2⟩ := Allow_keeps_expired c now t hm hinv ht
      intro e he
      simp only [circuit.run, List.mem_cons] at he
      rcases he with he | he
      · rw [he]
        exact herr
      · exact ih (c.Allow now).c now (by rw [Allow_maxRequests]; exact hm) hinv2 hrest
          hsorted.2 e he
    | Success now =>
      exact ih (c.Success now) t (by rw [Success_maxRequests]; exact hm)
        (Success_keeps_expired c now t hinv)
        (fun x hx => hge x (List.mem_cons_of_mem _ hx)) hsorted.2
    | Failure now =>
      exact ih (c.Failure now) t (by rw [Failure_maxRequests]; exact hm)
        (Failure_keeps_expired c now t hinv)
        (fun x hx => hge x (List.mem_cons_of_mem _ hx)) hsorted.2

/-- A breaker created by `NewBreaker` with `maxRequests` at least one (the default is
one) never returns `ErrTooManyRequests` from `Allow()`, in any run of calls at
non-decreasing instants. -/
theorem newBreaker_never_tooManyRequests (name : String) (opts : List Option_) (t0 : Int)
    (calls : List Call) (hm : 1 ≤ (NewBreaker name opts t0).maxRequests)
    (hsorted : (calls.map Call.instant).Pairwise (fun x y => x ≤ y)) :
    ∀ e ∈ ((NewBreaker name opts t0).run calls).2, e ≠ some Error.ErrTooManyRequests := by
  cases calls with
  | nil =>
    intro e he
    simp [circuit.run] at he
  | cons call rest =>
    apply run_never_tooManyRequests (call :: rest) _ call.instant hm
    · intro h
      simp [NewBreaker] at h
    · intro x hx
      rcases List.mem_cons.mp hx with rfl | hx
      · exact le_refl _
      · simp only [List.map_cons, List.pairwise_cons] at hsorted
        exact hsorted.1 x.instant (List.mem_map_of_mem Call.instant hx)
    · exact hsorted

/-- C29.  For a breaker with a non-negative interval and any trip predicate, Open is
absorbing: from an Open breaker, after any run of `Allow()`, `Success()` and `Failure()`
calls at any instants the state is Open and every `Allow()` of the run has returned
`ErrCircuitOpen`; and a breaker created by `NewBreaker` with a non-negative interval is
never HalfOpen, after any run of calls. -/
theorem C29_open_is_absorbing :
    (∀ (c : circuit) (calls : List Call), 0 ≤ c.interval → c.State = State.StateOpen →
        (c.run calls).1.State = State.StateOpen ∧
        ∀ e ∈ (c.run calls).2, e = some Error.ErrCircuitOpen) ∧
      (∀ (name : String) (opts : List Option_) (t0 : Int) (calls : List Call),
        0 ≤ (NewBreaker name opts t0).interval →
        ((NewBreaker name opts t0).run calls).1.State ≠ State.StateHalfOpen) := by
  constructor
  · intro c calls hi hs
    exact run_open calls c hi hs
  · intro name opts t0 calls hi
    exact run_not_halfOpen calls _ hi (by simp [NewBreaker])

theorem C29_open_is_absorbing_witness :
    (openExample.run [Call.Allow (100 * Second), Call.Success (200 * Second),
        Call.Allow (300 * Second), Call.Failure (400 * Second)]).1.State = State.StateOpen ∧
      ((NewBreaker "example" [] 0).run [Call.Failure 1, Call.Allow (100 * Second)]).1.State ≠
        State.StateHalfOpen :=
  ⟨(C29_open_is_absorbing.1 openExample _ (by decide) (by decide)).1,
    C29_open_is_absorbing.2 "example" [] 0 _ (by decide)⟩

end circuitbreaker

/-! ## Claim on the rate bound of the token bucket -/

namespace ratelimit

open tokenBucket slidingWindow

theorem Seconds_add (a b : Int) : Seconds (a + b) = Seconds a + Seconds b := by
  unfold Seconds
  push_cast
  ring

theorem Seconds_nonneg {a : Int} (h : 0 ≤ a) : 0 ≤ Seconds a := by
  unfold Seconds
  have : (0 : ℚ) ≤ (a : ℚ) := by exact_mod_cast h
  positivity

theorem Seconds_mono {a b : Int} (h : a ≤ b) : Seconds a ≤ Seconds b := by
  unfold Seconds
  have : (a : ℚ) ≤ (b : ℚ) := by exact_mod_cast h
  exact div_le_div_of_nonneg_right this (by norm_num)

/-- No call of a run was made up to `t`: nothing was admitted up to `t`. -/
theorem admittedUpTo_of_later (t : Int) (calls : List (Int × Int)) (oks : List Bool)
    (h : ∀ c ∈ calls, t < c.2) : admittedUpTo t calls oks = 0 := by
  induction calls generalizing oks with
  | nil => simp [admittedUpTo]
  | cons c rest ih =>
    cases oks with
    | nil => simp [admittedUpTo]
    | cons ok oks =>
      obtain ⟨n, now⟩ := c
      have hnow : t < now := h (n, now) (List.mem_cons_self _ _)
      have hnot : ¬ now ≤ t := by omega
      simp [admittedUpTo, hnot, ih oks (fun c hc => h c (List.mem_cons_of_mem _ hc))]

theorem tb_allowRun_cons (l : tokenBucket) (key : String) (n now : Int)
    (rest : List (Int × Int)) :
    (l.allowRun key ((n, now) :: rest)).2 =
      (l.AllowN key n now).ok :: ((l.AllowN key n now).l.allowRun key rest).2 := rfl

/-- The bound of a run on a key that has a bucket: what is admitted up to `t` is at
most the level of the bucket plus what the rate adds from its last refill to `t`. -/
theorem tb_bound_present (key : String) (t : Int) (calls : List (Int × Int)) :
    ∀ (l : tokenBucket) (b : bucket), l.buckets key = some b → 0 ≤ b.rate → 0 ≤ b.burst →
      0 ≤ b.tokens → b.last ≤ t → (∀ c ∈ calls, b.last ≤ c.2) →
      (calls.map Prod.snd).Pairwise (fun x y => x ≤ y) →
      ((admittedUpTo t calls (l.allowRun key calls).2 : Int) : ℚ) ≤
        b.tokens + b.rate * Seconds (t - b.last) := by
  induction calls with
  | nil =>
    intro l b _ hrate _ htok hlast _ _
    have := Seconds_nonneg (show 0 ≤ t - b.last by omega)
    simp only [admittedUpTo, Int.cast_zero]
    positivity
  | cons c rest ih =>
    intro l b hb hrate hburst htok hlast hge hsorted
    obtain ⟨n, now⟩ := c
    have hLnow : b.last ≤ now := hge (n, now) (List.mem_cons_self _ _)
    simp only [List.map_cons, List.pairwise_cons] at hsorted
    obtain ⟨hnowle, hrestsorted⟩ := hsorted
    have hrestge : ∀ c ∈ rest, now ≤ c.2 := by
      intro c hc
      exact hnowle c.2 (List.mem_map_of_mem Prod.snd hc)
    have hbound0 : (0 : ℚ) ≤ b.tokens + b.rate * Seconds (t - b.last) := by
      have := Seconds_nonneg (show 0 ≤ t - b.last by omega)
      positivity
    by_cases hnowt : now ≤ t
    · have hg : l.getOrCreate key now = b := getOrCreate_of_some l key now b hb
      have hsec := Seconds_nonneg (show 0 ≤ now - b.last by omega)
      have hr0 : 0 ≤ ((l.getOrCreate key now).refill now).tokens := by
        rw [hg, refill_tokens]
        exact le_min hburst (by positivity)
      have hrle : ((l.getOrCreate key now).refill now).tokens ≤
          b.tokens + Seconds (now - b.last) * b.rate := by
        rw [hg, refill_tokens]
        exact min_le_right _ _
      have hsplit : Seconds (t - b.last) = Seconds (t - now) + Seconds (now - b.last) := by
        rw [← Seconds_add]
        congr 1
        ring
      rw [tb_allowRun_cons]
      by_cases hn : n ≤ 0
      · rw [tb_AllowN_nonpos l key n now hn]
        have hrest := ih l b hb hrate hburst htok hlast
          (fun c hc => le_trans hLnow (hrestge c hc)) hrestsorted
        have hnq : (n : ℚ) ≤ 0 := by exact_mod_cast hn
        simp only [admittedUpTo, hnowt, and_self, if_true, Int.cast_add]
        linarith
      · by_cases hlt : ((l.getOrCreate key now).refill now).tokens < (n : ℚ)
        · rw [AllowN_of_lt l key n now (by omega) hlt]
          simp only [hg] at hr0 hrle ⊢
          have hrest : ((admittedUpTo t rest
              ((l.put key (b.refill now)).allowRun key rest).2 : Int) : ℚ) ≤
              (b.refill now).tokens + b.rate * Seconds (t - now) :=
            ih (l.put key (b.refill now)) (b.refill now) (put_same _ _ _) hrate hburst hr0
              hnowt hrestge hrestsorted
          simp only [admittedUpTo, Bool.false_eq_true, false_and, if_false, zero_add]
          rw [hsplit]
          nlinarith
        · have hle := not_lt.mp hlt
          rw [AllowN_of_le l key n now (by omega) hle]
          simp only [hg] at hr0 hrle hle ⊢
          have hrest : ((admittedUpTo t rest
              ((l.put key { b.refill now with
                tokens := (b.refill now).tokens - (n : ℚ) }).allowRun key rest).2 : Int) : ℚ) ≤
              ((b.refill now).tokens - (n : ℚ)) + b.rate * Seconds (t - now) :=
            ih (l.put key { b.refill now with tokens := (b.refill now).tokens - (n : ℚ) })
              { b.refill now with tokens := (b.refill now).tokens - (n : ℚ) }
              (put_same _ _ _) hrate hburst
              (by show 0 ≤ (b.refill now).tokens - (n : ℚ); linarith)
              hnowt hrestge hrestsorted
          simp only [admittedUpTo, hnowt, and_self, if_true, Int.cast_add]
          rw [hsplit]
          nlinarith
    · have hzero := admittedUpTo_of_later t ((n, now) :: rest)
        (l.allowRun key ((n, now) :: rest)).2 (by
          intro c hc
          rcases List.mem_cons.mp hc with rfl | hc
          · show t < now
            omega
          · have := hrestge c hc
            omega)
      rw [hzero]
      simpa using hbound0

/-- The bound of a run on a key that has no bucket yet, for calls from `t0` on. -/
theorem tb_bound_fresh (key : String) (t t0 : Int) (calls : List (Int × Int)) :
    ∀ (l : tokenBucket), l.buckets key = none → 0 ≤ l.rate → 0 ≤ l.burst → t0 ≤ t →
      (∀ c ∈ calls, t0 ≤ c.2) → (calls.map Prod.snd).Pairwise (fun x y => x ≤ y) →
      ((admittedUpTo t calls (l.allowRun key calls).2 : Int) : ℚ) ≤
        (l.burst : ℚ) + l.rate * Seconds (t - t0) := by
  induction calls with
  | nil =>
    intro l _ hrate hburst ht _ _
    have := Seconds_nonneg (show 0 ≤ t - t0 by omega)
    have hb : (0 : ℚ) ≤ (l.burst : ℚ) := by exact_mod_cast hburst
    simp only [admittedUpTo, Int.cast_zero]
    positivity
  | cons c rest ih =>
    intro l hfresh hrate hburst ht hge hsorted
    obtain ⟨n, now⟩ := c
    have hb : (0 : ℚ) ≤ (l.burst : ℚ) := by exact_mod_cast hburst
    have ht0now : t0 ≤ now := hge (n, now) (List.mem_cons_self _ _)
    simp only [List.map_cons, List.pairwise_cons] at hsorted
    obtain ⟨hnowle, hrestsorted⟩ := hsorted
    have hrestge : ∀ c ∈ rest, now ≤ c.2 := by
      intro c hc
      exact hnowle c.2 (List.mem_map_of_mem Prod.snd hc)
    have hbound0 : (0 : ℚ) ≤ (l.burst : ℚ) + l.rate * Seconds (t - t0) := by
      have := Seconds_nonneg (show 0 ≤ t - t0 by omega)
      positivity
    by_cases hnowt : now ≤ t
    · have hmono : Seconds (t - now) ≤ Seconds (t - t0) := Seconds_mono (by omega)
      have hg := getOrCreate_of_none l key now hfresh
      have hr : ((l.getOrCreate key now).refill now).tokens = (l.burst : ℚ) := by
        rw [hg]
        simp [bucket.refill, Seconds_zero]
      rw [tb_allowRun_cons]
      by_cases hn : n ≤ 0
      · rw [tb_AllowN_nonpos l key n now hn]
        have hrest := ih l hfresh hrate hburst ht
          (fun c hc => le_trans ht0now (hrestge c hc)) hrestsorted
        have hnq : (n : ℚ) ≤ 0 := by exact_mod_cast hn
        simp only [admittedUpTo, hnowt, and_self, if_true, Int.cast_add]
        linarith
      · by_cases hlt : ((l.getOrCreate key now).refill now).tokens < (n : ℚ)
        · rw [AllowN_of_lt l key n now (by omega) hlt]
          have hrest : ((admittedUpTo t rest
              ((l.put key ((l.getOrCreate key now).refill now)).allowRun key rest).2 : Int) : ℚ) ≤
              ((l.getOrCreate key now).refill now).tokens + l.rate * Seconds (t - now) := by
            have h := tb_bound_present key t rest
              (l.put key ((l.getOrCreate key now).refill now))
              ((l.getOrCreate key now).refill now) (put_same _ _ _)
              (by rw [hg]; exact hrate) (by rw [hg]; exact hb) (by rw [hr]; exact hb) hnowt
              hrestge hrestsorted
            have e1 : ((l.getOrCreate key now).refill now).rate = l.rate := by rw [hg]; rfl
            have e2 : ((l.getOrCreate key now).refill now).last = now := rfl
            rw [e1, e2] at h
            exact h
          rw [hr] at hrest
          simp only [admittedUpTo, Bool.false_eq_true, false_and, if_false, zero_add]
          nlinarith
        · have hle := not_lt.mp hlt
          rw [AllowN_of_le l key n now (by omega) hle]
          have hrest : ((admittedUpTo t rest
              ((l.put key { (l.getOrCreate key now).refill now with
                tokens := ((l.getOrCreate key now).refill now).tokens - (n : ℚ) }).allowRun
                  key rest).2 : Int) : ℚ) ≤
              (((l.getOrCreate key now).refill now).tokens - (n : ℚ)) +
                l.rate * Seconds (t - now) := by
            have h := tb_bound_present key t rest
              (l.put key { (l.getOrCreate key now).refill now with
                tokens := ((l.getOrCreate key now).refill now).tokens - (n : ℚ) })
              { (l.getOrCreate key now).refill now with
                tokens := ((l.getOrCreate key now).refill now).tokens - (n : ℚ) }
              (put_same _ _ _) (by rw [hg]; exact hrate) (by rw [hg]; exact hb)
              (by show 0 ≤ ((l.getOrCreate key now).refill now).tokens - (n : ℚ); linarith)
              hnowt hrestge hrestsorted
            have e1 : ({ (l.getOrCreate key now).refill now with
                tokens := ((l.getOrCreate key now).refill now).tokens - (n : ℚ) } : bucket).rate =
                l.rate := by rw [hg]; rfl
            rw [e1] at h
            exact h
          simp only [admittedUpTo, hnowt, and_self, if_true, Int.cast_add]
          nlinarith
    · have hzero := admittedUpTo_of_later t ((n, now) :: rest)
        (l.allowRun key ((n, now) :: rest)).2 (by
          intro c hc
          rcases List.mem_cons.mp hc with rfl | hc
          · show t < now
            omega
          · have := hrestge c hc
            omega)
      rw [hzero]
      simpa using hbound0

/-- C28.  For a token bucket limiter with rate and burst not below zero, a key without
a bucket, and a run of `AllowN` calls on that key with non-decreasing instants, the
first at `t0`: for every instant `t` from `t0` on, the sum of the costs of the calls
admitted at instants up to `t` is at most `burst + rate * (t - t0)`, the time in
seconds. -/
theorem C28_token_bucket_rate_bound (l : tokenBucket) (key : String) (n0 t0 : Int)
    (rest : List (Int × Int)) (t : Int) (hrate : 0 ≤ l.rate) (hburst : 0 ≤ l.burst)
    (hfresh : l.buckets key = none)
    (hsorted : List.Chain' (fun x y => x ≤ y) (((n0, t0) :: rest).map Prod.snd))
    (ht : t0 ≤ t) :
    ((admittedUpTo t ((n0, t0) :: rest) (l.allowRun key ((n0, t0) :: rest)).2 : Int) : ℚ) ≤
      (l.burst : ℚ) + l.rate * Seconds (t - t0) := by
  have hpair : (((n0, t0) :: rest).map Prod.snd).Pairwise (fun x y => x ≤ y) :=
    List.chain'_iff_pairwise.mp hsorted
  have hge : ∀ c ∈ (n0, t0) :: rest, t0 ≤ c.2 := by
    intro c hc
    rcases List.mem_cons.mp hc with rfl | hc
    · exact le_refl _
    · simp only [List.map_cons, List.pairwise_cons] at hpair
      exact hpair.1 c.2 (List.mem_map_of_mem Prod.snd hc)
  exact tb_bound_fresh key t t0 _ l hfresh hrate hburst ht hge hpair

theorem C28_token_bucket_rate_bound_witness :
    ((admittedUpTo 1000000000 [(3, 0), (1, 0), (2, 1000000000)]
        ((NewTokenBucket [WithRate 2, WithBurst 3]).allowRun "k"
          [(3, 0), (1, 0), (2, 1000000000)]).2 : Int) : ℚ) ≤
      ((NewTokenBucket [WithRate 2, WithBurst 3]).burst : ℚ) +
        (NewTokenBucket [WithRate 2, WithBurst 3]).rate * Seconds (1000000000 - 0) :=
  C28_token_bucket_rate_bound (NewTokenBucket [WithRate 2, WithBurst 3]) "k" 3 0
    [(1, 0), (2, 1000000000)] 1000000000
    (by norm_num [NewTokenBucket, WithRate, WithBurst])
    (by norm_num [NewTokenBucket, WithRate, WithBurst]) rfl (by simp) (by decide)

end ratelimit

/-! ## Claim on the trailing window of the sliding window -/

namespace ratelimit

open tokenBucket slidingWindow

/-- Dropping entries with positive counts does not raise the sum. -/
theorem sumCounts_filter_le (p : window → Bool) (ws : List window)
    (hpos : ∀ w ∈ ws, 0 < w.count) : sumCounts (ws.filter p) ≤ sumCounts ws := by
  induction ws with
  | nil => simp [sumCounts]
  | cons w ws ih =>
    have hw : 0 < w.count := hpos w (List.mem_cons_self _ _)
    have hrest := ih (fun x hx => hpos x (List.mem_cons_of_mem _ hx))
    by_cases h : p w = true
    · simp only [List.filter_cons, h, if_true, sumCounts_cons]
      omega
    · simp only [List.filter_cons, h, sumCounts_cons]
      simp only [Bool.false_eq_true, if_false]
      omega

theorem sumCounts_filter_nonneg (p : window → Bool) (ws : List window)
    (hpos : ∀ w ∈ ws, 0 < w.count) : 0 ≤ sumCounts (ws.filter p) := by
  induction ws with
  | nil => simp [sumCounts]
  | cons w ws ih =>
    have hw : 0 < w.count := hpos w (List.mem_cons_self _ _)
    have hrest := ih (fun x hx => hpos x (List.mem_cons_of_mem _ hx))
    by_cases h : p w = true
    · simp only [List.filter_cons, h, if_true, sumCounts_cons]
      omega
    · simp only [List.filter_cons, h, Bool.false_eq_true, if_false]
      exact hrest

/-- Pruning at a threshold that is not above `e` keeps the entries above `e`. -/
theorem liveSum_filter (e e2 : Int) (ws : List window) (h : e2 ≤ e) :
    liveSum e (ws.filter (fun w => decide (w.timestamp > e2))) = liveSum e ws := by
  unfold liveSum
  rw [List.filter_filter]
  congr 1
  apply List.filter_congr
  intro w _
  by_cases hw : w.timestamp > e
  · have : w.timestamp > e2 := by omega
    simp [hw, this]
  · simp [hw]

theorem liveSum_cons (e : Int) (w : window) (ws : List window) :
    liveSum e (w :: ws) = (if w.timestamp > e then w.count else 0) + liveSum e ws := by
  unfold liveSum
  by_cases h : w.timestamp > e
  · simp [List.filter_cons, h, sumCounts_cons]
  · simp [List.filter_cons, h]

theorem liveSum_addToFirst (e ts n : Int) (ws ws2 : List window)
    (h : addToFirst ts n ws = some ws2) :
    liveSum e ws2 = liveSum e ws + (if ts > e then n else 0) := by
  induction ws generalizing ws2 with
  | nil => simp [addToFirst] at h
  | cons w ws ih =>
    by_cases hw : w.timestamp = ts
    · simp only [addToFirst, hw, if_true, Option.some.injEq] at h
      rw [← h, liveSum_cons, liveSum_cons, hw]
      by_cases hts : ts > e
      · simp only [hts, if_true]
        ring
      · simp only [hts, if_false]
        ring
    · simp only [addToFirst, hw, if_false, Option.map_eq_some'] at h
      obtain ⟨rest, hrest, hws2⟩ := h
      rw [← hws2, liveSum_cons, liveSum_cons, ih rest hrest]
      ring

/-- The update adds `n` to the entries above `e` exactly when the bucket is above `e`. -/
theorem liveSum_upsert (e ts n : Int) (ws : List window) :
    liveSum e (upsert ws ts n) = liveSum e ws + (if ts > e then n else 0) := by
  unfold upsert
  cases h : addToFirst ts n ws with
  | some ws2 => exact liveSum_addToFirst e ts n ws ws2 h
  | none =>
    simp only
    unfold liveSum
    rw [List.filter_append]
    by_cases hts : ts > e
    · simp [sumCounts, hts]
    · simp [sumCounts, hts]

theorem pos_upsert (ws : List window) (ts n : Int) (hn : 0 < n)
    (hpos : ∀ w ∈ ws, 0 < w.count) : ∀ w ∈ upsert ws ts n, 0 < w.count := by
  unfold upsert
  cases h : addToFirst ts n ws with
  | none =>
    intro w hw
    simp only [List.mem_append, List.mem_singleton] at hw
    rcases hw with hw | hw
    · exact hpos w hw
    · rw [hw]; exact hn
  | some ws2 =>
    obtain ⟨pre, x, post, hsplit, _, _, hws2⟩ := addToFirst_eq_some ts n ws ws2 h
    intro w hw
    simp only [hws2, List.mem_append, List.mem_cons] at hw
    have hx : 0 < x.count := hpos x (by rw [hsplit]; simp)
    rcases hw with hw | hw | hw
    · exact hpos w (by rw [hsplit]; simp [hw])
    · rw [hw]
      show 0 < x.count + n
      omega
    · exact hpos w (by rw [hsplit]; simp [hw])

theorem liveSum_le_sumCounts (e : Int) (ws : List window) (hpos : ∀ w ∈ ws, 0 < w.count) :
    liveSum e ws ≤ sumCounts ws :=
  sumCounts_filter_le _ ws hpos

theorem Unix_mono {a b : Int} (h : a ≤ b) : Unix a ≤ Unix b := by
  unfold Unix
  omega

theorem admittedWhere_cons (p : Int → Bool) (n now : Int) (calls : List (Int × Int))
    (ok : Bool) (oks : List Bool) :
    admittedWhere p ((n, now) :: calls) (ok :: oks) =
      (if ok = true ∧ p now = true then n else 0) + admittedWhere p calls oks := rfl

/-- A run of `AllowN` calls on a key whose entries have positive counts that sum up to
at most `maxRequests`, with a precision of at least one second: the run does not panic,
the entries keep these properties, and for a threshold `e` that no call of the run
prunes above, the entries above `e` grow at least by the cost admitted into buckets
above `e`. -/
theorem sw_run_bound (key : String) (e : Int) (calls : List (Int × Int)) :
    ∀ (l : slidingWindow), 1 ≤ l.precisionSeconds →
      (∀ w ∈ (l.windows key).getD [], 0 < w.count) →
      sumCounts ((l.windows key).getD []) ≤ l.maxRequests →
      (∀ c ∈ calls, l.expireTime c.2 ≤ e) →
      ∃ (l2 : slidingWindow) (oks : List Bool),
        l.allowRun key calls = some (l2, oks) ∧
        (∀ w ∈ (l2.windows key).getD [], 0 < w.count) ∧
        sumCounts ((l2.windows key).getD []) ≤ l.maxRequests ∧
        liveSum e ((l.windows key).getD []) +
            admittedWhere (fun now => decide (l.bucketOf now > e)) calls oks ≤
          liveSum e ((l2.windows key).getD []) := by
  induction calls with
  | nil =>
    intro l _ hpos hsum _
    exact ⟨l, [], rfl, hpos, hsum, by simp [admittedWhere]⟩
  | cons c rest ih =>
    intro l hp hpos hsum hexp
    obtain ⟨n, now⟩ := c
    have hexpnow : l.expireTime now ≤ e := hexp (n, now) (List.mem_cons_self _ _)
    have hexprest : ∀ c ∈ rest, l.expireTime c.2 ≤ e :=
      fun c hc => hexp c (List.mem_cons_of_mem _ hc)
    have hvpos : ∀ w ∈ l.validWindows key now, 0 < w.count := by
      intro w hw
      exact hpos w (List.mem_of_mem_filter hw)
    have hvsum : sumCounts (l.validWindows key now) ≤ l.maxRequests :=
      le_trans (sumCounts_filter_le _ _ hpos) hsum
    have hvlive : liveSum e (l.validWindows key now) = liveSum e ((l.windows key).getD []) :=
      liveSum_filter e (l.expireTime now) _ hexpnow
    have hcur : l.currentTimestamp now = some (l.bucketOf now) := by
      have hp0 : l.precisionSeconds ≠ 0 := by omega
      simp [slidingWindow.currentTimestamp, slidingWindow.bucketOf, hp0]
    by_cases hn : n ≤ 0
    · obtain ⟨l2, oks, hrun, hpos2, hsum2, hlive2⟩ := ih l hp hpos hsum hexprest
      refine ⟨l2, true :: oks, ?_, hpos2, hsum2, ?_⟩
      · simp [slidingWindow.allowRun, sw_AllowN_nonpos l key n now hn, hrun]
      · rw [admittedWhere_cons]
        have : (if true = true ∧ decide (l.bucketOf now > e) = true then n else 0) ≤ 0 := by
          split <;> omega
        omega
    · by_cases hover : sumCounts (l.validWindows key now) + n > l.maxRequests
      · have hstep := sw_AllowN_over l key n now (by omega) hover
        obtain ⟨l2, oks, hrun, hpos2, (hsum2 : _ ≤ l.maxRequests),
            (hlive2 : liveSum e (((l.put key (l.validWindows key now)).windows key).getD []) +
              admittedWhere (fun now => decide (l.bucketOf now > e)) rest oks ≤ _)⟩ :=
          ih (l.put key (l.validWindows key now)) hp
            (by rw [sw_put_same]; exact hvpos) (by rw [sw_put_same]; exact hvsum) hexprest
        rw [sw_put_same] at hlive2
        refine ⟨l2, false :: oks, ?_, hpos2, hsum2, ?_⟩
        · simp [slidingWindow.allowRun, hstep, hrun]
        · rw [admittedWhere_cons]
          simp only [Bool.false_eq_true, false_and, if_false, zero_add]
          simp only [Option.getD_some] at hlive2
          rw [← hvlive]
          exact hlive2
      · have hstep := sw_AllowN_fit l key n now (l.bucketOf now) (by omega) hover hcur
        obtain ⟨l2, oks, hrun, hpos2, (hsum2 : _ ≤ l.maxRequests),
            (hlive2 : liveSum e (((l.put key
                (upsert (l.validWindows key now) (l.bucketOf now) n)).windows key).getD []) +
              admittedWhere (fun now => decide (l.bucketOf now > e)) rest oks ≤ _)⟩ :=
          ih (l.put key (upsert (l.validWindows key now) (l.bucketOf now) n)) hp
            (by rw [sw_put_same]; exact pos_upsert _ _ _ (by omega) hvpos)
            (by
              rw [sw_put_same]
              simp only [Option.getD_some]
              rw [sumCounts_upsert]
              show _ ≤ l.maxRequests
              omega)
            hexprest
        rw [sw_put_same] at hlive2
        simp only [Option.getD_some] at hlive2
        rw [liveSum_upsert, hvlive] at hlive2
        refine ⟨l2, true :: oks, ?_, hpos2, hsum2, ?_⟩
        · simp [slidingWindow.allowRun, hstep, hrun]
        · rw [admittedWhere_cons]
          by_cases hb : l.bucketOf now > e
          · simp only [hb, if_true] at hlive2
            simp only [hb, decide_True, and_self, if_true]
            omega
          · simp only [hb, if_false] at hlive2
            simp only [hb, decide_False, Bool.false_eq_true, and_false, if_false]
            omega

/-- One call of `AllowN` on a key whose entries have positive counts that sum up to at
most `maxRequests`, with a precision of at least one second: the call does not panic, it
keeps the settings, and the entries keep these properties. -/
theorem sw_AllowN_keeps (l : slidingWindow) (key : String) (n now : Int)
    (hp : 1 ≤ l.precisionSeconds) (hpos : ∀ w ∈ (l.windows key).getD [], 0 < w.count)
    (hsum : sumCounts ((l.windows key).getD []) ≤ l.maxRequests) :
    ∃ d : Decision slidingWindow, l.AllowN key n now = some d ∧
      d.l.rate = l.rate ∧ d.l.window = l.window ∧ d.l.precision = l.precision ∧
      (∀ w ∈ (d.l.windows key).getD [], 0 < w.count) ∧
      sumCounts ((d.l.windows key).getD []) ≤ l.maxRequests := by
  have hvpos : ∀ w ∈ l.validWindows key now, 0 < w.count := by
    intro w hw
    exact hpos w (List.mem_of_mem_filter hw)
  have hvsum : sumCounts (l.validWindows key now) ≤ l.maxRequests :=
    le_trans (sumCounts_filter_le _ _ hpos) hsum
  have hcur : l.currentTimestamp now = some (l.bucketOf now) := by
    have hp0 : l.precisionSeconds ≠ 0 := by omega
    simp [slidingWindow.currentTimestamp, slidingWindow.bucketOf, hp0]
  by_cases hn : n ≤ 0
  · exact ⟨_, sw_AllowN_nonpos l key n now hn, rfl, rfl, rfl, hpos, hsum⟩
  · by_cases hover : sumCounts (l.validWindows key now) + n > l.maxRequests
    · refine ⟨_, sw_AllowN_over l key n now (by omega) hover, rfl, rfl, rfl, ?_, ?_⟩
      · show ∀ w ∈ ((l.put key (l.validWindows key now)).windows key).getD [], 0 < w.count
        rw [sw_put_same]
        exact hvpos
      · show sumCounts (((l.put key (l.validWindows key now)).windows key).getD []) ≤ _
        rw [sw_put_same]
        exact hvsum
    · refine ⟨_, sw_AllowN_fit l key n now (l.bucketOf now) (by omega) hover hcur, rfl, rfl,
        rfl, ?_, ?_⟩
      · show ∀ w ∈ ((l.put key (upsert (l.validWindows key now) (l.bucketOf now) n)).windows
          key).getD [], 0 < w.count
        rw [sw_put_same]
        exact pos_upsert _ _ _ (by omega) hvpos
      · show sumCounts (((l.put key (upsert (l.validWindows key now) (l.bucketOf now)
          n)).windows key).getD []) ≤ _
        rw [sw_put_same]
        simp only [Option.getD_some]
        rw [sumCounts_upsert]
        omega

/-- A run of `AllowN` calls on a key whose entries have positive counts that sum up to
at most `maxRequests`, on a limiter with a window and a precision of whole seconds, the
product `rate * W` a `float64`, and every `int64` of the calls in range (the Unix second
of each call and its expiry threshold, `maxRequests`, and `maxRequests` plus each cost
below `2 ^ 63`): the run with the arithmetic of the machine is the run with exact
arithmetic. -/
theorem machine_sw_allowRun_eq (key : String) (W P : Int) (R : ℚ)
    (hWr : -2 ^ 53 ≤ W ∧ W ≤ 2 ^ 53) (hPr : 1 ≤ P ∧ P ≤ 2 ^ 53)
    (hexact : machine.float64 (R * (W : ℚ)) = some (R * (W : ℚ)))
    (hmax : machine.isInt64 (toInt64 (R * (W : ℚ)))) (calls : List (Int × Int)) :
    ∀ l : slidingWindow, l.rate = R → l.window = W * Second → l.precision = P * Second →
      (∀ w ∈ (l.windows key).getD [], 0 < w.count) →
      sumCounts ((l.windows key).getD []) ≤ toInt64 (R * (W : ℚ)) →
      (∀ c ∈ calls, machine.isInt64 (Unix c.2) ∧ machine.isInt64 (Unix c.2 - W) ∧
        c.1 + toInt64 (R * (W : ℚ)) < 2 ^ 63) →
      machine.slidingWindow.allowRun l key calls = l.allowRun key calls := by
  induction calls with
  | nil =>
    intro l _ _ _ _ _ _
    rfl
  | cons c rest ih =>
    intro l hR hW hP hpos hsum hcalls
    obtain ⟨n, now⟩ := c
    obtain ⟨hnow, hexp, hcost⟩ := hcalls (n, now) (List.mem_cons_self _ _)
    obtain ⟨_, hmaxeq, hprec, _⟩ := sw_whole_seconds l W P hW hP
    rw [hR] at hmaxeq
    have hvsum : sumCounts (l.validWindows key now) ≤ toInt64 (R * (W : ℚ)) :=
      le_trans (sumCounts_filter_le _ _ hpos) hsum
    have hstep := machine_sw_AllowN_eq l key n now W P hW hP hWr hPr (by rw [hR]; exact hexact)
      (by rw [hR]; exact hmax) hnow hexp
      (fun w hw => le_of_lt (hpos w (List.mem_of_mem_filter hw)))
      (by simp only at hcost; omega)
    obtain ⟨d, hd, hdR, hdW, hdP, hdpos, hdsum⟩ :=
      sw_AllowN_keeps l key n now (by rw [hprec]; exact hPr.1) hpos (by rw [hmaxeq]; exact hsum)
    rw [hmaxeq] at hdsum
    have hrest := ih d.l (by rw [hdR, hR]) (by rw [hdW, hW]) (by rw [hdP, hP]) hdpos hdsum
      (fun c hc => hcalls c (List.mem_cons_of_mem _ hc))
    rw [machine.slidingWindow.allowRun, slidingWindow.allowRun, hstep, hd, Option.some_bind,
      Option.some_bind, hrest]

/-- On a limiter with rate one per second, a window of two seconds and a precision of
two seconds, at most two requests fit the window; a call of cost two at the Unix second
one and a call of cost two at the Unix second two are both admitted, so at the second
call the cost admitted at the seconds `s` with `2 - 2 < s ≤ 2` is four. -/
theorem sw_coarse_precision_admits_twice :
    (NewSlidingWindow [WithRate 1, WithWindow (2 * Second),
        WithPrecision (2 * Second)]).maxRequests = 2 ∧
      ((NewSlidingWindow [WithRate 1, WithWindow (2 * Second),
        WithPrecision (2 * Second)]).allowRun "k"
          [(2, 1 * Second), (2, 2 * Second)]).map Prod.snd = some [true, true] ∧
      admittedWhere (fun now => decide (2 - 2 < Unix now ∧ Unix now ≤ 2))
        [(2, 1 * Second), (2, 2 * Second)] [true, true] = 4 := by
  have h2 : toInt64 (Seconds (2 * Second)) = 2 := by
    norm_num [toInt64, Seconds, Second]
  have hmax : toInt64 (1 * Seconds (2 * Second)) = 2 := by
    norm_num [toInt64, Seconds, Second]
  have hmax2 : toInt64 (Seconds (2 * Second)) = 2 := h2
  have hu1 : Unix Second = 1 := by decide
  have hu2 : Unix (2 * Second) = 2 := by decide
  have hm1 : Int.tmod 1 2 = 1 := by decide
  have hm2 : Int.tmod 2 2 = 0 := by decide
  refine ⟨?_, ?_, by decide⟩
  · simpa [NewSlidingWindow, WithRate, WithWindow, WithPrecision, slidingWindow.maxRequests]
      using hmax2
  · simp [NewSlidingWindow, WithRate, WithWindow, WithPrecision, slidingWindow.allowRun,
      slidingWindow.AllowN, slidingWindow.validWindows, slidingWindow.expireTime,
      slidingWindow.maxRequests, slidingWindow.currentTimestamp,
      slidingWindow.precisionSeconds, slidingWindow.put, sumCounts, upsert, addToFirst, h2,
      hu1, hu2, hm1, hm2]

/-- For a sliding window limiter with a precision of at least one whole second and
`maxRequests` not below zero, a key without entries and a run of `AllowN` calls with
non-decreasing instants that ends with a call at `t`: no call panics, and the cost
admitted so far, the last call included, into precision buckets that start after
`t.Unix()` minus the window is at most `maxRequests`. -/
theorem sw_window_bound (l : slidingWindow) (key : String)
    (pre : List (Int × Int)) (n t : Int) (hp : 1 ≤ l.precisionSeconds)
    (hmax : 0 ≤ l.maxRequests) (hfresh : l.windows key = none)
    (hsorted : List.Chain' (fun x y => x ≤ y) ((pre ++ [(n, t)]).map Prod.snd)) :
    (∃ (l2 : slidingWindow) (oks : List Bool),
        l.allowRun key (pre ++ [(n, t)]) = some (l2, oks) ∧
        admittedWhere (fun now => decide (l.bucketOf now > l.expireTime t))
          (pre ++ [(n, t)]) oks ≤ l.maxRequests) ∧
      (l.precisionSeconds = 1 → ∀ now, l.bucketOf now = Unix now) ∧
      l.expireTime t = Unix t - toInt64 (Seconds l.window) := by
  refine ⟨?_, ?_, rfl⟩
  · have hpair : ((pre ++ [(n, t)]).map Prod.snd).Pairwise (fun x y => x ≤ y) :=
      List.chain'_iff_pairwise.mp hsorted
    have hle : ∀ c ∈ pre ++ [(n, t)], c.2 ≤ t := by
      intro c hc
      rw [List.map_append, List.pairwise_append] at hpair
      rcases List.mem_append.mp hc with hc | hc
      · exact hpair.2.2 c.2 (List.mem_map_of_mem Prod.snd hc) t (by simp)
      · simp only [List.mem_singleton] at hc
        rw [hc]
    have hexp : ∀ c ∈ pre ++ [(n, t)], l.expireTime c.2 ≤ l.expireTime t := by
      intro c hc
      have := Unix_mono (hle c hc)
      unfold slidingWindow.expireTime
      omega
    obtain ⟨l2, oks, hrun, hpos2, hsum2, hlive2⟩ :=
      sw_run_bound key (l.expireTime t) (pre ++ [(n, t)]) l hp (by simp [hfresh])
        (by simpa [hfresh, sumCounts] using hmax) hexp
    refine ⟨l2, oks, hrun, ?_⟩
    have h0 : liveSum (l.expireTime t) ((l.windows key).getD []) = 0 := by
      simp [hfresh, liveSum, sumCounts]
    have hle2 := liveSum_le_sumCounts (l.expireTime t) _ hpos2
    omega
  · intro h1 now
    simp [slidingWindow.bucketOf, h1]

/-- The sum of the admitted costs depends on the predicate only at the instants of the
calls. -/
theorem admittedWhere_congr (p q : Int → Bool) (calls : List (Int × Int)) :
    ∀ (oks : List Bool), (∀ c ∈ calls, p c.2 = q c.2) →
      admittedWhere p calls oks = admittedWhere q calls oks := by
  induction calls with
  | nil =>
    intro oks _
    cases oks <;> rfl
  | cons c rest ih =>
    intro oks h
    obtain ⟨n, now⟩ := c
    cases oks with
    | nil => rfl
    | cons ok oks =>
      rw [admittedWhere_cons, admittedWhere_cons,
        ih oks (fun c hc => h c (List.mem_cons_of_mem _ hc))]
      have := h (n, now) (List.mem_cons_self _ _)
      simp only at this
      rw [this]

/-- C26, as stated, fails, in four ways.  The requests are counted per precision
bucket: on a limiter with rate one per second, a window of two seconds and a precision
of two seconds, `floor(rate * W)` is two; a call of cost two at the Unix second one and
a call of cost two at the Unix second two are both admitted, so at the second call the
cost admitted at the seconds `s` with `2 - 2 < s ≤ 2` is four.  The sums are `int64`: on
a limiter with rate ten and a window and a precision of one second, a call of cost one
and a call of cost `2 ^ 63 - 1` at the Unix second zero are both admitted, with the
arithmetic of the machine, so the cost admitted at that second is `2 ^ 63`, where
`floor(rate * W)` is ten.  The rate may be below zero: on a limiter with rate minus
one and a window and a precision of one second, a call of cost one is rejected, and the
cost admitted, zero, is above `floor(rate * W) = -1`.  And the product `rate * W` is
rounded: on a limiter whose rate is the `float64` nearest to `0.7`, with a window of ten
seconds and a precision of one second, `floor(rate * W)` is six, yet a call of cost
seven is admitted, with the arithmetic of the machine. -/
theorem C26_counterexample :
    (⌊(1 : ℚ) * Seconds (2 * Second)⌋ = 2 ∧
      ((NewSlidingWindow [WithRate 1, WithWindow (2 * Second),
        WithPrecision (2 * Second)]).allowRun "k"
          [(2, 1 * Second), (2, 2 * Second)]).map Prod.snd = some [true, true] ∧
      admittedWhere (fun now => decide (2 - 2 < Unix now ∧ Unix now ≤ 2))
        [(2, 1 * Second), (2, 2 * Second)] [true, true] = 4) ∧
    (∃ d1 d2 : Decision slidingWindow,
      machine.slidingWindow.AllowN slidingWindowExample "k" 1 0 = some d1 ∧
      d1.ok = true ∧
      machine.slidingWindow.AllowN d1.l "k" 9223372036854775807 0 = some d2 ∧
      d2.ok = true ∧ ⌊(10 : ℚ) * Seconds Second⌋ = 10 ∧
      admittedWhere (fun now => decide (0 - 1 < Unix now ∧ Unix now ≤ 0))
        [(1, 0), (9223372036854775807, 0)] [true, true] = 9223372036854775808) ∧
    (⌊(-1 : ℚ) * Seconds Second⌋ = -1 ∧
      ((NewSlidingWindow [WithRate (-1), WithWindow Second,
        WithPrecision Second]).allowRun "k" [(1, 0)]).map Prod.snd = some [false] ∧
      admittedWhere (fun now => decide (0 - 1 < Unix now ∧ Unix now ≤ 0))
        [(1, 0)] [false] = 0) ∧
    ((machine.slidingWindow.AllowN
        (NewSlidingWindow [WithRate (3152519739159347 / 4503599627370496),
          WithWindow (10 * Second), WithPrecision Second]) "k" 7 0).map (fun d => d.ok) =
        some true ∧
      ⌊(3152519739159347 / 4503599627370496 : ℚ) * Seconds (10 * Second)⌋ = 6 ∧
      admittedWhere (fun now => decide (0 - 10 < Unix now ∧ Unix now ≤ 0))
        [(7, 0)] [true] = 7) := by
  refine ⟨⟨?_, sw_coarse_precision_admits_twice.2.1, sw_coarse_precision_admits_twice.2.2⟩,
    ?_, ⟨?_, ?_, ?_⟩, machine_sw_rounds.1, machine_sw_rounds.2, by decide⟩
  · norm_num [Seconds, Second]
  · obtain ⟨d1, d2, h1, hok1, _, h2, hok2, _⟩ := machine_sw_wraps
    refine ⟨d1, d2, h1, hok1, h2, hok2, ?_, by decide⟩
    norm_num [Seconds, Second]
  · norm_num [Seconds, Second]
  · have hneg : toInt64 ((-1 : ℚ) * 1) = -1 := by
      have h : (-1 : ℚ) * 1 = ((-1 : Int) : ℚ) := by norm_num
      rw [h, toInt64_intCast]
    have hmax : (NewSlidingWindow [WithRate (-1), WithWindow Second,
        WithPrecision Second]).maxRequests = -1 := by
      rw [slidingWindow.maxRequests]
      show toInt64 ((-1 : ℚ) * Seconds Second) = -1
      rw [Seconds_Second, hneg]
    have hv : (NewSlidingWindow [WithRate (-1), WithWindow Second,
        WithPrecision Second]).validWindows "k" 0 = [] := rfl
    have h := sw_AllowN_over (NewSlidingWindow [WithRate (-1), WithWindow Second,
        WithPrecision Second]) "k" 1 0 (by decide) (by rw [hv, hmax]; decide)
    rw [slidingWindow.allowRun, h, Option.some_bind, slidingWindow.allowRun]
    rfl
  · decide

/-- C26, amended.  For a sliding window limiter with a rate not below zero whose window
is a whole number `W` of seconds and whose precision is a whole number `P` of seconds,
with `1 ≤ P ≤ W` (the window a duration), a key without entries and a run of `AllowN`
calls with non-decreasing instants that ends with a call at `t`; when the arithmetic of
the machine is exact, that is when the product `rate * W` is a `float64`, so that it is
not rounded, and no `int64` overflows (`floor(rate * W)` is in range and, for every call
of the run, so are its Unix second, its Unix second minus `W`, and its cost plus
`floor(rate * W)`): no call panics, the decisions with the arithmetic of the machine are
those with exact arithmetic, and the cost admitted so far, the last call included, into
precision buckets whose start `b` satisfies `t.Unix() - W < b` is at most
`floor(rate * W)`, where the bucket of a call made at the Unix second `s` starts at `s`
minus the remainder of `s` by `P`.  With a precision of one second the bucket of a call
is its Unix second, so that the bound is on the cost admitted at the seconds `s` with
`t.Unix() - W < s ≤ t.Unix()`. -/
theorem C26_window_bound_by_buckets (l : slidingWindow) (key : String)
    (pre : List (Int × Int)) (n t W P : Int) (hrate : 0 ≤ l.rate)
    (hW : l.window = W * Second) (hP : l.precision = P * Second) (hP1 : 1 ≤ P)
    (hPW : P ≤ W) (hWd : machine.isInt64 (W * Second))
    (hexact : machine.float64 (l.rate * (W : ℚ)) = some (l.rate * (W : ℚ)))
    (hmax : ⌊l.rate * (W : ℚ)⌋ < 2 ^ 63)
    (hcalls : ∀ c ∈ pre ++ [(n, t)], machine.isInt64 (Unix c.2) ∧
      machine.isInt64 (Unix c.2 - W) ∧ c.1 + ⌊l.rate * (W : ℚ)⌋ < 2 ^ 63)
    (hfresh : l.windows key = none)
    (hsorted : List.Chain' (fun x y => x ≤ y) ((pre ++ [(n, t)]).map Prod.snd)) :
    ∃ (l2 : slidingWindow) (oks : List Bool),
      l.allowRun key (pre ++ [(n, t)]) = some (l2, oks) ∧
      machine.slidingWindow.allowRun l key (pre ++ [(n, t)]) = some (l2, oks) ∧
      admittedWhere (fun now => decide (Unix now - Int.tmod (Unix now) P > Unix t - W))
        (pre ++ [(n, t)]) oks ≤ ⌊l.rate * (W : ℚ)⌋ ∧
      (P = 1 →
        admittedWhere (fun now => decide (Unix t - W < Unix now ∧ Unix now ≤ Unix t))
          (pre ++ [(n, t)]) oks ≤ ⌊l.rate * (W : ℚ)⌋) := by
  obtain ⟨hexp, hmaxeq, hprec, _⟩ := sw_whole_seconds l W P hW hP
  have hprod : 0 ≤ l.rate * (W : ℚ) := by
    have : (0 : ℚ) ≤ (W : ℚ) := by exact_mod_cast (by omega : (0 : Int) ≤ W)
    exact mul_nonneg hrate this
  have htrunc : toInt64 (l.rate * (W : ℚ)) = ⌊l.rate * (W : ℚ)⌋ := toInt64_of_nonneg hprod
  have hfloor : l.maxRequests = ⌊l.rate * (W : ℚ)⌋ := by
    rw [hmaxeq, htrunc]
  have hfloor0 : 0 ≤ ⌊l.rate * (W : ℚ)⌋ := Int.floor_nonneg.mpr hprod
  have hnonneg : 0 ≤ l.maxRequests := by
    rw [hfloor]
    exact hfloor0
  obtain ⟨⟨l2, oks, hrun, hbound⟩, _, _⟩ :=
    sw_window_bound l key pre n t (by rw [hprec]; exact hP1) hnonneg hfresh hsorted
  have hWr := seconds_of_duration W hWd
  have hmachine := machine_sw_allowRun_eq key W P l.rate hWr ⟨hP1, by omega⟩ hexact
    (by rw [htrunc]; exact ⟨by omega, hmax⟩) (pre ++ [(n, t)]) l rfl hW hP
    (by simp [hfresh]) (by rw [htrunc]; simpa [hfresh, sumCounts] using hfloor0)
    (by rw [htrunc]; exact hcalls)
  have hpred : (fun now => decide (l.bucketOf now > l.expireTime t)) =
      (fun now => decide (Unix now - Int.tmod (Unix now) P > Unix t - W)) := by
    funext now
    rw [slidingWindow.bucketOf, hprec, hexp]
  rw [hpred, hfloor] at hbound
  refine ⟨l2, oks, hrun, hmachine.trans hrun, hbound, ?_⟩
  intro h1
  have hpair : ((pre ++ [(n, t)]).map Prod.snd).Pairwise (fun x y => x ≤ y) :=
    List.chain'_iff_pairwise.mp hsorted
  have hle : ∀ c ∈ pre ++ [(n, t)], c.2 ≤ t := by
    intro c hc
    rw [List.map_append, List.pairwise_append] at hpair
    rcases List.mem_append.mp hc with hc | hc
    · exact hpair.2.2 c.2 (List.mem_map_of_mem Prod.snd hc) t (by simp)
    · simp only [List.mem_singleton] at hc
      rw [hc]
  rw [admittedWhere_congr
    (fun now => decide (Unix t - W < Unix now ∧ Unix now ≤ Unix t))
    (fun now => decide (Unix now - Int.tmod (Unix now) P > Unix t - W))
    (pre ++ [(n, t)]) oks ?_]
  · exact hbound
  · intro c hc
    have hu := Unix_mono (hle c hc)
    have hmod : Int.tmod (Unix c.2) P = 0 := by
      rw [h1]
      exact Int.tmod_one _
    simp only [hmod]
    by_cases hc2 : Unix t - W < Unix c.2
    · simp [hc2, hu]
    · simp [hc2]

theorem C26_window_bound_by_buckets_witness :
    ∃ (l2 : slidingWindow) (oks : List Bool),
      slidingWindowExample.allowRun "k" ([(4, 0), (7, 5)] ++ [(6, 7)]) = some (l2, oks) ∧
      machine.slidingWindow.allowRun slidingWindowExample "k" ([(4, 0), (7, 5)] ++ [(6, 7)]) =
        some (l2, oks) ∧
      admittedWhere (fun now => decide (Unix now - Int.tmod (Unix now) 1 > Unix 7 - 1))
        ([(4, 0), (7, 5)] ++ [(6, 7)]) oks ≤ ⌊slidingWindowExample.rate * ((1 : Int) : ℚ)⌋ ∧
      ((1 : Int) = 1 →
        admittedWhere (fun now => decide (Unix 7 - 1 < Unix now ∧ Unix now ≤ Unix 7))
          ([(4, 0), (7, 5)] ++ [(6, 7)]) oks ≤
            ⌊slidingWindowExample.rate * ((1 : Int) : ℚ)⌋) := by
  have hprod : slidingWindowExample.rate * ((1 : Int) : ℚ) = 10 := by
    norm_num [slidingWindowExample, NewSlidingWindow, WithRate, WithWindow, WithPrecision]
  have hfloor : ⌊slidingWindowExample.rate * ((1 : Int) : ℚ)⌋ = 10 := by
    rw [hprod]
    norm_num
  exact C26_window_bound_by_buckets slidingWindowExample "k" [(4, 0), (7, 5)] 6 7 1 1
    (by norm_num [slidingWindowExample, NewSlidingWindow, WithRate, WithWindow,
      WithPrecision])
    (by decide) (by decide) (by decide) (by decide) ⟨by decide, by decide⟩
    (by rw [hprod]; exact machine_float64_ten) (by rw [hfloor]; decide)
    (by
      rw [hfloor]
      intro c hc
      simp only [List.cons_append, List.nil_append, List.mem_cons, List.mem_singleton,
        List.not_mem_nil, or_false] at hc
      rcases hc with rfl | rfl | rfl <;>
        exact ⟨⟨by decide, by decide⟩, ⟨by decide, by decide⟩, by decide⟩)
    rfl (by simp)

end ratelimit

/-! ## Claim on the distributed limiter and the token bucket -/

namespace ratelimit

open tokenBucket slidingWindow

/-- A rate with two decimals is its own `%.2f` text. -/
theorem formatRate_of_two_decimals (rate : ℚ) (h : ∃ k : Int, rate = (k : ℚ) / 100) :
    formatRate rate = rate := by
  obtain ⟨k, hk⟩ := h
  have hx : rate * 100 = (k : ℚ) := by rw [hk]; field_simp
  simp [formatRate, hx, hk]

theorem Unix_whole (t : Int) : Unix (t * Second) = t := by
  unfold Unix Second
  omega

theorem Seconds_whole (t L : Int) : Seconds (t * Second - L * Second) = (t : ℚ) - (L : ℚ) := by
  unfold Seconds Second
  push_cast
  field_simp
  ring

/-- Refilling a capped level in two steps is refilling it in one. -/
theorem min_flow (B a d : ℚ) (hd : 0 ≤ d) : min B (min B a + d) = min B (a + d) := by
  rcases le_total B a with h | h
  · rw [min_eq_left h, min_eq_left (by linarith), min_eq_left (by linarith)]
  · rw [min_eq_right h]

/-- The script, in terms of the level it computes. -/
theorem luaScript_eq (h : Hash) (c : EvalCall) :
    luaScript h c =
      if scriptLevel (c.burst : ℚ) c.rate h c.now < (c.requested : ℚ) then
        ({ allowed := 0,
           wait := ((c.requested : ℚ) - scriptLevel (c.burst : ℚ) c.rate h c.now) / c.rate }, h)
      else
        ({ allowed := 1, wait := 0 },
          { last := some (c.now : ℚ)
            tokens := some (scriptLevel (c.burst : ℚ) c.rate h c.now - (c.requested : ℚ))
            ttl := some c.ttl }) := rfl

theorem scriptLevel_absent (B r : ℚ) (h : Hash) (t : Int) (hl : h.last = none)
    (ht : h.tokens = none) : scriptLevel B r h t = B := by
  simp [scriptLevel, hl, ht]

theorem scriptLevel_present (B r : ℚ) (h : Hash) (t L : Int) (x : ℚ)
    (hl : h.last = some (L : ℚ)) (ht : h.tokens = some x) (hLt : L ≤ t) :
    scriptLevel B r h t = min B (x + ((t : ℚ) - (L : ℚ)) * r) := by
  have : (0 : ℚ) ≤ (t : ℚ) - (L : ℚ) := by
    have : (L : ℚ) ≤ (t : ℚ) := by exact_mod_cast hLt
    linarith
  simp [scriptLevel, hl, ht, max_eq_right this]

/-- The level that the script computes later follows from the level it computes now. -/
theorem scriptLevel_flow (B r : ℚ) (h : Hash) (tprev s t : Int) (hr : 0 ≤ r)
    (hw : h.writtenBy tprev) (hs : tprev ≤ s) (hst : s ≤ t) :
    scriptLevel B r h t = min B (scriptLevel B r h s + ((t : ℚ) - (s : ℚ)) * r) := by
  have hd : (0 : ℚ) ≤ ((t : ℚ) - (s : ℚ)) * r := by
    have : (s : ℚ) ≤ (t : ℚ) := by exact_mod_cast hst
    exact mul_nonneg (by linarith) hr
  rcases hw with ⟨hl, ht⟩ | ⟨L, x, hl, ht, hL⟩
  · rw [scriptLevel_absent B r h t hl ht, scriptLevel_absent B r h s hl ht]
    rw [min_eq_left (by linarith)]
  · rw [scriptLevel_present B r h t L x hl ht (by omega),
      scriptLevel_present B r h s L x hl ht (by omega), min_flow _ _ _ hd]
    congr 1
    ring

theorem levelAt_put (l : tokenBucket) (key : String) (b : bucket) (t : Int) :
    (l.put key b).levelAt key t =
      min b.burst (b.tokens + Seconds (t * Second - b.last) * b.rate) := by
  simp [tokenBucket.levelAt, getOrCreate_put, refill_tokens]

theorem getOrCreate_settings (l : tokenBucket) (key : String) (tprev now : Int)
    (h : l.refilledBy key tprev) :
    (l.getOrCreate key now).rate = l.rate ∧ (l.getOrCreate key now).burst = (l.burst : ℚ) := by
  rcases h with h | ⟨b, L, hb, hrate, hburst, _, _⟩
  · rw [getOrCreate_of_none l key now h]
    exact ⟨rfl, rfl⟩
  · rw [getOrCreate_of_some l key now b hb]
    exact ⟨hrate, hburst⟩

/-- One call of `AllowN` of the distributed limiter over the store that runs the
script: the decision is that of the script, and the store holds the hash that the
script leaves. -/
theorem redis_AllowN_script (rl : redisLimiter (String → Hash)) (hrdb : rl.rdb = scriptClient)
    (s : String → Hash) (key : String) (n now : Int) (hn : 0 < n) :
    (rl.AllowN s key n now).out =
        (decide ((luaScript (s key) (rl.evalCall key n now)).1.allowed = 1), none) ∧
      (rl.AllowN s key n now).store key = (luaScript (s key) (rl.evalCall key n now)).2 := by
  have hn0 : ¬ n ≤ 0 := by omega
  have hkey : (rl.evalCall key n now).key = key := rfl
  simp [redisLimiter.AllowN, hn0, hrdb, scriptClient, hkey]

theorem redis_allowRun_cons {σ : Type} (rl : redisLimiter σ) (key : String) (s : σ)
    (n now : Int) (rest : List (Int × Int)) :
    (rl.allowRun key s ((n, now) :: rest)).2 =
      (rl.AllowN s key n now).out :: (rl.allowRun key (rl.AllowN s key n now).store rest).2 :=
  rfl

/-- The simulation: from a store and a token bucket limiter that compute the same level
for the key at every whole second from `tprev` on, a run of calls with positive costs at
non-decreasing whole seconds from `tprev` on gets the same decisions from both. -/
theorem redis_run_eq_bucket_run (rl : redisLimiter (String → Hash))
    (hrdb : rl.rdb = scriptClient) (key : String) (calls : List (Int × Int)) :
    ∀ (s : String → Hash) (tb : tokenBucket) (tprev : Int),
      formatRate rl.rate = tb.rate → rl.burst = tb.burst → 0 ≤ tb.rate →
      (s key).writtenBy tprev → tb.refilledBy key tprev →
      (∀ t, tprev ≤ t →
        scriptLevel (tb.burst : ℚ) tb.rate (s key) t = tb.levelAt key t) →
      (∀ c ∈ calls, 0 < c.1 ∧ tprev ≤ c.2) →
      (calls.map Prod.snd).Pairwise (fun x y => x ≤ y) →
      (rl.allowRun key s (calls.map fun c => (c.1, c.2 * Second))).2 =
        (tb.allowRun key (calls.map fun c => (c.1, c.2 * Second))).2.map
          (fun ok => (ok, none)) := by
  induction calls with
  | nil =>
    intro s tb tprev _ _ _ _ _ _ _ _
    rfl
  | cons c rest ih =>
    intro s tb tprev hfr hfb hrate hw hb hlev hcalls hsorted
    obtain ⟨n, sec⟩ := c
    obtain ⟨hn, hsec⟩ := hcalls (n, sec) (List.mem_cons_self _ _)
    simp only [List.map_cons, List.pairwise_cons] at hsorted
    obtain ⟨hsecle, hrestsorted⟩ := hsorted
    have hrest : ∀ c ∈ rest, 0 < c.1 ∧ sec ≤ c.2 := by
      intro c hc
      exact ⟨(hcalls c (List.mem_cons_of_mem _ hc)).1,
        hsecle c.2 (List.mem_map_of_mem Prod.snd hc)⟩
    -- the call as the store sees it
    have hcall : rl.evalCall key n (sec * Second) =
        { key := key, now := sec, requested := n, rate := tb.rate, burst := tb.burst,
          ttl := toInt64 (Seconds rl.ttl) } := by
      simp [redisLimiter.evalCall, Unix_whole, hfr, hfb]
    obtain ⟨hout, hstore⟩ := redis_AllowN_script rl hrdb s key n (sec * Second) hn
    rw [hcall, luaScript_eq] at hout hstore
    simp only at hout hstore
    have hsettings := getOrCreate_settings tb key tprev (sec * Second) hb
    have hlevel : ((tb.getOrCreate key (sec * Second)).refill (sec * Second)).tokens =
        scriptLevel (tb.burst : ℚ) tb.rate (s key) sec := (hlev sec hsec).symm
    simp only [List.map_cons]
    rw [redis_allowRun_cons, tb_allowRun_cons]
    by_cases hlt : scriptLevel (tb.burst : ℚ) tb.rate (s key) sec < (n : ℚ)
    · -- rejected by both
      rw [if_pos hlt] at hout hstore
      have hA := AllowN_of_lt tb key n (sec * Second) hn (by rw [hlevel]; exact hlt)
      rw [hA]
      simp only [List.map_cons]
      rw [hout]
      have hih := ih (rl.AllowN s key n (sec * Second)).store
        (tb.put key ((tb.getOrCreate key (sec * Second)).refill (sec * Second))) sec
        hfr hfb hrate
        (by
          rw [hstore]
          rcases hw with h | ⟨L, x, hl, ht, hL⟩
          · exact Or.inl h
          · exact Or.inr ⟨L, x, hl, ht, by omega⟩)
        (Or.inr ⟨_, sec, put_same _ _ _, hsettings.1, hsettings.2, rfl, le_refl _⟩)
        (by
          intro t ht
          rw [hstore, levelAt_put]
          show _ = min ((tb.getOrCreate key (sec * Second)).refill (sec * Second)).burst
            (((tb.getOrCreate key (sec * Second)).refill (sec * Second)).tokens +
              Seconds (t * Second - sec * Second) *
                ((tb.getOrCreate key (sec * Second)).refill (sec * Second)).rate)
          rw [hlevel, Seconds_whole]
          show _ = min (tb.getOrCreate key (sec * Second)).burst
            (_ + _ * (tb.getOrCreate key (sec * Second)).rate)
          rw [hsettings.1, hsettings.2]
          exact scriptLevel_flow _ _ _ tprev sec t hrate hw hsec ht)
        hrest hrestsorted
      rw [hih]
      simp
    · -- admitted by both
      rw [if_neg hlt] at hout hstore
      have hA := AllowN_of_le tb key n (sec * Second) hn (by rw [hlevel]; exact not_lt.mp hlt)
      rw [hA]
      simp only [List.map_cons]
      rw [hout]
      have hih := ih (rl.AllowN s key n (sec * Second)).store
        (tb.put key { (tb.getOrCreate key (sec * Second)).refill (sec * Second) with
          tokens := ((tb.getOrCreate key (sec * Second)).refill (sec * Second)).tokens -
            (n : ℚ) }) sec
        hfr hfb hrate
        (by
          rw [hstore]
          exact Or.inr ⟨sec, _, rfl, rfl, le_refl _⟩)
        (Or.inr ⟨_, sec, put_same _ _ _, hsettings.1, hsettings.2, rfl, le_refl _⟩)
        (by
          intro t ht
          rw [hstore, levelAt_put]
          rw [scriptLevel_present _ _ _ t sec _ rfl rfl ht]
          show _ = min (tb.getOrCreate key (sec * Second)).burst
            ((((tb.getOrCreate key (sec * Second)).refill (sec * Second)).tokens - (n : ℚ)) +
              Seconds (t * Second - sec * Second) * (tb.getOrCreate key (sec * Second)).rate)
          rw [hlevel, Seconds_whole, hsettings.1, hsettings.2]
          rfl)
        hrest hrestsorted
      rw [hih]
      simp

/-- C22.  The distributed limiter makes the decisions of the in-process token bucket:
for a rate above zero with two decimals, a burst, a key and a run of `AllowN` calls with
costs above zero at non-decreasing whole seconds, the decisions (and nil errors) that the
distributed limiter returns, over a store that runs the script and holds nothing for the
key at the start, are the decisions that `AllowN` of a fresh token bucket limiter with
the same rate and burst returns. -/
theorem C22_distributed_decides_as_token_bucket (rate : ℚ) (burst ttl : Int) (key : String)
    (s : String → Hash) (calls : List (Int × Int))
    (hrate : 0 < rate) (hdec : ∃ k : Int, rate = (k : ℚ) / 100)
    (habsent : (s key).last = none ∧ (s key).tokens = none)
    (hpos : ∀ c ∈ calls, 0 < c.1)
    (hsorted : List.Chain' (fun x y => x ≤ y) (calls.map Prod.snd)) :
    ((NewRedisLimiter scriptClient [WithRate rate, WithBurst burst, WithTTL ttl]).allowRun key s
        (calls.map fun c => (c.1, c.2 * Second))).2 =
      ((NewTokenBucket [WithRate rate, WithBurst burst]).allowRun key
        (calls.map fun c => (c.1, c.2 * Second))).2.map (fun ok => (ok, none)) := by
  have hpair : (calls.map Prod.snd).Pairwise (fun x y => x ≤ y) :=
    List.chain'_iff_pairwise.mp hsorted
  cases calls with
  | nil => rfl
  | cons c rest =>
    have hfirst : ∀ d ∈ c :: rest, 0 < d.1 ∧ c.2 ≤ d.2 := by
      intro d hd
      refine ⟨hpos d hd, ?_⟩
      rcases List.mem_cons.mp hd with rfl | hd
      · exact le_refl _
      · simp only [List.map_cons, List.pairwise_cons] at hpair
        exact hpair.1 d.2 (List.mem_map_of_mem Prod.snd hd)
    exact redis_run_eq_bucket_run _ rfl key (c :: rest) s
      (NewTokenBucket [WithRate rate, WithBurst burst]) c.2
      (formatRate_of_two_decimals rate hdec) rfl hrate.le (Or.inl habsent) (Or.inl rfl)
      (by
        intro t _
        rw [scriptLevel_absent _ _ _ _ habsent.1 habsent.2]
        simp [tokenBucket.levelAt, getOrCreate_of_none, NewTokenBucket, WithRate, WithBurst,
          bucket.refill, Seconds_zero])
      hfirst hpair

theorem C22_distributed_decides_as_token_bucket_witness :
    ((NewRedisLimiter scriptClient [WithRate (5 / 2), WithBurst 3, WithTTL Hour]).allowRun "k"
        (fun _ => {}) ([(2, 0), (2, 0), (5, 1), (2, 1)].map fun c => (c.1, c.2 * Second))).2 =
      ((NewTokenBucket [WithRate (5 / 2), WithBurst 3]).allowRun "k"
        ([(2, 0), (2, 0), (5, 1), (2, 1)].map fun c => (c.1, c.2 * Second))).2.map
          (fun ok => (ok, none)) :=
  C22_distributed_decides_as_token_bucket (5 / 2) 3 Hour "k" (fun _ => {})
    [(2, 0), (2, 0), (5, 1), (2, 1)] (by norm_num) ⟨250, by norm_num⟩ ⟨rfl, rfl⟩
    (by decide) (by simp)

end ratelimit
